import Mathlib

/-
  Verification development for scripts/convert-claude-plugin.mjs, a converter
  that turns a Claude-plugin package (markdown commands and skills with a
  YAML-like frontmatter header) into two installation layouts (an OpenCode
  configuration and a Codex prompts/skills tree).

  The JavaScript source is embedded shallowly:
  - JS strings are modelled as Lean `String` (sequences of Unicode scalars);
    the string operations the script uses (trim, toLowerCase, regex matches,
    template interpolation) are implemented here over `List Char` following
    the exact JS semantics of the regular expressions in the source.
  - JS numbers that the frontmatter codec produces are modelled by their
    canonical decimal rendering (a `String`).  This is exact for decimals
    whose canonical form has at most 15 significant digits and magnitude in
    the range where JS prints plain decimal notation; theorems about numeric
    scalars are scoped to that region with the `jsNumSafe` guard.
  - The filesystem is modelled as a finite map from path strings to file
    contents; directory creation is a no-op in that model, `fs.writeFile`
    is an insert-or-replace update, and a skill's source directory is
    embedded as the list of (relative path, content) pairs it contains.
  - `path.resolve` is modelled with POSIX semantics (the platform the
    script runs on here), assuming the first argument is absolute, which
    holds in the script because the plugin root is itself resolved.
-/

/-! ## JS character classes and basic string operations -/

/-- The character class of the JS regex `\s` (also the set trimmed by
`String.prototype.trim`): ASCII whitespace, NBSP, the Unicode space
separators, the line/paragraph separators and the BOM. -/
def jsWs (c : Char) : Bool :=
  c = ' ' || c = '\t' || c = '\n' || c = '\r' || c = '\x0b' || c = '\x0c' ||
  c = '\u00a0' || c = '\u1680' || c = '\u2000' || c = '\u2001' || c = '\u2002' ||
  c = '\u2003' || c = '\u2004' || c = '\u2005' || c = '\u2006' || c = '\u2007' ||
  c = '\u2008' || c = '\u2009' || c = '\u200a' || c = '\u2028' || c = '\u2029' ||
  c = '\u202f' || c = '\u205f' || c = '\u3000' || c = '\ufeff'

/-- Characters that the JS regex `.` (without the `s` flag) does not match:
newline, carriage return, line separator, paragraph separator. -/
def jsDotExcluded (c : Char) : Bool :=
  c = '\n' || c = '\r' || c = '\u2028' || c = '\u2029'

/-- Model of `String.prototype.trim` on the left, over char lists. -/
def jsTrimLeftL (l : List Char) : List Char := l.dropWhile jsWs

/-- Model of `String.prototype.trim`, over char lists. -/
def jsTrimL (l : List Char) : List Char :=
  ((l.dropWhile jsWs).reverse.dropWhile jsWs).reverse

/-- Model of `String.prototype.trim`. -/
def jsTrim (s : String) : String := ⟨jsTrimL s.data⟩

/-- Model of `String.prototype.trimEnd`, over char lists. -/
def jsTrimEndL (l : List Char) : List Char := (l.reverse.dropWhile jsWs).reverse

/-- Split on the JS regex `\r?\n`: split at each newline, stripping one
carriage return immediately preceding it. -/
def splitLinesRN : List Char → List (List Char)
  | [] => [[]]
  | '\r' :: '\n' :: t => [] :: splitLinesRN t
  | '\n' :: t => [] :: splitLinesRN t
  | c :: t =>
    match splitLinesRN t with
    | [] => [[c]]
    | l :: ls => (c :: l) :: ls

/-! ## Scalar coercion (`coerceYamlScalar`) -/

/-- Tagged scalar values the frontmatter codec produces: the closed variant
string / number / boolean, numbers carried via their canonical decimal
rendering. -/
inductive YScalar where
  | str (s : String)
  | num (repr : String)
  | bool (b : Bool)
  deriving DecidableEq, Repr

/-- Frontmatter values: a scalar or an ordered list of scalars. -/
inductive YVal where
  | scalar (s : YScalar)
  | list (items : List YScalar)
  deriving DecidableEq, Repr

/-- A parsed frontmatter header: an insertion-ordered key/value mapping,
modelling the plain JS object built by `parseSimpleYaml`. -/
abbrev Yobj := List (String × YVal)

/-- Lookup in an insertion-ordered string-keyed mapping (JS property read). -/
def getEntry {α : Type} : List (String × α) → String → Option α
  | [], _ => none
  | (k, v) :: t, key => if k = key then some v else getEntry t key

/-- Update in an insertion-ordered string-keyed mapping (JS property write):
an existing key keeps its position, a new key is appended. -/
def setEntry {α : Type} : List (String × α) → String → α → List (String × α)
  | [], key, v => [(key, v)]
  | (k, w) :: t, key, v =>
    if k = key then (k, v) :: t else (k, w) :: setEntry t key v

/-- Decimal-digit parse of one char. -/
def isDigitChar (c : Char) : Bool := '0' ≤ c && c ≤ '9'

/-- Splits a char list as the JS regex `^-?\d+(\.\d+)?$` would: returns the
sign, the integer digits and the fractional digits on a full match. -/
def parseDecimal (l : List Char) : Option (Bool × List Char × List Char) :=
  let neg : Bool := decide (l.head? = some '-')
  let l1 := if neg then l.tail else l
  let ip := l1.takeWhile isDigitChar
  let rest := l1.drop ip.length
  if ip = [] then none
  else if rest = [] then some (neg, ip, [])
  else if rest.head? = some '.' then
    let fp := rest.tail.takeWhile isDigitChar
    if fp = [] then none
    else if rest.tail.drop fp.length = [] then some (neg, ip, fp) else none
  else none

/-- True when the char list matches the JS regex `^-?\d+(\.\d+)?$`. -/
def matchesNumRegexL (l : List Char) : Bool := (parseDecimal l).isSome

/-- Canonical rendering of a plain decimal literal: what JS
`String(Number(s))` produces for in-range decimals — no redundant leading
zeros, no trailing fractional zeros, no negative zero. -/
def canonDecimalL (l : List Char) : List Char :=
  match parseDecimal l with
  | none => l
  | some (neg, ip, fp) =>
    let ip1 := ip.dropWhile (· = '0')
    let ip2 := if ip1 = [] then ['0'] else ip1
    let fp1 := (fp.reverse.dropWhile (· = '0')).reverse
    let zero := ip2 = ['0'] && fp1 = []
    (if neg && !zero then ['-'] else []) ++ ip2 ++
      (if fp1 = [] then [] else '.' :: fp1)

/-- Model of `coerceYamlScalar` over char lists: unwraps a value enclosed in
matching quotes, recognizes the literal booleans, coerces a plain decimal
literal to a number, and keeps everything else as a string. -/
def coerceYamlScalarL (v : List Char) : YScalar :=
  match v with
  | q :: rest =>
    if (q = '"' || q = '\'') && rest ≠ [] && rest.getLast? = some q &&
        rest.dropLast.all (fun c => !jsDotExcluded c) then
      .str ⟨rest.dropLast⟩
    else if v = ['t', 'r', 'u', 'e'] then .bool true
    else if v = ['f', 'a', 'l', 's', 'e'] then .bool false
    else if matchesNumRegexL v then .num ⟨canonDecimalL v⟩
    else .str ⟨v⟩
  | [] => .str ""

/-- Model of `coerceYamlScalar`. -/
def coerceYamlScalar (v : String) : YScalar := coerceYamlScalarL v.data

/-! ## Header line grammar (`parseSimpleYaml`) -/

/-- Key characters of the header grammar: the JS class `[A-Za-z0-9_-]`. -/
def keyChar (c : Char) : Bool :=
  ('A' ≤ c && c ≤ 'Z') || ('a' ≤ c && c ≤ 'z') || ('0' ≤ c && c ≤ '9') ||
  c = '_' || c = '-'

/-- Match of one header line against the JS regex
`^([A-Za-z0-9_-]+):\s*(.*)$`: returns the key and the captured value.  The
match fails when the part after the colon still contains a character the JS
dot cannot match once leading whitespace is dropped. -/
def matchKV (line : List Char) : Option (String × List Char) :=
  let key := line.takeWhile keyChar
  if key = [] then none
  else
    match line.drop key.length with
    | ':' :: rest =>
      let cap := rest.dropWhile jsWs
      if cap.all (fun c => !jsDotExcluded c) then some (⟨key⟩, cap) else none
    | _ => none

/-- Match of one header line against the JS regex `^\s*-\s+(.*)$`: a list
item line, returning the captured value. -/
def matchListItem (line : List Char) : Option (List Char) :=
  match line.dropWhile jsWs with
  | '-' :: t1 =>
    match t1 with
    | c :: _ =>
      if jsWs c then
        let cap := t1.dropWhile jsWs
        if cap.all (fun c => !jsDotExcluded c) then some cap else none
      else none
    | [] => none
  | _ => none

/-- Appends one coerced list item to the value of the currently open list
key: a non-array current value is first reset to the empty array, as in the
source. -/
def pushListItem (d : Yobj) (k : String) (sc : YScalar) : Yobj :=
  match getEntry d k with
  | some (.list l) => setEntry d k (.list (l ++ [sc]))
  | _ => setEntry d k (.list [sc])

/-- One step of the `parseSimpleYaml` line loop, carrying the mapping built
so far and the currently open list key. -/
def parseYamlLine (st : Yobj × Option String) (line : List Char) :
    Yobj × Option String :=
  let (d, clk) := st
  if line = [] || jsTrimL line = [] || (jsTrimL line).head? = some '#' then
    (d, clk)
  else
    match matchListItem line, clk with
    | some cap, some k => (pushListItem d k (coerceYamlScalarL (jsTrimL cap)), clk)
    | _, _ =>
      match matchKV line with
      | some (key, cap) =>
        if cap = [] then
          (if (getEntry d key).isSome then d
           else setEntry d key (.scalar (.str "")), some key)
        else (setEntry d key (.scalar (coerceYamlScalarL (jsTrimL cap))), none)
      | none => (d, clk)

/-- Model of `parseSimpleYaml` over char lists: splits on `\r?\n` and folds
the line grammar over the lines. -/
def parseSimpleYamlL (yamlText : List Char) : Yobj :=
  ((splitLinesRN yamlText).foldl parseYamlLine ([], none)).1

/-- Model of `parseSimpleYaml`. -/
def parseSimpleYaml (yamlText : String) : Yobj := parseSimpleYamlL yamlText.data

/-! ## Frontmatter document split (`parseFrontmatter`) -/

/-- Scan for the earliest occurrence of the closing-delimiter pattern
`\r?\n---` of the frontmatter regex: returns the text before it (capture
group 1) and the remainder after the three dashes. -/
def closeSplit : List Char → Option (List Char × List Char)
  | [] => none
  | c :: t =>
    if c = '\r' && t.take 4 = ['\n', '-', '-', '-'] then some ([], t.drop 4)
    else if c = '\n' && t.take 3 = ['-', '-', '-'] then some ([], t.drop 3)
    else (closeSplit t).map (fun g => (c :: g.1, g.2))

/-- Candidate starting points for capture group 1 of the frontmatter regex:
for each newline inside the whitespace run that follows the opening `---`,
the suffix after that newline.  The JS engine's greedy `\s*` tries the
rightmost newline first, so candidates are listed right-to-left. -/
def openCandidates (l : List Char) : List (List Char) :=
  (openCandidatesLtr l).reverse
where
  openCandidatesLtr : List Char → List (List Char)
    | [] => []
    | c :: t =>
      if jsWs c then (if c = '\n' then [t] else []) ++ openCandidatesLtr t
      else []

/-- Backtracking over the opening candidates: the first candidate whose
suffix contains a closing delimiter yields the match. -/
def tryOpens (raw : List Char) : List (List Char) → Yobj × String
  | [] => ([], ⟨raw⟩)
  | s :: ss =>
    match closeSplit s with
    | some (g, r) => (parseSimpleYamlL g, ⟨r.dropWhile jsWs⟩)
    | none => tryOpens raw ss

/-- Model of `parseFrontmatter`: matches the document against the JS regex
`^---\s*\r?\n([\s\S]*?)\r?\n---\s*\r?\n?([\s\S]*)$` with the engine's
backtracking order, returning the parsed header and the body; a document
with no delimiter pair is returned whole as the body with an empty header. -/
def parseFrontmatter (raw : String) : Yobj × String :=
  match raw.data with
  | '-' :: '-' :: '-' :: rest0 => tryOpens raw.data (openCandidates rest0)
  | _ => ([], raw)

/-! ## Frontmatter serialization (`formatFrontmatter`) -/

/-- One escape step of `JSON.stringify` on a string character. -/
def jsonEscapeChar (c : Char) : List Char :=
  if c = '"' then ['\\', '"']
  else if c = '\\' then ['\\', '\\']
  else if c = '\n' then ['\\', 'n']
  else if c = '\r' then ['\\', 'r']
  else if c = '\t' then ['\\', 't']
  else if c.val = 8 then ['\\', 'b']
  else if c.val = 12 then ['\\', 'f']
  else if c.val < 0x20 then
    ['\\', 'u', '0', '0',
     (if c.val / 16 = 1 then '1' else '0'),
     (Nat.digitChar (c.val.toNat % 16))]
  else [c]

/-- Model of `JSON.stringify` applied to a string value. -/
def jsonStringifyStr (s : String) : String :=
  ⟨'"' :: s.data.flatMap jsonEscapeChar ++ ['"']⟩

/-- Model of `renderYamlScalar`: numbers and booleans render literally,
strings render JSON-quoted. -/
def renderYamlScalar : YScalar → String
  | .num r => r
  | .bool true => "true"
  | .bool false => "false"
  | .str s => jsonStringifyStr s

/-- Joins strings with a separator, as `Array.prototype.join` does. -/
def joinWith (sep : String) : List String → String
  | [] => ""
  | [a] => a
  | a :: b :: t => a ++ sep ++ joinWith sep (b :: t)

/-- Model of `renderYamlKeyValue`: a list renders as a key line followed by
indented item lines, a scalar as a single key line. -/
def renderYamlKeyValue (key : String) : YVal → String
  | .list items =>
    key ++ ":\n" ++ joinWith "\n" (items.map (fun v => "  - " ++ renderYamlScalar v))
  | .scalar v => key ++ ": " ++ renderYamlScalar v

/-- True for values `formatFrontmatter` skips: the empty string (the model
has no undefined or null values). -/
def skipValue : YVal → Bool
  | .scalar (.str s) => s = ""
  | _ => false

/-- Model of `formatFrontmatter`: emits one rendered line block per
non-skipped entry in insertion order between delimiters, followed by the
trimmed body; with no renderable entries, emits only the trimmed body. -/
def formatFrontmatter (data : Yobj) (body : String) : String :=
  let yamlLines := (data.filter (fun e => !skipValue e.2)).map
    (fun e => renderYamlKeyValue e.1 e.2)
  let trimmedBody := jsTrim body
  if yamlLines = [] then trimmedBody ++ "\n"
  else "---\n" ++ joinWith "\n" yamlLines ++ "\n---\n\n" ++ trimmedBody ++ "\n"

/-! ## Name normalizer and uniquifier -/

/-- Structural worker for `replaceRunsWith`: the flag records whether the
scan is inside a run already replaced. -/
def replaceRunsWithAux (p : Char → Bool) (r : Char) : List Char → Bool → List Char
  | [], _ => []
  | c :: t, inRun =>
    if p c then
      (if inRun then replaceRunsWithAux p r t true
       else r :: replaceRunsWithAux p r t true)
    else c :: replaceRunsWithAux p r t false

/-- Replaces each maximal run of characters satisfying the predicate with a
single replacement character: one global JS `replace` of a `[class]+`
pattern. -/
def replaceRunsWith (p : Char → Bool) (r : Char) (l : List Char) : List Char :=
  replaceRunsWithAux p r l false

/-- Model of `String.prototype.toLowerCase` character by character.  This
uses the simple (ASCII) lowercase mapping; characters with no ASCII
lowercase form are untouched, which agrees with the script's use because
every non-ASCII character is replaced by a dash downstream. -/
def jsToLower (c : Char) : Char := c.toLower

/-- The JS class `[\\/]` of path separators replaced by `normalizeName`. -/
def pathSepChar (c : Char) : Bool := c = '\\' || c = '/'

/-- The JS class `[:\s]` of colons and whitespace replaced by
`normalizeName`. -/
def wsColonChar (c : Char) : Bool := c = ':' || jsWs c

/-- The slug alphabet `[a-z0-9_-]` kept by `normalizeName`. -/
def allowedSlugChar (c : Char) : Bool :=
  ('a' ≤ c && c ≤ 'z') || ('0' ≤ c && c ≤ '9') || c = '_' || c = '-'

/-- Complement of the slug alphabet, the class `[^a-z0-9_-]`. -/
def nonSlugChar (c : Char) : Bool := !allowedSlugChar c

/-- The dash class `[-]` collapsed by `normalizeName`. -/
def dashChar (c : Char) : Bool := c = '-'

/-- Model of the JS replace of `^-+|-+$` by the empty string: drops leading
and trailing dashes. -/
def trimDashes (l : List Char) : List Char :=
  ((l.dropWhile dashChar).reverse.dropWhile dashChar).reverse

/-- Model of `normalizeName` over char lists: trim, empty fallback,
lowercase, the four run replacements, dash trim, empty fallback. -/
def normalizeNameL (value : List Char) : List Char :=
  let trimmed := jsTrimL value
  if trimmed = [] then 'i' :: 't' :: 'e' :: 'm' :: []
  else
    let normalized := trimDashes (replaceRunsWith dashChar '-'
      (replaceRunsWith nonSlugChar '-' (replaceRunsWith wsColonChar '-'
        (replaceRunsWith pathSepChar '-' (trimmed.map jsToLower)))))
    if normalized = [] then 'i' :: 't' :: 'e' :: 'm' :: [] else normalized

/-- Model of `normalizeName`. -/
def normalizeName (value : String) : String := ⟨normalizeNameL value.data⟩

/-- Decimal digits of a positive number, most significant first, with
explicit fuel (the number itself suffices). -/
def natDigitsAux : Nat → Nat → List Char
  | 0, _ => []
  | f + 1, n =>
    if n = 0 then [] else natDigitsAux f (n / 10) ++ [Nat.digitChar (n % 10)]

/-- Model of JS number-to-string interpolation for a natural number. -/
def natToDecimal (n : Nat) : String := if n = 0 then "0" else ⟨natDigitsAux n n⟩

/-- Model of `Set.prototype.add`: appends the element unless present. -/
def addUsed (used : List String) (s : String) : List String :=
  if s ∈ used then used else used ++ [s]

/-- The probing loop of `uniqueName`: starting at index `i`, returns the
first index whose candidate name is free, with explicit fuel. -/
def probeFree (base : String) (used : List String) : Nat → Nat → Nat
  | 0, i => i
  | f + 1, i =>
    if (base ++ "-" ++ natToDecimal i) ∈ used then probeFree base used f (i + 1)
    else i

/-- Model of `uniqueName`: returns `base` and records it when free,
otherwise probes `base-2`, `base-3`, … for the first free candidate and
records that.  The used-name set is insertion-ordered like a JS `Set`;
fuel `used.length + 1` covers all possible collisions. -/
def uniqueName (base : String) (used : List String) : String × List String :=
  if base ∈ used then
    let name := base ++ "-" ++ natToDecimal (probeFree base used (used.length + 1) 2)
    (name, addUsed used name)
  else (base, addUsed used base)

/-- Model of `sanitizeDescription`: collapses whitespace runs to single
spaces, trims, and truncates to the length budget with an ellipsis marker.
Lengths count Unicode scalars where JS counts UTF-16 units; the script only
feeds it frontmatter text where the two agree for the claims below. -/
def sanitizeDescription (value : String) (maxLength : Nat) : String :=
  let normalized := jsTrimL (replaceRunsWith jsWs ' ' value.data)
  if normalized.length ≤ maxLength then ⟨normalized⟩
  else ⟨jsTrimEndL (normalized.take (maxLength - 3)) ++ ['.', '.', '.']⟩

/-! ## Entities and the loader -/

/-- A command entity as built by `loadCommands`. -/
structure Command where
  name : String
  description : Option String
  argumentHint : Option String
  allowedTools : Option (List String)
  disableModelInvocation : Bool
  body : String
  deriving DecidableEq, Repr

/-- A skill entity as built by `loadSkills`: the source directory it
borrows is embedded as its list of (relative path, content) files. -/
structure Skill where
  name : String
  files : List (String × String)
  deriving DecidableEq, Repr

/-- Model of JS `String(value)` on a frontmatter scalar. -/
def scalarToString : YScalar → String
  | .str s => s
  | .num r => r
  | .bool true => "true"
  | .bool false => "false"

/-- Model of JS `String(value)` on a frontmatter value: arrays stringify as
their comma-joined elements. -/
def yvalToString : YVal → String
  | .scalar s => scalarToString s
  | .list items => String.intercalate "," (items.map scalarToString)

/-- JS truthiness of a frontmatter scalar. -/
def scalarTruthy : YScalar → Bool
  | .str s => s ≠ ""
  | .num r => r ≠ "0"
  | .bool b => b

/-- JS truthiness of a frontmatter value (arrays are always truthy). -/
def yvalTruthy : YVal → Bool
  | .scalar s => scalarTruthy s
  | .list _ => true

/-- Identity fallback of the loaders: `(data.field && String(data.field))
|| fallback` — the fallback applies when the field is absent, falsy, or
stringifies to the empty string. -/
def nameOrFallback (v : Option YVal) (fallback : String) : String :=
  match v with
  | some v => if yvalTruthy v && yvalToString v ≠ "" then yvalToString v else fallback
  | none => fallback

/-- Optional string field of the loaders: `data.field ? String(data.field)
: undefined`. -/
def optField (v : Option YVal) : Option String :=
  match v with
  | some v => if yvalTruthy v then some (yvalToString v) else none
  | none => none

/-- Model of the per-file body of `loadCommands`: builds one command entity
from a file's base name (the `path.basename(file, ".md")` of its path,
computed by the caller) and its raw contents. -/
def commandOfFile (baseName : String) (raw : String) : Command :=
  let pf := parseFrontmatter raw
  let data := pf.1
  { name := nameOrFallback (getEntry data "name") baseName
    description := optField (getEntry data "description")
    argumentHint := optField (getEntry data "argument-hint")
    allowedTools := match getEntry data "allowed-tools" with
      | some (.list l) => some (l.map scalarToString)
      | _ => none
    disableModelInvocation := match getEntry data "disable-model-invocation" with
      | some (.scalar (.bool true)) => true
      | _ => false
    body := jsTrim pf.2 }

/-! ## Filesystem model and installers -/

/-- Destination filesystems: a finite insertion-ordered map from file path
to file content.  Directories are implicit, so `ensureDir` is a no-op. -/
abbrev Fs := List (String × String)

/-- File read. -/
def fsGet (fs : Fs) (p : String) : Option String := getEntry fs p

/-- Model of `fs.writeFile`: insert or replace. -/
def fsSet (fs : Fs) (p content : String) : Fs := setEntry fs p content

/-- Model of `pathExists` on the destination filesystem. -/
def pathExists (fs : Fs) (p : String) : Bool := (fsGet fs p).isSome

/-- Model of `copyDir`: writes every file of the source directory under the
target directory, replacing files that already exist. -/
def copyDir (fs : Fs) (targetDir : String) (files : List (String × String)) : Fs :=
  files.foldl (fun f e => fsSet f (targetDir ++ "/" ++ e.1) e.2) fs

/-- The installed-configuration JSON values of installer A.  Numbers are
carried by their canonical decimal rendering. -/
inductive Json where
  | null
  | bool (b : Bool)
  | num (repr : String)
  | str (s : String)
  | arr (elems : List Json)
  | obj (entries : List (String × Json))

/-- JS truthiness of a configuration value. -/
def jsTruthyJson : Json → Bool
  | .null => false
  | .bool b => b
  | .num r => r ≠ "0"
  | .str s => s ≠ ""
  | .arr _ => true
  | .obj _ => true

/-- The value installed for one command in installer A's `command` map:
`{description, template}`.  A key whose JS value is `undefined` (absent
description) is omitted, as `JSON.stringify` omits it from the written
file. -/
def commandJson (c : Command) : Json :=
  .obj ((match c.description with
    | some d => [("description", Json.str d)]
    | none => []) ++ [("template", Json.str c.body)])

/-- Result of an `installOpenCode` run: the destination filesystem, the
configuration object as written back (the JSON file round-trip is
abstracted to the parsed value), and the collision report. -/
structure OpenCodeResult where
  fs : Fs
  config : Json
  skippedCommands : List String

/-- The per-command merge step of `installOpenCode`: a suppressed command
is skipped silently, a name already present in the map (own-property test)
is reported and left untouched, otherwise the entry is added. -/
def openCodeStep (st : List (String × Json) × List String) (c : Command) :
    List (String × Json) × List String :=
  if c.disableModelInvocation then st
  else if (getEntry st.1 c.name).isSome then (st.1, st.2 ++ [c.name])
  else (setEntry st.1 c.name (commandJson c), st.2)

/-- Model of `installOpenCode`: copies each skill directory unconditionally,
reads (or initializes) the configuration, guards non-object configurations
to an empty object, ensures `$schema`, merges the commands and writes the
configuration back. -/
def installOpenCode (opencodeRoot : String) (fs : Fs) (configIn : Option Json)
    (commands : List Command) (skills : List Skill) : OpenCodeResult :=
  let fs1 := skills.foldl
    (fun f s => copyDir f (opencodeRoot ++ "/skills/" ++ s.name) s.files) fs
  let entries : List (String × Json) :=
    match configIn.getD (.obj []) with
    | .obj e => e
    | _ => []
  let schemaVal := match getEntry entries "$schema" with
    | some v => if jsTruthyJson v then v else .str "https://opencode.ai/config.json"
    | none => .str "https://opencode.ai/config.json"
  let e2 := setEntry entries "$schema" schemaVal
  let commandMap : List (String × Json) :=
    match getEntry e2 "command" with
    | some (.obj m) => m
    | _ => []
  let res := commands.foldl openCodeStep (commandMap, [])
  { fs := fs1, config := .obj (setEntry e2 "command" (.obj res.1)),
    skippedCommands := res.2 }

/-- State of an `installCodex` run: destination filesystem, the two
used-name sets, and the overwrite reports. -/
structure CodexState where
  fs : Fs
  promptNames : List String
  usedSkillNames : List String
  overwrittenPrompts : List String
  overwrittenSkills : List String
  deriving DecidableEq, Repr

/-- JS truthiness of an optional string field. -/
def jsOptTruthy (o : Option String) : Bool :=
  match o with
  | some s => s ≠ ""
  | none => false

/-- The generated skill document installer B writes for one command, given
the uniquified generated-skill name. -/
def codexSkillDoc (genSkillName : String) (command : Command) : String :=
  let skillFrontmatter : Yobj :=
    [("name", .scalar (.str genSkillName)),
     ("description", .scalar (.str (sanitizeDescription
       ((command.description).getD ("Converted from Claude command " ++ command.name)) 1024)))]
  let skillSections : List String :=
    (if jsOptTruthy command.argumentHint then
      ["## Arguments\n" ++ command.argumentHint.getD ""] else []) ++
    (match command.allowedTools with
      | some ts =>
        if ts.length > 0 then
          ["## Allowed tools\n" ++ String.intercalate "\n" (ts.map (fun t => "- " ++ t))]
        else []
      | none => []) ++ [command.body]
  formatFrontmatter skillFrontmatter
    (String.intercalate "\n\n" (skillSections.filter (fun s => s ≠ "")))

/-- The prompt document installer B writes for one command, given the
uniquified generated-skill name its first line references. -/
def codexPromptDoc (genSkillName : String) (command : Command) : String :=
  let promptFrontmatter : Yobj :=
    (match command.description with
      | some d => [("description", .scalar (.str d))]
      | none => []) ++
    (match command.argumentHint with
      | some h => [("argument-hint", .scalar (.str h))]
      | none => [])
  let promptBody := "Use the $" ++ genSkillName ++
    " skill for this command and follow its instructions.\n\n" ++ command.body
  formatFrontmatter promptFrontmatter promptBody

/-- The per-command step of `installCodex`: allocates a prompt name and a
generated-skill name in their own namespaces, writes the generated skill
document and the prompt document, and records a pre-existing file at either
path as overwritten. -/
def installCodexStep (codexRoot : String) (st : CodexState) (command : Command) :
    CodexState :=
  if command.disableModelInvocation then st
  else
    let pr := uniqueName (normalizeName command.name) st.promptNames
    let gs := uniqueName (normalizeName command.name) st.usedSkillNames
    let genSkillPath := codexRoot ++ "/skills/" ++ gs.1 ++ "/SKILL.md"
    let overwrittenSkills :=
      if pathExists st.fs genSkillPath then st.overwrittenSkills ++ [gs.1]
      else st.overwrittenSkills
    let fs1 := fsSet st.fs genSkillPath (codexSkillDoc gs.1 command)
    let promptPath := codexRoot ++ "/prompts/" ++ pr.1 ++ ".md"
    let overwrittenPrompts :=
      if pathExists fs1 promptPath then st.overwrittenPrompts ++ [pr.1]
      else st.overwrittenPrompts
    let fs2 := fsSet fs1 promptPath (codexPromptDoc gs.1 command)
    { fs := fs2, promptNames := pr.2, usedSkillNames := gs.2,
      overwrittenPrompts := overwrittenPrompts, overwrittenSkills := overwrittenSkills }

/-- Model of `installCodex`: copies each plugin skill by its original name,
seeding the skill used-name set with its normalized name, then processes
the commands. -/
def installCodex (codexRoot : String) (fs : Fs) (commands : List Command)
    (skills : List Skill) : CodexState :=
  let st0 := skills.foldl
    (fun st s =>
      { st with
        usedSkillNames := addUsed st.usedSkillNames (normalizeName s.name),
        fs := copyDir st.fs (codexRoot ++ "/skills/" ++ s.name) s.files })
    { fs := fs, promptNames := [], usedSkillNames := [],
      overwrittenPrompts := [], overwrittenSkills := [] }
  commands.foldl (installCodexStep codexRoot) st0

/-! ## Path resolution (`resolveWithinRoot`, `resolveComponentDirs`) -/

/-- Split a char list on a separator character. -/
def splitCharL (sep : Char) : List Char → List (List Char)
  | [] => [[]]
  | c :: t =>
    if c = sep then [] :: splitCharL sep t
    else
      match splitCharL sep t with
      | [] => [[c]]
      | l :: ls => (c :: l) :: ls

/-- POSIX path normalization over components: drops empty and `.` segments
and resolves `..` against the stack (discarding it at the root). -/
def normalizeSegs (segs : List (List Char)) : List (List Char) :=
  segs.foldl
    (fun acc seg =>
      if seg = [] || seg = ['.'] then acc
      else if seg = ['.', '.'] then acc.dropLast
      else acc ++ [seg]) []

/-- Joins path components with the separator. -/
def interSlash : List (List Char) → List Char
  | [] => []
  | [a] => a
  | a :: b :: t => a ++ '/' :: interSlash (b :: t)

/-- Model of POSIX `path.resolve` applied to one absolute path. -/
def resolveAbs (p : String) : String :=
  ⟨'/' :: interSlash (normalizeSegs (splitCharL '/' p.data))⟩

/-- Model of POSIX `path.resolve(root, entry)` for an absolute `root` (the
script always passes the already-resolved plugin root). -/
def resolvePosix (root entry : String) : String :=
  if entry.data.head? = some '/' then resolveAbs entry
  else resolveAbs (root ++ "/" ++ entry)

/-- Model of `String.prototype.startsWith`. -/
def jsStartsWith (s pre : String) : Bool := pre.data.isPrefixOf s.data

/-- Model of `resolveWithinRoot`: accepts a declared path when it resolves
to the root itself or to a string extending the root followed by the path
separator, and raises the path-traversal error otherwise. -/
def resolveWithinRoot (root entry label : String) : Except String String :=
  let resolvedRoot := resolveAbs root
  let resolvedPath := resolvePosix root entry
  if resolvedPath = resolvedRoot then .ok resolvedPath
  else if jsStartsWith resolvedPath (resolvedRoot ++ "/") then .ok resolvedPath
  else .error ("Invalid " ++ label ++ ": " ++ entry ++
    ". Paths must stay within the plugin root.")

/-- The semantic containment relation: the resolved path's components
extend the resolved root's components. -/
def resolvesWithin (root entry : String) : Bool :=
  (normalizeSegs (splitCharL '/' root.data)).isPrefixOf
    (normalizeSegs (splitCharL '/'
      (if entry.data.head? = some '/' then entry else root ++ "/" ++ entry).data))

/-- The manifest's declared extra paths: absent, a single string, or an
array of strings, as `toPathList` distinguishes them. -/
inductive JPaths where
  | nil
  | single (s : String)
  | multiple (ss : List String)
  deriving DecidableEq, Repr

/-- Model of `toPathList`: a falsy value yields no paths, an array is used
as is, anything else is wrapped in a singleton. -/
def toPathList : JPaths → List String
  | .nil => []
  | .single s => if s = "" then [] else [s]
  | .multiple ss => ss

/-- Model of `resolveComponentDirs`: the default directory joined onto the
root, followed by each declared extra path validated by
`resolveWithinRoot`; the first invalid path aborts with its error. -/
def resolveComponentDirs (root defaultDir : String) (custom : JPaths) :
    Except String (List String) :=
  (toPathList custom).foldlM
    (fun acc entry =>
      (resolveWithinRoot root entry (defaultDir ++ " path")).map
        (fun p => acc ++ [p]))
    [root ++ "/" ++ defaultDir]

/-! ## The script pipeline -/

/-- The manifest fields the script reads. -/
structure Manifest where
  name : String
  version : String
  commands : JPaths
  skills : JPaths
  deriving DecidableEq, Repr

/-- Model of `String.prototype.endsWith`. -/
def jsEndsWith (s suffix : String) : Bool := suffix.data.isSuffixOf s.data

/-- Last path component of a path string. -/
def lastComponent (p : String) : String :=
  ⟨((splitCharL '/' p.data).getLast?).getD []⟩

/-- Directory part of a path string. -/
def dirName (p : String) : String :=
  ⟨interSlash ((splitCharL '/' p.data).dropLast)⟩

/-- Model of `path.basename(file, ".md")`: the last component with the
exact suffix `".md"` removed when present. -/
def baseNameMd (p : String) : String :=
  let base := lastComponent p
  if jsEndsWith base ".md" then ⟨base.data.dropLast.dropLast.dropLast⟩ else base

/-- Model of `walkFiles` over the flat source-filesystem map: the files
whose path lies under the directory. -/
def walkFiles (src : Fs) (dir : String) : Fs :=
  src.filter (fun e => jsStartsWith e.1 (dir ++ "/"))

/-- Model of `loadCommands` over the source filesystem: markdown files of
the candidate directories (case-insensitive extension test on the
lower-cased path), each parsed into a command entity. -/
def loadCommands (dirs : List String) (src : Fs) : List Command :=
  ((dirs.flatMap (walkFiles src)).filter
    (fun e => jsEndsWith ⟨e.1.data.map jsToLower⟩ ".md")).map
    (fun e => commandOfFile (baseNameMd e.1) e.2)

/-- Model of `loadSkills` over the source filesystem: files named exactly
`SKILL.md` mark their parent directory as a skill root; the skill borrows
that directory's files, relativized. -/
def loadSkills (dirs : List String) (src : Fs) : List Skill :=
  ((dirs.flatMap (walkFiles src)).filter
    (fun e => lastComponent e.1 = "SKILL.md")).map
    (fun e =>
      let dir := dirName e.1
      let data := (parseFrontmatter e.2).1
      { name := nameOrFallback (getEntry data "name") (lastComponent dir)
        files := (walkFiles src dir).map
          (fun f => (⟨f.1.data.drop (dir.data.length + 1)⟩, f.2)) })

/-- Model of the script's top-level flow for one run over both targets:
path resolution and loading happen before either installer writes
anything, so a path-traversal error aborts with the destination
filesystems untouched. -/
def convertPlugin (pluginRoot : String) (manifest : Manifest) (src : Fs)
    (opencodeRoot codexRoot : String) (fsA fsB : Fs) (configIn : Option Json) :
    Except String (OpenCodeResult × CodexState) := do
  let commandsDirs ← resolveComponentDirs pluginRoot "commands" manifest.commands
  let skillsDirs ← resolveComponentDirs pluginRoot "skills" manifest.skills
  let commands := loadCommands commandsDirs src
  let skills := loadSkills skillsDirs src
  pure (installOpenCode opencodeRoot fsA configIn commands skills,
        installCodex codexRoot fsB commands skills)

/-! ## Basic lemmas about the mapping and string helpers -/

theorem getEntry_setEntry_self {α : Type} (l : List (String × α)) (k : String) (v : α) :
    getEntry (setEntry l k v) k = some v := by
  induction l with
  | nil => simp [setEntry, getEntry]
  | cons e t ih =>
    obtain ⟨k0, v0⟩ := e
    by_cases h : k0 = k
    · simp [setEntry, h, getEntry]
    · simp [setEntry, h, getEntry, ih]

theorem getEntry_setEntry_ne {α : Type} (l : List (String × α)) (k key : String) (v : α)
    (h : key ≠ k) : getEntry (setEntry l k v) key = getEntry l key := by
  induction l with
  | nil => simp [setEntry, getEntry, Ne.symm h]
  | cons e t ih =>
    obtain ⟨k0, v0⟩ := e
    by_cases h0 : k0 = k
    · subst h0
      simp [setEntry, getEntry, Ne.symm h]
    · by_cases h1 : k0 = key
      · subst h1
        simp [setEntry, h0, getEntry, h]
      · simp [setEntry, h0, getEntry, h1, ih]

theorem setEntry_of_getEntry_none {α : Type} (l : List (String × α)) (k : String) (v : α)
    (h : getEntry l k = none) : setEntry l k v = l ++ [(k, v)] := by
  induction l with
  | nil => simp [setEntry]
  | cons e t ih =>
    obtain ⟨k0, v0⟩ := e
    by_cases h0 : k0 = k
    · simp [getEntry, h0] at h
    · simp [getEntry, h0] at h
      simp [setEntry, h0, ih h]

theorem getEntry_append_right {α : Type} (l m : List (String × α)) (k : String)
    (h : getEntry l k = none) : getEntry (l ++ m) k = getEntry m k := by
  induction l with
  | nil => simp
  | cons e t ih =>
    obtain ⟨k0, v0⟩ := e
    by_cases h0 : k0 = k
    · simp [getEntry, h0] at h
    · simp [getEntry, h0] at h ⊢
      exact ih h

theorem getEntry_append_left {α : Type} (l m : List (String × α)) (k : String) (v : α)
    (h : getEntry l k = some v) : getEntry (l ++ m) k = some v := by
  induction l with
  | nil => simp [getEntry] at h
  | cons e t ih =>
    obtain ⟨k0, v0⟩ := e
    by_cases h0 : k0 = k
    · simp [getEntry, h0] at h ⊢
      exact h
    · simp [getEntry, h0] at h ⊢
      exact ih h

/-! ## Decimal rendering and the uniquifier -/

/-- Decimal value of a digit string, used to invert `natDigitsAux`. -/
def decValueL (l : List Char) : Nat := l.foldl (fun a c => 10 * a + (c.toNat - 48)) 0

theorem decValueL_append_digit (a : List Char) (c : Char) :
    decValueL (a ++ [c]) = 10 * decValueL a + (c.toNat - 48) := by
  simp [decValueL, List.foldl_append]

theorem digitChar_toNat_sub (m : Nat) (h : m < 10) :
    (Nat.digitChar m).toNat - 48 = m := by
  interval_cases m <;> decide

theorem decValueL_natDigitsAux (f : ℕ) : ∀ n, n ≤ f → decValueL (natDigitsAux f n) = n := by
  induction f with
  | zero =>
    intro n hn
    interval_cases n
    simp [natDigitsAux, decValueL]
  | succ f ih =>
    intro n hn
    by_cases h0 : n = 0
    · simp [natDigitsAux, h0, decValueL]
    · have hdiv : n / 10 ≤ f := by
        have h1 : n / 10 < n := Nat.div_lt_self (Nat.pos_of_ne_zero h0) (by norm_num)
        omega
      simp only [natDigitsAux, h0, if_false]
      rw [decValueL_append_digit, ih _ hdiv,
        digitChar_toNat_sub _ (Nat.mod_lt _ (by norm_num))]
      exact (Nat.div_add_mod n 10).symm ▸ rfl

theorem decValueL_natToDecimal (n : ℕ) : decValueL (natToDecimal n).data = n := by
  by_cases h0 : n = 0
  · simp [natToDecimal, h0]
    decide
  · simp only [natToDecimal, h0, if_false]
    exact decValueL_natDigitsAux n n le_rfl

theorem natToDecimal_injective : Function.Injective natToDecimal := by
  intro n m h
  have := congrArg (fun s => decValueL s.data) h
  simpa [decValueL_natToDecimal] using this

/-- Candidate names probed by `uniqueName` are pairwise distinct. -/
theorem candidate_injective (base : String) :
    Function.Injective (fun i : ℕ => base ++ "-" ++ natToDecimal i) := by
  intro i j h
  apply natToDecimal_injective
  apply String.ext
  have h2 := congrArg String.data h
  simp only [String.data_append] at h2
  exact List.append_cancel_left h2

theorem probeFree_spec (base : String) (used : List String) :
    ∀ f i, (∃ k, k < f ∧ (base ++ "-" ++ natToDecimal (i + k)) ∉ used) →
      i ≤ probeFree base used f i ∧
      (base ++ "-" ++ natToDecimal (probeFree base used f i)) ∉ used ∧
      ∀ m, i ≤ m → m < probeFree base used f i →
        (base ++ "-" ++ natToDecimal m) ∈ used := by
  intro f
  induction f with
  | zero =>
    intro i h
    obtain ⟨k, hk, _⟩ := h
    omega
  | succ f ih =>
    intro i h
    by_cases hmem : (base ++ "-" ++ natToDecimal i) ∈ used
    · have hex : ∃ k, k < f ∧ (base ++ "-" ++ natToDecimal (i + 1 + k)) ∉ used := by
        obtain ⟨k, hk, hfree⟩ := h
        rcases Nat.eq_zero_or_pos k with h0 | hpos
        · subst h0
          simp at hfree
          exact absurd hmem hfree
        · exact ⟨k - 1, by omega, by
            have : i + 1 + (k - 1) = i + k := by omega
            rw [this]; exact hfree⟩
      have hrec := ih (i + 1) hex
      refine ⟨by simp [probeFree, hmem]; omega, ?_, ?_⟩
      · simpa [probeFree, hmem] using hrec.2.1
      · intro m him hlt
        simp only [probeFree, hmem, if_true] at hlt
        rcases Nat.eq_or_lt_of_le him with he | hl
        · subst he; exact hmem
        · exact hrec.2.2 m hl (by simpa [probeFree, hmem] using hlt)
    · simp [probeFree, hmem]
      intro m h1 h2
      omega

/-- Pigeonhole for the probing loop: with fuel one more than the size of
the used set, some probed candidate is free. -/
theorem exists_free_candidate (base : String) (used : List String) :
    ∃ k, k < used.length + 1 ∧ (base ++ "-" ++ natToDecimal (2 + k)) ∉ used := by
  by_contra hall
  push_neg at hall
  set L := used.length with hL
  let cand : ℕ → String := fun k => base ++ "-" ++ natToDecimal (2 + k)
  have hinj : Function.Injective cand := by
    intro a b h
    have := candidate_injective base h
    omega
  have hsub : (Finset.range (L + 1)).image cand ⊆ used.toFinset := by
    intro x hx
    simp only [Finset.mem_image, Finset.mem_range] at hx
    obtain ⟨k, hk, rfl⟩ := hx
    simpa using hall k hk
  have hcard : ((Finset.range (L + 1)).image cand).card = L + 1 := by
    rw [Finset.card_image_of_injective _ hinj, Finset.card_range]
  have := Finset.card_le_card hsub
  have h2 := List.toFinset_card_le used
  omega

theorem uniqueName_fst_not_mem (base : String) (used : List String) :
    (uniqueName base used).1 ∉ used := by
  by_cases h : base ∈ used
  · have := probeFree_spec base used (used.length + 1) 2
      (by
        obtain ⟨k, hk, hfree⟩ := exists_free_candidate base used
        exact ⟨k, hk, hfree⟩)
    simpa [uniqueName, h] using this.2.1
  · simp only [uniqueName, if_neg h]
    exact h

theorem uniqueName_snd_eq (base : String) (used : List String) :
    (uniqueName base used).2 = used ++ [(uniqueName base used).1] := by
  have hfree := uniqueName_fst_not_mem base used
  by_cases h : base ∈ used
  · simp only [uniqueName, h, if_true] at hfree ⊢
    simp [addUsed, hfree]
  · simp only [uniqueName, h, if_false] at hfree ⊢
    simp [addUsed, h]

/-- A sequence of `uniqueName` calls against one evolving used-name set:
returns the names in call order and the final set. -/
def uniqueNameRuns : List String → List String → List String × List String
  | [], used => ([], used)
  | b :: bs, used =>
    let r := uniqueName b used
    let rest := uniqueNameRuns bs r.2
    (r.1 :: rest.1, rest.2)

theorem uniqueNameRuns_cons (b : String) (bs used : List String) :
    uniqueNameRuns (b :: bs) used =
      ((uniqueName b used).1 :: (uniqueNameRuns bs (uniqueName b used).2).1,
       (uniqueNameRuns bs (uniqueName b used).2).2) := rfl

theorem uniqueNameRuns_count_frozen (bases : List String) :
    ∀ used n, n ∈ used → (uniqueNameRuns bases used).2.count n = used.count n := by
  induction bases with
  | nil => intro used n _; simp [uniqueNameRuns]
  | cons b bs ih =>
    intro used n hn
    have hfree := uniqueName_fst_not_mem b used
    have hsnd := uniqueName_snd_eq b used
    have hne : (uniqueName b used).1 ≠ n := fun h => hfree (h ▸ hn)
    rw [uniqueNameRuns_cons]
    simp only
    rw [ih _ n (by rw [hsnd]; exact List.mem_append_left _ hn), hsnd]
    simp [List.count_append, List.count_singleton, Ne.symm hne]

theorem uniqueNameRuns_invariant (bases : List String) :
    ∀ used,
      (∀ n ∈ (uniqueNameRuns bases used).1, n ∉ used) ∧
      (uniqueNameRuns bases used).1.Nodup ∧
      (∀ n ∈ (uniqueNameRuns bases used).1,
        (uniqueNameRuns bases used).2.count n = used.count n + 1) := by
  induction bases with
  | nil => intro used; simp [uniqueNameRuns]
  | cons b bs ih =>
    intro used
    have hfree := uniqueName_fst_not_mem b used
    have hsnd := uniqueName_snd_eq b used
    obtain ⟨ihNotMem, ihNodup, ihCount⟩ := ih (uniqueName b used).2
    rw [uniqueNameRuns_cons]
    refine ⟨?_, ?_, ?_⟩
    · intro n hn
      simp only [List.mem_cons] at hn
      rcases hn with rfl | hn
      · exact hfree
      · intro hmem
        exact ihNotMem n hn (by rw [hsnd]; exact List.mem_append_left _ hmem)
    · simp only [List.nodup_cons]
      refine ⟨?_, ihNodup⟩
      intro hmem
      exact ihNotMem _ hmem (by rw [hsnd]; simp)
    · intro n hn
      simp only [List.mem_cons] at hn
      rcases hn with rfl | hn
      · rw [uniqueNameRuns_count_frozen bs _ _ (by rw [hsnd]; simp), hsnd]
        simp [List.count_append, List.count_singleton,
          List.count_eq_zero_of_not_mem hfree]
      · rw [ihCount n hn, hsnd]
        have hne : n ≠ (uniqueName b used).1 := by
          intro h
          have := ihNotMem n hn
          rw [hsnd] at this
          exact this (by simp [h])
        simp [List.count_append, List.count_singleton, hne]

/-- C5 — Uniquifier contract: `uniqueName base used` returns `base` and
appends it to the set when `base` is free; otherwise it returns the first
free candidate among `base-2`, `base-3`, … (all earlier candidates being
taken) and appends it; and across any sequence of calls against one
evolving set, the returned names are pairwise distinct, none was in the
initial set, and each occurs exactly once in the final set. -/
theorem claim5_uniqueName_contract :
    (∀ base used, base ∉ used → uniqueName base used = (base, used ++ [base])) ∧
    (∀ base used, base ∈ used → ∃ j, 2 ≤ j ∧
      uniqueName base used =
        (base ++ "-" ++ natToDecimal j, used ++ [base ++ "-" ++ natToDecimal j]) ∧
      (base ++ "-" ++ natToDecimal j) ∉ used ∧
      ∀ m, 2 ≤ m → m < j → (base ++ "-" ++ natToDecimal m) ∈ used) ∧
    (∀ bases used₀,
      (uniqueNameRuns bases used₀).1.Nodup ∧
      ∀ n ∈ (uniqueNameRuns bases used₀).1,
        n ∉ used₀ ∧ (uniqueNameRuns bases used₀).2.count n = 1) := by
  refine ⟨?_, ?_, ?_⟩
  · intro base used h
    simp [uniqueName, h, addUsed]
  · intro base used h
    have hspec := probeFree_spec base used (used.length + 1) 2
      (exists_free_candidate base used)
    refine ⟨probeFree base used (used.length + 1) 2, hspec.1, ?_, hspec.2.1, hspec.2.2⟩
    simp only [uniqueName, h, if_true]
    simp [addUsed, hspec.2.1]
  · intro bases used₀
    obtain ⟨hNotMem, hNodup, hCount⟩ := uniqueNameRuns_invariant bases used₀
    refine ⟨hNodup, fun n hn => ⟨hNotMem n hn, ?_⟩⟩
    rw [hCount n hn, List.count_eq_zero_of_not_mem (hNotMem n hn)]

/-- Witness for C5 at concrete inputs: a free base is returned unchanged
and recorded; a colliding base gets the `-2` suffix; a repeated base yields
distinct names. -/
theorem claim5_witness :
    uniqueName "deploy-service" [] = ("deploy-service", ["deploy-service"]) ∧
    (uniqueNameRuns ["deploy-service", "deploy-service"] []).1.Nodup := by
  constructor
  · exact claim5_uniqueName_contract.1 "deploy-service" [] (by decide)
  · exact (claim5_uniqueName_contract.2.2 ["deploy-service", "deploy-service"] []).1

/-! ## Normalizer: character class facts -/

theorem allowed_of_ws_false (c : Char) (h : jsWs c = true) :
    allowedSlugChar c = false := by
  have h2 : c ∈ ([' ', '\t', '\n', '\r', '\x0b', '\x0c', '\u00a0', '\u1680',
      '\u2000', '\u2001', '\u2002', '\u2003', '\u2004', '\u2005', '\u2006',
      '\u2007', '\u2008', '\u2009', '\u200a', '\u2028', '\u2029', '\u202f',
      '\u205f', '\u3000', '\ufeff'] : List Char) := by
    simp only [jsWs, Bool.or_eq_true, decide_eq_true_eq] at h
    simp only [List.mem_cons, List.not_mem_nil, or_false]
    tauto
  fin_cases h2 <;> decide

theorem allowed_of_pathSep_false (c : Char) (h : pathSepChar c = true) :
    allowedSlugChar c = false := by
  simp only [pathSepChar, Bool.or_eq_true, decide_eq_true_eq] at h
  rcases h with rfl|rfl <;> decide

theorem allowed_of_wsColon_false (c : Char) (h : wsColonChar c = true) :
    allowedSlugChar c = false := by
  simp only [wsColonChar, Bool.or_eq_true, decide_eq_true_eq] at h
  rcases h with rfl|h
  · decide
  · exact allowed_of_ws_false c h

theorem ws_of_allowed_false (c : Char) (h : allowedSlugChar c = true) :
    jsWs c = false := by
  by_cases hw : jsWs c
  · rw [allowed_of_ws_false c hw] at h
    cases h
  · simpa using hw

theorem toLower_of_allowed (c : Char) (h : allowedSlugChar c = true) :
    jsToLower c = c := by
  simp only [allowedSlugChar, Bool.or_eq_true, Bool.and_eq_true,
    decide_eq_true_eq] at h
  rcases h with ((⟨h1, h2⟩ | ⟨h1, h2⟩) | rfl) | rfl
  · have ha : 97 ≤ c.toNat := by
      rw [Char.le_def, UInt32.le_def, BitVec.le_def] at h1
      exact h1
    unfold jsToLower Char.toLower
    have hn : ¬(c.toNat ≥ 65 ∧ c.toNat ≤ 90) := by omega
    simp [hn]
  · have ha : c.toNat ≤ 57 := by
      rw [Char.le_def, UInt32.le_def, BitVec.le_def] at h2
      exact h2
    unfold jsToLower Char.toLower
    have hn : ¬(c.toNat ≥ 65 ∧ c.toNat ≤ 90) := by omega
    simp [hn]
  · decide
  · decide

/-! ## Normalizer: run-replacement normal form -/

/-- The character-level effect of one run replacement. -/
def dashify (p : Char → Bool) (c : Char) : Char := if p c then '-' else c

/-- Emits the dash-collapsed image of a list under a character map, carrying
whether the previously emitted character was a dash. -/
def emitAux (g : Char → Char) : List Char → Bool → List Char
  | [], _ => []
  | c :: t, afterDash =>
    if g c = '-' then
      (if afterDash then emitAux g t true else '-' :: emitAux g t true)
    else g c :: emitAux g t false

theorem emitAux_congr (g g' : Char → Char) (h : ∀ c, g c = g' c) :
    ∀ l ad, emitAux g l ad = emitAux g' l ad := by
  have : g = g' := funext h
  subst this
  intro l ad
  rfl

theorem emitAux_map (g : Char → Char) (m : Char → Char) :
    ∀ (l : List Char) (ad : Bool),
      emitAux g (l.map m) ad = emitAux (fun c => g (m c)) l ad := by
  intro l
  induction l with
  | nil => intro ad; rfl
  | cons c t ih =>
    intro ad
    simp only [List.map_cons, emitAux]
    by_cases h : g (m c) = '-'
    · simp [h, ih]
    · simp [h, ih]

theorem emitAux_dropWhile (g : Char → Char) (p : Char → Bool)
    (hgp : ∀ c, p c = true → g c = '-') :
    ∀ t : List Char, emitAux g (t.dropWhile p) true = emitAux g t true := by
  intro t
  induction t with
  | nil => rfl
  | cons c t ih =>
    by_cases hc : p c
    · rw [List.dropWhile_cons_of_pos hc, ih]
      simp [emitAux, hgp c hc]
    · rw [List.dropWhile_cons_of_neg (by simpa using hc)]

theorem replaceRunsWithAux_true (p : Char → Bool) (r : Char) :
    ∀ t : List Char, replaceRunsWithAux p r t true =
      replaceRunsWithAux p r (t.dropWhile p) false := by
  intro t
  induction t with
  | nil => rfl
  | cons c t ih =>
    by_cases hc : p c
    · rw [List.dropWhile_cons_of_pos hc]
      simp only [replaceRunsWithAux, hc, if_true]
      exact ih
    · rw [List.dropWhile_cons_of_neg (by simpa using hc)]
      simp [replaceRunsWithAux, hc]

theorem replaceRunsWith_cons_pos (p : Char → Bool) (r c : Char) (t : List Char)
    (h : p c = true) :
    replaceRunsWith p r (c :: t) = r :: replaceRunsWith p r (t.dropWhile p) := by
  simp only [replaceRunsWith, replaceRunsWithAux, h, if_true, if_false,
    Bool.false_eq_true]
  rw [replaceRunsWithAux_true]

theorem replaceRunsWith_cons_neg (p : Char → Bool) (r c : Char) (t : List Char)
    (h : p c = false) :
    replaceRunsWith p r (c :: t) = c :: replaceRunsWith p r t := by
  simp [replaceRunsWith, replaceRunsWithAux, h]

theorem emitAux_rr_aux (h : Char → Char) (p : Char → Bool) (hh : h '-' = '-') :
    ∀ (n : ℕ) (l : List Char), l.length ≤ n → ∀ ad,
      emitAux h (replaceRunsWith p '-' l) ad =
        emitAux (fun c => h (dashify p c)) l ad := by
  intro n
  induction n with
  | zero =>
    intro l hl ad
    have hnil : l = [] := List.eq_nil_of_length_eq_zero (Nat.le_zero.mp hl)
    subst hnil
    simp [replaceRunsWith, replaceRunsWithAux, emitAux]
  | succ n ih =>
    intro l hl ad
    match l with
    | [] => simp [replaceRunsWith, replaceRunsWithAux, emitAux]
    | c :: t =>
      simp only [List.length_cons, Nat.succ_le_succ_iff] at hl
      by_cases hc : p c
      · rw [replaceRunsWith_cons_pos p '-' c t hc]
        have hdw : (t.dropWhile p).length ≤ n :=
          le_trans (List.dropWhile_suffix p).sublist.length_le hl
        have hstep := ih (t.dropWhile p) hdw
        have hdrop : emitAux (fun c => h (dashify p c)) (t.dropWhile p) true =
            emitAux (fun c => h (dashify p c)) t true := by
          apply emitAux_dropWhile
          intro x hx
          simp [dashify, hx, hh]
        by_cases had : ad
        · subst had
          simp only [emitAux, hh, if_pos rfl, if_true]
          rw [hstep true, hdrop]
          simp [emitAux, dashify, hc, hh]
        · simp only [Bool.not_eq_true] at had
          subst had
          simp only [emitAux, hh, if_pos rfl]
          rw [hstep true, hdrop]
          simp [emitAux, dashify, hc, hh]
      · rw [replaceRunsWith_cons_neg p '-' c t (by simpa using hc)]
        have hstep := ih t hl
        simp only [emitAux, dashify, hc]
        by_cases hgc : h c = '-'
        · simp only [if_pos hgc]
          have : (fun x => h (dashify p x)) c = '-' := by simp [dashify, hc, hgc]
          rw [hstep]
          simp [this, dashify, hc, hgc]
        · simp only [if_neg hgc]
          rw [hstep false]
          simp [dashify, hc, hgc]

theorem collapse_eq_emitAux_aux :
    ∀ (n : ℕ) (l : List Char), l.length ≤ n →
      replaceRunsWith dashChar '-' l = emitAux id l false ∧
      replaceRunsWith dashChar '-' (l.dropWhile dashChar) = emitAux id l true := by
  intro n
  induction n with
  | zero =>
    intro l hl
    have hnil : l = [] := List.eq_nil_of_length_eq_zero (Nat.le_zero.mp hl)
    subst hnil
    constructor <;> simp [replaceRunsWith, replaceRunsWithAux, emitAux]
  | succ n ih =>
    intro l hl
    match l with
    | [] => constructor <;> simp [replaceRunsWith, replaceRunsWithAux, emitAux]
    | c :: t =>
      simp only [List.length_cons, Nat.succ_le_succ_iff] at hl
      by_cases hc : dashChar c
      · have hceq : c = '-' := by
          simpa [dashChar] using hc
        subst hceq
        have hdw : (t.dropWhile dashChar).length ≤ n :=
          le_trans (List.dropWhile_suffix dashChar).sublist.length_le hl
        have ihdw := ih (t.dropWhile dashChar) hdw
        have ihdrop : replaceRunsWith dashChar '-' (t.dropWhile dashChar) =
            emitAux id t true := by
          have h1 := (ih t hl).2
          exact h1
        constructor
        · rw [replaceRunsWith_cons_pos dashChar '-' '-' t hc, ihdrop]
          simp [emitAux]
        · rw [List.dropWhile_cons_of_pos hc]
          have := (ih t hl).2
          rw [this]
          simp [emitAux]
      · constructor
        · rw [replaceRunsWith_cons_neg dashChar '-' c t (by simpa using hc)]
          rw [(ih t hl).1]
          have hcne : c ≠ '-' := by
            intro hceq
            subst hceq
            simp [dashChar] at hc
          simp [emitAux, hcne]
        · rw [List.dropWhile_cons_of_neg (by simpa using hc)]
          rw [replaceRunsWith_cons_neg dashChar '-' c t (by simpa using hc)]
          rw [(ih t hl).1]
          have hcne : c ≠ '-' := by
            intro hceq
            subst hceq
            simp [dashChar] at hc
          simp [emitAux, hcne]

theorem collapse_eq_emitAux (l : List Char) :
    replaceRunsWith dashChar '-' l = emitAux id l false :=
  (collapse_eq_emitAux_aux l.length l le_rfl).1

/-- The character classification the normalizer chain implements: the
lowercase image when it lies in the slug alphabet, a dash otherwise. -/
def slugStep (c : Char) : Char :=
  if allowedSlugChar (jsToLower c) then jsToLower c else '-'

theorem slugStep_pointwise (c : Char) :
    dashify nonSlugChar (dashify wsColonChar (dashify pathSepChar (jsToLower c))) =
      slugStep c := by
  by_cases h1 : pathSepChar (jsToLower c)
  · rw [show dashify pathSepChar (jsToLower c) = '-' from by simp [dashify, h1]]
    rw [show dashify wsColonChar '-' = '-' from by decide]
    rw [show dashify nonSlugChar '-' = '-' from by decide]
    unfold slugStep
    rw [allowed_of_pathSep_false _ h1]
    simp
  · rw [show dashify pathSepChar (jsToLower c) = jsToLower c from by
      simp [dashify, h1]]
    by_cases h2 : wsColonChar (jsToLower c)
    · rw [show dashify wsColonChar (jsToLower c) = '-' from by simp [dashify, h2]]
      rw [show dashify nonSlugChar '-' = '-' from by decide]
      unfold slugStep
      rw [allowed_of_wsColon_false _ h2]
      simp
    · rw [show dashify wsColonChar (jsToLower c) = jsToLower c from by
        simp [dashify, h2]]
      by_cases h3 : nonSlugChar (jsToLower c)
      · rw [show dashify nonSlugChar (jsToLower c) = '-' from by simp [dashify, h3]]
        unfold slugStep
        have : allowedSlugChar (jsToLower c) = false := by
          simpa [nonSlugChar] using h3
        rw [this]
        simp
      · rw [show dashify nonSlugChar (jsToLower c) = jsToLower c from by
          simp [dashify, h3]]
        unfold slugStep
        have : allowedSlugChar (jsToLower c) = true := by
          simpa [nonSlugChar] using h3
        rw [this]
        simp

theorem normalizer_chain_eq (l : List Char) :
    replaceRunsWith dashChar '-' (replaceRunsWith nonSlugChar '-'
      (replaceRunsWith wsColonChar '-' (replaceRunsWith pathSepChar '-'
        (l.map jsToLower)))) =
    replaceRunsWith dashChar '-' (l.map slugStep) := by
  rw [collapse_eq_emitAux, collapse_eq_emitAux]
  rw [emitAux_rr_aux id nonSlugChar rfl _ _ le_rfl false]
  rw [emitAux_rr_aux _ wsColonChar (by decide) _ _ le_rfl false]
  rw [emitAux_rr_aux _ pathSepChar (by decide) _ _ le_rfl false]
  rw [emitAux_map, emitAux_map]
  apply emitAux_congr
  intro c
  simp only [id]
  exact slugStep_pointwise c

/-! ## Normalizer: output shape -/

/-- No two adjacent dashes. -/
def noDoubleDash (l : List Char) : Prop :=
  List.Chain' (fun a b => ¬(a = '-' ∧ b = '-')) l

theorem mem_replaceRunsWithAux (p : Char → Bool) (r : Char) :
    ∀ (l : List Char) (b : Bool) (c : Char),
      c ∈ replaceRunsWithAux p r l b → c = r ∨ (c ∈ l ∧ p c = false) := by
  intro l
  induction l with
  | nil => intro b c h; cases h
  | cons a t ih =>
    intro b c h
    by_cases ha : p a
    · simp only [replaceRunsWithAux, ha, if_true] at h
      by_cases hb : b
      · subst hb
        simp only [if_true] at h
        rcases ih true c h with h1 | ⟨h1, h2⟩
        · exact Or.inl h1
        · exact Or.inr ⟨List.mem_cons_of_mem a h1, h2⟩
      · simp only [Bool.not_eq_true] at hb
        subst hb
        simp only [Bool.false_eq_true, if_false, List.mem_cons] at h
        rcases h with rfl | h
        · exact Or.inl rfl
        · rcases ih true c h with h1 | ⟨h1, h2⟩
          · exact Or.inl h1
          · exact Or.inr ⟨List.mem_cons_of_mem a h1, h2⟩
    · simp only [replaceRunsWithAux, ha, if_false, Bool.false_eq_true,
        List.mem_cons] at h
      rcases h with rfl | h
      · exact Or.inr ⟨List.mem_cons_self _ _, by simpa using ha⟩
      · rcases ih false c h with h1 | ⟨h1, h2⟩
        · exact Or.inl h1
        · exact Or.inr ⟨List.mem_cons_of_mem a h1, h2⟩

theorem mem_replaceRunsWith (p : Char → Bool) (r : Char) (l : List Char) (c : Char)
    (h : c ∈ replaceRunsWith p r l) : c = r ∨ (c ∈ l ∧ p c = false) :=
  mem_replaceRunsWithAux p r l false c h

theorem emitAux_cons_dash (g : Char → Char) (c : Char) (t : List Char) (ad : Bool)
    (h : g c = '-') :
    emitAux g (c :: t) ad =
      if ad = true then emitAux g t true else '-' :: emitAux g t true := by
  simp [emitAux, h]

theorem emitAux_cons_nodash (g : Char → Char) (c : Char) (t : List Char) (ad : Bool)
    (h : ¬ g c = '-') :
    emitAux g (c :: t) ad = g c :: emitAux g t false := by
  simp [emitAux, h]

theorem emitAux_noDoubleDash (g : Char → Char) :
    ∀ (l : List Char) (ad : Bool),
      noDoubleDash (emitAux g l ad) ∧
        (ad = true → (emitAux g l ad).head? ≠ some '-') := by
  intro l
  induction l with
  | nil =>
    intro ad
    exact ⟨List.chain'_nil, fun _ => by simp [emitAux]⟩
  | cons c t ih =>
    intro ad
    by_cases hg : g c = '-'
    · rw [emitAux_cons_dash g c t ad hg]
      by_cases had : ad
      · subst had
        simp only [if_true]
        exact ⟨(ih true).1, fun _ => (ih true).2 rfl⟩
      · simp only [Bool.not_eq_true] at had
        subst had
        simp only [Bool.false_eq_true, if_false]
        refine ⟨?_, fun h => by cases h⟩
        rw [noDoubleDash, List.chain'_cons']
        refine ⟨?_, (ih true).1⟩
        intro b hb hcontra
        exact (ih true).2 rfl (by rw [hb, hcontra.2])
    · rw [emitAux_cons_nodash g c t ad hg]
      refine ⟨?_, fun _ => by simp [hg]⟩
      rw [noDoubleDash, List.chain'_cons']
      refine ⟨?_, (ih false).1⟩
      intro b _ hcontra
      exact hg hcontra.1

theorem head_dropWhile_false (p : Char → Bool) :
    ∀ (l : List Char) (c : Char), (l.dropWhile p).head? = some c → p c = false := by
  intro l
  induction l with
  | nil => intro c h; cases h
  | cons a t ih =>
    intro c h
    by_cases ha : p a
    · rw [List.dropWhile_cons_of_pos ha] at h
      exact ih c h
    · rw [List.dropWhile_cons_of_neg (by simpa using ha)] at h
      simp only [List.head?_cons, Option.some.injEq] at h
      subst h
      simpa using ha

theorem trimDashes_isInfix (l : List Char) : trimDashes l <:+: l := by
  have h1 : trimDashes l <+: l.dropWhile dashChar := by
    have h2 : (l.dropWhile dashChar).reverse.dropWhile dashChar <:+
        (l.dropWhile dashChar).reverse := List.dropWhile_suffix dashChar
    rw [trimDashes]
    obtain ⟨t, ht⟩ := h2
    refine ⟨t.reverse, ?_⟩
    have := congrArg List.reverse ht
    simpa using this
  exact h1.isInfix.trans (List.dropWhile_suffix dashChar).isInfix

theorem trimDashes_head (l : List Char) (c : Char)
    (h : (trimDashes l).head? = some c) : dashChar c = false := by
  have hpre : trimDashes l <+: l.dropWhile dashChar := by
    have h2 : (l.dropWhile dashChar).reverse.dropWhile dashChar <:+
        (l.dropWhile dashChar).reverse := List.dropWhile_suffix dashChar
    rw [trimDashes]
    obtain ⟨t, ht⟩ := h2
    refine ⟨t.reverse, ?_⟩
    have := congrArg List.reverse ht
    simpa using this
  obtain ⟨t, ht⟩ := hpre
  have hh : (l.dropWhile dashChar).head? = some c := by
    rw [← ht]
    cases htd : trimDashes l with
    | nil => rw [htd] at h; cases h
    | cons a r => rw [htd] at h; simpa using h
  exact head_dropWhile_false dashChar l c hh

theorem trimDashes_getLast (l : List Char) (c : Char)
    (h : (trimDashes l).getLast? = some c) : dashChar c = false := by
  rw [trimDashes, List.getLast?_reverse] at h
  exact head_dropWhile_false dashChar (l.dropWhile dashChar).reverse c h

theorem replaceRunsWith_eq_self (p : Char → Bool) (r : Char) (l : List Char)
    (h : ∀ c ∈ l, p c = false) : replaceRunsWith p r l = l := by
  induction l with
  | nil => rfl
  | cons c t ih =>
    rw [replaceRunsWith_cons_neg p r c t (h c (List.mem_cons_self c t))]
    rw [ih (fun c hc => h c (List.mem_cons_of_mem _ hc))]

theorem collapse_eq_self_of_chain (l : List Char) (h : noDoubleDash l) :
    replaceRunsWith dashChar '-' l = l := by
  induction l with
  | nil => rfl
  | cons c t ih =>
    by_cases hc : dashChar c
    · have hceq : c = '-' := by simpa [dashChar] using hc
      subst hceq
      rw [replaceRunsWith_cons_pos dashChar '-' '-' t hc]
      have hdw : t.dropWhile dashChar = t := by
        rcases t with _ | ⟨a, r⟩
        · rfl
        · rw [noDoubleDash, List.chain'_cons] at h
          have ha : a ≠ '-' := by
            intro haa
            exact h.1 ⟨rfl, haa⟩
          rw [List.dropWhile_cons_of_neg]
          simpa [dashChar] using ha
      rw [hdw, ih ?_]
      rw [noDoubleDash] at h ⊢
      exact h.tail
    · rw [replaceRunsWith_cons_neg dashChar '-' c t (by simpa using hc)]
      rw [ih ?_]
      rw [noDoubleDash] at h ⊢
      exact h.tail

theorem jsTrimL_eq_self (l : List Char) (h : ∀ c ∈ l, jsWs c = false) :
    jsTrimL l = l := by
  have h1 : l.dropWhile jsWs = l := by
    rcases l with _ | ⟨a, t⟩
    · rfl
    · rw [List.dropWhile_cons_of_neg]
      simp [h a (List.mem_cons_self a t)]
  have h2 : l.reverse.dropWhile jsWs = l.reverse := by
    rcases hr : l.reverse with _ | ⟨a, t⟩
    · rfl
    · rw [List.dropWhile_cons_of_neg]
      have : a ∈ l := by
        rw [← List.mem_reverse, hr]
        exact List.mem_cons_self a t
      simp [h a this]
  rw [jsTrimL, h1, h2, List.reverse_reverse]

theorem normalizeNameL_shape (x : List Char) :
    normalizeNameL x ≠ [] ∧
    (∀ c ∈ normalizeNameL x, allowedSlugChar c = true) ∧
    noDoubleDash (normalizeNameL x) ∧
    (∀ c, (normalizeNameL x).head? = some c → dashChar c = false) ∧
    (∀ c, (normalizeNameL x).getLast? = some c → dashChar c = false) := by
  have hitem : ('i' :: 't' :: 'e' :: 'm' :: [] : List Char) ≠ [] ∧
      (∀ c ∈ ('i' :: 't' :: 'e' :: 'm' :: [] : List Char), allowedSlugChar c = true) ∧
      noDoubleDash ('i' :: 't' :: 'e' :: 'm' :: []) ∧
      (∀ c, ('i' :: 't' :: 'e' :: 'm' :: [] : List Char).head? = some c → dashChar c = false) ∧
      (∀ c, ('i' :: 't' :: 'e' :: 'm' :: [] : List Char).getLast? = some c → dashChar c = false) := by
    refine ⟨by decide, by decide, ?_, ?_, ?_⟩
    · rw [noDoubleDash]
      refine List.chain'_cons.mpr ⟨by decide, List.chain'_cons.mpr ⟨by decide,
        List.chain'_cons.mpr ⟨by decide, List.chain'_singleton _⟩⟩⟩
    · intro c hc
      simp only [List.head?_cons, Option.some.injEq] at hc
      subst hc; decide
    · intro c hc
      simp only [List.getLast?] at hc
      simp only [Option.some.injEq] at hc
      subst hc; decide
  simp only [normalizeNameL]
  by_cases h0 : jsTrimL x = []
  · rw [if_pos h0]
    exact hitem
  · rw [if_neg h0]
    set M := replaceRunsWith dashChar '-' (replaceRunsWith nonSlugChar '-'
      (replaceRunsWith wsColonChar '-' (replaceRunsWith pathSepChar '-'
        ((jsTrimL x).map jsToLower)))) with hM
    by_cases h1 : trimDashes M = []
    · rw [if_pos h1]
      exact hitem
    · rw [if_neg h1]
      refine ⟨h1, ?_, ?_, ?_, ?_⟩
      · intro c hc
        have hcM : c ∈ M := (trimDashes_isInfix M).subset hc
        rcases mem_replaceRunsWith dashChar '-' _ c hcM with rfl | ⟨hc2, _⟩
        · decide
        · rcases mem_replaceRunsWith nonSlugChar '-' _ c hc2 with rfl | ⟨_, hc4⟩
          · decide
          · simpa [nonSlugChar] using hc4
      · have hnM : noDoubleDash M := by
          rw [hM, collapse_eq_emitAux]
          exact (emitAux_noDoubleDash id _ false).1
        exact hnM.infix (trimDashes_isInfix M)
      · intro c hc
        exact trimDashes_head M c hc
      · intro c hc
        exact trimDashes_getLast M c hc

theorem normalizeNameL_fixpoint (y : List Char)
    (h1 : y ≠ []) (h2 : ∀ c ∈ y, allowedSlugChar c = true) (h3 : noDoubleDash y)
    (h4 : ∀ c, y.head? = some c → dashChar c = false)
    (h5 : ∀ c, y.getLast? = some c → dashChar c = false) :
    normalizeNameL y = y := by
  have htrim : jsTrimL y = y :=
    jsTrimL_eq_self y (fun c hc => ws_of_allowed_false c (h2 c hc))
  have hmap : y.map jsToLower = y := by
    have h := List.map_congr_left (f := jsToLower) (g := id)
      (fun a ha => by rw [toLower_of_allowed a (h2 a ha)]; rfl)
    simpa using h
  have hr1 : replaceRunsWith pathSepChar '-' y = y := by
    apply replaceRunsWith_eq_self
    intro c hc
    by_cases hp : pathSepChar c
    · have hfalse := allowed_of_pathSep_false c hp
      rw [h2 c hc] at hfalse
      cases hfalse
    · simpa using hp
  have hr2 : replaceRunsWith wsColonChar '-' y = y := by
    apply replaceRunsWith_eq_self
    intro c hc
    by_cases hp : wsColonChar c
    · have hfalse := allowed_of_wsColon_false c hp
      rw [h2 c hc] at hfalse
      cases hfalse
    · simpa using hp
  have hr3 : replaceRunsWith nonSlugChar '-' y = y := by
    apply replaceRunsWith_eq_self
    intro c hc
    simp [nonSlugChar, h2 c hc]
  have hcol : replaceRunsWith dashChar '-' y = y := collapse_eq_self_of_chain y h3
  have htd : trimDashes y = y := by
    have hdwl : y.dropWhile dashChar = y := by
      cases hy : y with
      | nil => rfl
      | cons a t =>
        rw [List.dropWhile_cons_of_neg]
        have ha := h4 a (by rw [hy]; rfl)
        simp [ha]
    have hdwr : y.reverse.dropWhile dashChar = y.reverse := by
      cases hy : y.reverse with
      | nil => rfl
      | cons a t =>
        rw [List.dropWhile_cons_of_neg]
        have hlast : y.getLast? = some a := by
          rw [← List.head?_reverse, hy]
          rfl
        have ha := h5 a hlast
        simp [ha]
    rw [trimDashes, hdwl, hdwr, List.reverse_reverse]
  simp only [normalizeNameL]
  rw [htrim, if_neg h1, hmap, hr1, hr2, hr3, hcol, htd, if_neg h1]

/-- The normalization C6's amended wording describes: one pass replaces
every character whose lowercase form falls outside `[a-z0-9_-]` (path
separators, whitespace and colons among them) by a dash, runs of dashes
collapse to one, edge dashes are trimmed, and an empty result falls back to
the placeholder. -/
def normalizeNameSpec (value : String) : String :=
  let trimmed := jsTrimL value.data
  if trimmed = [] then "item"
  else
    let normalized := trimDashes (replaceRunsWith dashChar '-' (trimmed.map slugStep))
    if normalized = [] then "item" else ⟨normalized⟩

/-- The normalization C6's original wording describes: characters outside
`[a-z0-9_-]` are stripped (removed) rather than replaced by a dash. -/
def normalizeNameStripSpec (value : String) : String :=
  let trimmed := jsTrimL value.data
  if trimmed = [] then "item"
  else
    let normalized := trimDashes (replaceRunsWith dashChar '-'
      ((replaceRunsWith wsColonChar '-' (replaceRunsWith pathSepChar '-'
        (trimmed.map jsToLower))).filter allowedSlugChar))
    if normalized = [] then "item" else ⟨normalized⟩

/-- C6 counterexample — the claim says normalizeName strips (removes) every
character outside `[a-z0-9_-]`, which would send `"a.b"` to `"ab"`; the
code instead replaces the run with a dash and yields `"a-b"`. -/
theorem claim6_counterexample :
    normalizeName "a.b" = "a-b" ∧ normalizeNameStripSpec "a.b" = "ab" ∧
      normalizeName "a.b" ≠ normalizeNameStripSpec "a.b" := by
  refine ⟨by decide, by decide, by decide⟩

/-- C6 amended — for every string, `normalizeName` lower-cases, replaces
every maximal run of characters outside the slug alphabet (path
separators, whitespace and colons included) with a single dash, trims edge
dashes, and falls back to the placeholder on an empty result: it agrees
with the specification-worded `normalizeNameSpec` on all inputs, and is a
total pure function. -/
theorem claim6_normalizeName_replaces :
    ∀ x : String, normalizeName x = normalizeNameSpec x := by
  intro x
  apply String.ext
  simp only [normalizeName, normalizeNameL, normalizeNameSpec]
  by_cases h0 : jsTrimL x.data = []
  · rw [if_pos h0, if_pos h0]
  · rw [if_neg h0, if_neg h0]
    rw [normalizer_chain_eq (jsTrimL x.data)]
    by_cases h1 : trimDashes (replaceRunsWith dashChar '-'
        (List.map slugStep (jsTrimL x.data))) = []
    · rw [if_pos h1, if_pos h1]
    · rw [if_neg h1, if_neg h1]

/-- C7 — normalization is idempotent, and its output is a nonempty word of
the slug alphabet `[a-z0-9_-]` (in particular, the placeholder `"item"`
also has that shape). -/
theorem claim7_normalize_idempotent :
    ∀ x : String, normalizeName (normalizeName x) = normalizeName x ∧
      (((normalizeName x).data ≠ [] ∧
        ∀ c ∈ (normalizeName x).data, allowedSlugChar c = true) ∨
       normalizeName x = "item") := by
  intro x
  obtain ⟨hne, hall, hchain, hhead, hlast⟩ := normalizeNameL_shape x.data
  constructor
  · apply String.ext
    simp only [normalizeName]
    exact normalizeNameL_fixpoint _ hne hall hchain hhead hlast
  · exact Or.inl ⟨hne, hall⟩

/-! ## C10: the disable-model-invocation gate -/

/-- The `command` map of an installer-A configuration object. -/
def configCommandMap (j : Json) : List (String × Json) :=
  match j with
  | .obj e =>
    match getEntry e "command" with
    | some (.obj m) => m
    | _ => []
  | _ => []

/-- C10 — a command is excluded from installation exactly when the
frontmatter key `disable-model-invocation` parses to the boolean `true`
(the unquoted token): the loader's flag equals that strict test; a flagged
command leaves both installers' runs unchanged; an unflagged command is
installed by both; and the quoted string `"true"` or the number `1` do not
set the flag. -/
theorem claim10_disable_strict_boolean :
    (∀ baseName raw : String,
      (commandOfFile baseName raw).disableModelInvocation = true ↔
        getEntry (parseFrontmatter raw).1 "disable-model-invocation" =
          some (.scalar (.bool true))) ∧
    (∀ codexRoot fs (c : Command) skills, c.disableModelInvocation = true →
      installCodex codexRoot fs [c] skills = installCodex codexRoot fs [] skills) ∧
    (∀ opencodeRoot fs configIn (c : Command) skills,
      c.disableModelInvocation = true →
      installOpenCode opencodeRoot fs configIn [c] skills =
        installOpenCode opencodeRoot fs configIn [] skills) ∧
    (∀ codexRoot fs (c : Command), c.disableModelInvocation = false →
      pathExists (installCodex codexRoot fs [c] []).fs
        (codexRoot ++ "/prompts/" ++ normalizeName c.name ++ ".md") = true) ∧
    (∀ opencodeRoot fs (c : Command), c.disableModelInvocation = false →
      getEntry (configCommandMap (installOpenCode opencodeRoot fs none [c] []).config)
        c.name = some (commandJson c)) ∧
    (commandOfFile "review"
      "---\ndisable-model-invocation: true\n---\nx").disableModelInvocation = true ∧
    (commandOfFile "review"
      "---\ndisable-model-invocation: \"true\"\n---\nx").disableModelInvocation = false ∧
    (commandOfFile "review"
      "---\ndisable-model-invocation: 1\n---\nx").disableModelInvocation = false := by
  refine ⟨?_, ?_, ?_, ?_, ?_, by decide, by decide, by decide⟩
  · intro baseName raw
    simp only [commandOfFile]
    cases h : getEntry (parseFrontmatter raw).1 "disable-model-invocation" with
    | none => simp [h]
    | some v =>
      cases v with
      | scalar s =>
        cases s with
        | str s => simp [h]
        | num r => simp [h]
        | bool b => cases b <;> simp [h]
      | list items => simp [h]
  · intro codexRoot fs c skills hc
    simp [installCodex, installCodexStep, hc]
  · intro opencodeRoot fs configIn c skills hc
    simp [installOpenCode, openCodeStep, hc]
  · intro codexRoot fs c hc
    have hu : uniqueName (normalizeName c.name) [] =
        (normalizeName c.name, [normalizeName c.name]) := by
      simp [uniqueName, addUsed]
    simp only [installCodex, List.foldl_cons, List.foldl_nil, installCodexStep,
      hc, Bool.false_eq_true, if_false, hu]
    simp [pathExists, fsGet, fsSet, getEntry_setEntry_self]
  · intro opencodeRoot fs c hc
    simp only [installOpenCode, Option.getD]
    simp only [List.foldl_cons, List.foldl_nil, openCodeStep, hc,
      Bool.false_eq_true, if_false]
    have h1 : getEntry ([] : List (String × Json)) "$schema" = none := rfl
    have h2 : getEntry (setEntry ([] : List (String × Json)) "$schema"
        (.str "https://opencode.ai/config.json")) "command" = none := rfl
    simp only [h1, h2]
    have h3 : getEntry ([] : List (String × Json)) c.name = none := rfl
    simp only [h3, Option.isSome_none, Bool.false_eq_true, if_false]
    simp [configCommandMap, getEntry_setEntry_self, getEntry_setEntry_self]

/-- Witness for C10 at concrete inputs: a flagged command changes nothing
in an installer-B run, and an unflagged command's prompt file is written. -/
theorem claim10_witness :
    installCodex "/cx" []
      [{ name := "review", description := none, argumentHint := none,
         allowedTools := none, disableModelInvocation := true, body := "b" }] [] =
      installCodex "/cx" [] [] [] ∧
    pathExists (installCodex "/cx" []
      [{ name := "review", description := none, argumentHint := none,
         allowedTools := none, disableModelInvocation := false, body := "b" }] []).fs
      ("/cx" ++ "/prompts/" ++ normalizeName "review" ++ ".md") = true := by
  constructor
  · exact claim10_disable_strict_boolean.2.1 "/cx" []
      { name := "review", description := none, argumentHint := none,
        allowedTools := none, disableModelInvocation := true, body := "b" } []
      (by decide)
  · exact claim10_disable_strict_boolean.2.2.2.1 "/cx" []
      { name := "review", description := none, argumentHint := none,
        allowedTools := none, disableModelInvocation := false, body := "b" }
      (by decide)

/-! ## C4: configuration merge preservation -/

/-- Top-level key lookup in a configuration object. -/
def configTop (j : Json) (k : String) : Option Json :=
  match j with
  | .obj e => getEntry e k
  | _ => none

theorem openCodeStep_fold_preserves (commands : List Command) :
    ∀ (m : List (String × Json)) (sk : List String) (name : String) (v : Json),
      getEntry m name = some v →
      getEntry (commands.foldl openCodeStep (m, sk)).1 name = some v := by
  induction commands with
  | nil => intro m sk name v h; exact h
  | cons c cs ih =>
    intro m sk name v h
    simp only [List.foldl_cons]
    by_cases hd : c.disableModelInvocation
    · simp only [openCodeStep, hd, if_true]
      exact ih m sk name v h
    · simp only [openCodeStep, hd, Bool.false_eq_true, if_false]
      by_cases hmem : (getEntry m c.name).isSome
      · simp only [hmem, if_true]
        exact ih m _ name v h
      · simp only [hmem, Bool.false_eq_true, if_false]
        apply ih
        have hne : name ≠ c.name := by
          intro heq
          rw [← heq, h] at hmem
          simp at hmem
        rw [getEntry_setEntry_ne m c.name name (commandJson c) hne]
        exact h

/-- C4 — an installer-A run over a pre-existing configuration object
preserves every top-level key it does not own (everything except `command`
and the `$schema` marker), and preserves every entry of the pre-existing
`command` map unchanged. -/
theorem claim4_config_merge_preservation :
    ∀ (opencodeRoot : String) (fs : Fs) (entries : List (String × Json))
      (commands : List Command) (skills : List Skill),
      (∀ k, k ≠ "command" → k ≠ "$schema" →
        configTop (installOpenCode opencodeRoot fs (some (.obj entries))
          commands skills).config k = getEntry entries k) ∧
      (∀ name v,
        getEntry (match getEntry entries "command" with
          | some (.obj m) => m
          | _ => []) name = some v →
        getEntry (configCommandMap (installOpenCode opencodeRoot fs
          (some (.obj entries)) commands skills).config) name = some v) := by
  intro opencodeRoot fs entries commands skills
  have hcs : ("command" : String) ≠ "$schema" := by decide
  constructor
  · intro k hk1 hk2
    simp only [installOpenCode, Option.getD, configTop]
    rw [getEntry_setEntry_ne _ "command" k _ hk1,
      getEntry_setEntry_ne _ "$schema" k _ hk2]
  · intro name v h
    simp only [installOpenCode, Option.getD, configCommandMap]
    rw [getEntry_setEntry_self]
    rw [getEntry_setEntry_ne entries "$schema" "command" _ hcs]
    exact openCodeStep_fold_preserves commands _ [] name v h

/-- Witness for C4 at a concrete configuration: the unrelated key `foo: 1`
and the pre-existing entry `command.old` survive an install run. -/
theorem claim4_witness :
    configTop (installOpenCode "/oc" [] (some (.obj [("foo", .num "1"),
      ("command", .obj [("old", .str "x")])]))
      [{ name := "review", description := some "Review code",
         argumentHint := none, allowedTools := none,
         disableModelInvocation := false, body := "Do the review." }] []).config
      "foo" = some (.num "1") ∧
    getEntry (configCommandMap (installOpenCode "/oc" [] (some (.obj [("foo", .num "1"),
      ("command", .obj [("old", .str "x")])]))
      [{ name := "review", description := some "Review code",
         argumentHint := none, allowedTools := none,
         disableModelInvocation := false, body := "Do the review." }] []).config)
      "old" = some (.str "x") := by
  constructor
  · have h := (claim4_config_merge_preservation "/oc" []
      [("foo", .num "1"), ("command", .obj [("old", .str "x")])]
      [{ name := "review", description := some "Review code",
         argumentHint := none, allowedTools := none,
         disableModelInvocation := false, body := "Do the review." }] []).1
      "foo" (by decide) (by decide)
    rw [h]
    rfl
  · exact (claim4_config_merge_preservation "/oc" []
      [("foo", .num "1"), ("command", .obj [("old", .str "x")])]
      [{ name := "review", description := some "Review code",
         argumentHint := none, allowedTools := none,
         disableModelInvocation := false, body := "Do the review." }] []).2
      "old" (.str "x") rfl

/-! ## C2: collision handling -/

theorem promptPath_ne_skillPath (root pn sn : String) :
    root ++ "/prompts/" ++ pn ++ ".md" ≠ root ++ "/skills/" ++ sn ++ "/SKILL.md" := by
  intro h
  have hd := congrArg (fun s : String => s.data.drop root.data.length) h
  simp only [String.data_append, List.append_assoc] at hd
  rw [List.drop_left, List.drop_left] at hd
  simp at hd

/-- The pre-existing `command` map of a configuration entry list. -/
def commandMapOf (entries : List (String × Json)) : List (String × Json) :=
  match getEntry entries "command" with
  | some (.obj m) => m
  | _ => []

/-- C2 counterexample — the code has no overwrite flag: the only behavior
installer B offers replaces a pre-existing prompt file (reporting it as
overwritten rather than skipping it), and installer A's skill copy replaces
a pre-existing file silently, contradicting the claim that a run without
the overwrite flag leaves pre-existing artifacts unmodified. -/
theorem claim2_counterexample :
    fsGet (installCodex "/cx" [("/cx/prompts/review.md", "OLD")]
      [{ name := "review", description := some "Review code",
         argumentHint := none, allowedTools := none,
         disableModelInvocation := false, body := "Do the review." }] []).fs
      "/cx/prompts/review.md" ≠ some "OLD" ∧
    (installCodex "/cx" [("/cx/prompts/review.md", "OLD")]
      [{ name := "review", description := some "Review code",
         argumentHint := none, allowedTools := none,
         disableModelInvocation := false, body := "Do the review." }] []).overwrittenPrompts
      = ["review"] ∧
    fsGet (installOpenCode "/oc" [("/oc/skills/s/f.md", "OLD")] none []
      [{ name := "s", files := [("f.md", "NEW")] }]).fs "/oc/skills/s/f.md"
      = some "NEW" ∧
    (installOpenCode "/oc" [("/oc/skills/s/f.md", "OLD")] none []
      [{ name := "s", files := [("f.md", "NEW")] }]).skippedCommands = [] := by
  refine ⟨by decide, by decide, by decide, by decide⟩

/-- C2 amended — neither installer takes an overwrite flag.  Installer A
leaves a colliding command entry unmodified and reports it as skipped,
while its recursive skill copy replaces pre-existing files silently.
Installer B always writes the generated prompt document, replacing any
pre-existing file at that path, and reports the name as overwritten exactly
when the file pre-existed. -/
theorem claim2_no_flag_policy :
    (∀ (root : String) (fs : Fs) (entries : List (String × Json)) (c : Command),
      c.disableModelInvocation = false →
      (getEntry (commandMapOf entries) c.name).isSome = true →
      configCommandMap (installOpenCode root fs (some (.obj entries)) [c] []).config
          = commandMapOf entries ∧
        (installOpenCode root fs (some (.obj entries)) [c] []).skippedCommands
          = [c.name]) ∧
    (∀ (root nm rel content : String) (fs : Fs),
      fsGet (installOpenCode root fs none [] [{ name := nm, files := [(rel, content)] }]).fs
          (root ++ "/skills/" ++ nm ++ "/" ++ rel) = some content ∧
        (installOpenCode root fs none [] [{ name := nm, files := [(rel, content)] }]).skippedCommands
          = []) ∧
    (∀ (root : String) (fs : Fs) (c : Command),
      c.disableModelInvocation = false →
      fsGet (installCodex root fs [c] []).fs
          (root ++ "/prompts/" ++ normalizeName c.name ++ ".md")
        = some (codexPromptDoc (normalizeName c.name) c) ∧
      (installCodex root fs [c] []).overwrittenPrompts =
        (if pathExists fs (root ++ "/prompts/" ++ normalizeName c.name ++ ".md")
         then [normalizeName c.name] else [])) := by
  have hcs : ("command" : String) ≠ "$schema" := by decide
  refine ⟨?_, ?_, ?_⟩
  · intro root fs entries c hdis hpresent
    simp only [installOpenCode, Option.getD, List.foldl_cons, List.foldl_nil,
      openCodeStep, hdis, Bool.false_eq_true, if_false, configCommandMap,
      commandMapOf]
    rw [getEntry_setEntry_ne entries "$schema" "command" _ hcs]
    simp only [commandMapOf] at hpresent
    simp only [hpresent, if_true]
    constructor
    · rw [getEntry_setEntry_self]
    · rfl
  · intro root nm rel content fs
    constructor
    · simp only [installOpenCode, List.foldl_cons, List.foldl_nil, copyDir]
      have : root ++ "/skills/" ++ nm ++ "/" ++ rel =
          root ++ "/skills/" ++ nm ++ ("/" ++ rel) := by
        simp [String.append_assoc]
      rw [this]
      simp only [fsGet, fsSet]
      rw [show (root ++ "/skills/" ++ nm ++ ("/" ++ rel)) =
        ((root ++ "/skills/" ++ nm) ++ "/" ++ rel) from by simp [String.append_assoc]]
      exact getEntry_setEntry_self fs _ content
    · rfl
  · intro root fs c hdis
    have hu : uniqueName (normalizeName c.name) [] =
        (normalizeName c.name, [normalizeName c.name]) := by
      simp [uniqueName, addUsed]
    simp only [installCodex, List.foldl_cons, List.foldl_nil, installCodexStep,
      hdis, Bool.false_eq_true, if_false, hu]
    have hne : root ++ "/prompts/" ++ normalizeName c.name ++ ".md" ≠
        root ++ "/skills/" ++ normalizeName c.name ++ "/SKILL.md" :=
      promptPath_ne_skillPath root (normalizeName c.name) (normalizeName c.name)
    constructor
    · simp only [fsGet, fsSet]
      rw [getEntry_setEntry_self]
    · simp only [pathExists, fsGet, fsSet]
      simp only [getEntry_setEntry_ne _ _ _ _ hne, List.nil_append]

/-- Witness for C2 at concrete inputs: a pre-existing `command.review`
config entry survives and is reported skipped; a pre-existing prompt file
is rewritten with the generated document and reported overwritten. -/
theorem claim2_witness :
    (configCommandMap (installOpenCode "/oc" []
        (some (.obj [("command", .obj [("review", .str "x")])]))
        [{ name := "review", description := some "Review code",
           argumentHint := none, allowedTools := none,
           disableModelInvocation := false, body := "Do the review." }] []).config
        = commandMapOf [("command", .obj [("review", .str "x")])] ∧
      (installOpenCode "/oc" []
        (some (.obj [("command", .obj [("review", .str "x")])]))
        [{ name := "review", description := some "Review code",
           argumentHint := none, allowedTools := none,
           disableModelInvocation := false, body := "Do the review." }] []).skippedCommands
        = ["review"]) ∧
    (fsGet (installCodex "/cx" [("/cx/prompts/review.md", "OLD")]
        [{ name := "review", description := some "Review code",
           argumentHint := none, allowedTools := none,
           disableModelInvocation := false, body := "Do the review." }] []).fs
        ("/cx" ++ "/prompts/" ++ normalizeName "review" ++ ".md")
        = some (codexPromptDoc (normalizeName "review")
            { name := "review", description := some "Review code",
              argumentHint := none, allowedTools := none,
              disableModelInvocation := false, body := "Do the review." }) ∧
      (installCodex "/cx" [("/cx/prompts/review.md", "OLD")]
        [{ name := "review", description := some "Review code",
           argumentHint := none, allowedTools := none,
           disableModelInvocation := false, body := "Do the review." }] []).overwrittenPrompts
        = (if pathExists [("/cx/prompts/review.md", "OLD")]
             ("/cx" ++ "/prompts/" ++ normalizeName "review" ++ ".md")
           then [normalizeName "review"] else [])) :=
  ⟨claim2_no_flag_policy.1 "/oc" [] [("command", .obj [("review", .str "x")])]
      { name := "review", description := some "Review code",
        argumentHint := none, allowedTools := none,
        disableModelInvocation := false, body := "Do the review." }
      (by decide) (by decide),
   claim2_no_flag_policy.2.2 "/cx" [("/cx/prompts/review.md", "OLD")]
      { name := "review", description := some "Review code",
        argumentHint := none, allowedTools := none,
        disableModelInvocation := false, body := "Do the review." }
      (by decide)⟩

/-! ## C3: namespace seeding -/

theorem natToDecimal_ne_empty (k : ℕ) : (natToDecimal k).data ≠ [] := by
  unfold natToDecimal
  by_cases hk : k = 0
  · subst hk
    simp
  · simp only [hk, if_false]
    cases k with
    | zero => exact absurd rfl hk
    | succ f =>
      show natDigitsAux (f + 1) (f + 1) ≠ []
      rw [natDigitsAux]
      simp

theorem append_dash_ne (base : String) (k : ℕ) :
    base ++ "-" ++ natToDecimal k ≠ base := by
  intro h
  have hlen := congrArg (fun s : String => s.data.length) h
  simp only [String.data_append, List.length_append] at hlen
  have h2 : (natToDecimal k).data.length > 0 :=
    List.length_pos.mpr (natToDecimal_ne_empty k)
  have h3 : ("-" : String).data.length = 1 := rfl
  omega

theorem uniqueName_singleton (nn : String) :
    uniqueName nn [nn] =
      (nn ++ "-" ++ natToDecimal 2, [nn, nn ++ "-" ++ natToDecimal 2]) := by
  have hne := append_dash_ne nn 2
  have hmem : nn ∈ [nn] := List.mem_singleton_self nn
  have hnotmem : (nn ++ "-" ++ natToDecimal 2) ∉ [nn] := by
    simp [List.mem_singleton, hne]
  simp only [uniqueName, hmem, if_true]
  have hprobe : probeFree nn [nn] ([nn].length + 1) 2 = 2 := by
    simp only [List.length_singleton]
    rw [probeFree, if_neg hnotmem]
  rw [hprobe]
  simp only [addUsed]
  rw [if_neg hnotmem]
  rfl

/-- C3 counterexample — the prompt and generated-skill used-name sets are
not seeded from the destination disk: with no plugin skills in the run, a
command named `review` is assigned the generated-skill name `review` even
though `skills/review/SKILL.md` already exists on disk, and that
pre-existing artifact (which this run did not create) is overwritten. -/
theorem claim3_counterexample :
    (installCodex "/cx" [("/cx/skills/review/SKILL.md", "OLD")]
      [{ name := "review", description := some "Review code",
         argumentHint := none, allowedTools := none,
         disableModelInvocation := false, body := "Do the review." }] []).overwrittenSkills
      = ["review"] ∧
    fsGet (installCodex "/cx" [("/cx/skills/review/SKILL.md", "OLD")]
      [{ name := "review", description := some "Review code",
         argumentHint := none, allowedTools := none,
         disableModelInvocation := false, body := "Do the review." }] []).fs
      "/cx/skills/review/SKILL.md" ≠ some "OLD" := by
  refine ⟨by decide, by decide⟩

/-- C3 amended — in an installer-B run the prompt used-name set starts
empty and the skill used-name set is seeded only with the normalized names
of the plugin skills copied in the same run; neither set is seeded from
names already present on disk, so uniquification only avoids collisions
with names created or copied by the run itself.  With no skills, a single
command allocates exactly its normalized name in both namespaces
regardless of the destination contents; with one skill whose normalized
name equals the command's, the generated skill gets the `-2` suffix. -/
theorem claim3_seeding :
    (∀ (root : String) (fs : Fs) (c : Command),
      c.disableModelInvocation = false →
      (installCodex root fs [c] []).promptNames = [normalizeName c.name] ∧
      (installCodex root fs [c] []).usedSkillNames = [normalizeName c.name]) ∧
    (∀ (root : String) (fs : Fs) (c : Command) (s : Skill),
      c.disableModelInvocation = false →
      normalizeName s.name = normalizeName c.name →
      (installCodex root fs [c] [s]).promptNames = [normalizeName c.name] ∧
      (installCodex root fs [c] [s]).usedSkillNames =
        [normalizeName c.name,
         normalizeName c.name ++ "-" ++ natToDecimal 2] ∧
      fsGet (installCodex root fs [c] [s]).fs
          (root ++ "/skills/" ++ (normalizeName c.name ++ "-" ++ natToDecimal 2)
            ++ "/SKILL.md")
        = some (codexSkillDoc
            (normalizeName c.name ++ "-" ++ natToDecimal 2) c)) := by
  constructor
  · intro root fs c hdis
    have hu : uniqueName (normalizeName c.name) [] =
        (normalizeName c.name, [normalizeName c.name]) := by
      simp [uniqueName, addUsed]
    simp [installCodex, installCodexStep, hdis, hu]
  · intro root fs c s hdis hn
    have hu0 : uniqueName (normalizeName c.name) [] =
        (normalizeName c.name, [normalizeName c.name]) := by
      simp [uniqueName, addUsed]
    have hu1 := uniqueName_singleton (normalizeName c.name)
    have hst0 : installCodex root fs [c] [s] = installCodexStep root
        { fs := copyDir fs (root ++ "/skills/" ++ s.name) s.files,
          promptNames := [], usedSkillNames := [normalizeName s.name],
          overwrittenPrompts := [], overwrittenSkills := [] } c := by
      simp [installCodex, addUsed]
    rw [hst0, hn]
    simp only [installCodexStep, hdis, Bool.false_eq_true, if_false, hu0, hu1]
    refine ⟨trivial, trivial, ?_⟩
    simp only [fsGet, fsSet]
    rw [getEntry_setEntry_ne _ _ _ _
      (Ne.symm (promptPath_ne_skillPath root (normalizeName c.name)
        (normalizeName c.name ++ "-" ++ natToDecimal 2)))]
    rw [getEntry_setEntry_self]

/-- Witness for C3 at concrete inputs: with a pre-existing prompt on disk
the allocated names ignore the disk entirely, and a plugin skill whose
normalized name matches the command forces the `-2` suffix. -/
theorem claim3_witness :
    ((installCodex "/cx" [("/cx/prompts/review.md", "OLD")]
        [{ name := "review", description := some "Review code",
           argumentHint := none, allowedTools := none,
           disableModelInvocation := false, body := "Do the review." }] []).promptNames
        = [normalizeName "review"] ∧
      (installCodex "/cx" [("/cx/prompts/review.md", "OLD")]
        [{ name := "review", description := some "Review code",
           argumentHint := none, allowedTools := none,
           disableModelInvocation := false, body := "Do the review." }] []).usedSkillNames
        = [normalizeName "review"]) ∧
    (installCodex "/cx" []
        [{ name := "review", description := some "Review code",
           argumentHint := none, allowedTools := none,
           disableModelInvocation := false, body := "Do the review." }]
        [{ name := "Review!", files := [("SKILL.md", "x")] }]).usedSkillNames
      = [normalizeName "review",
         normalizeName "review" ++ "-" ++ natToDecimal 2] :=
  ⟨claim3_seeding.1 "/cx" [("/cx/prompts/review.md", "OLD")]
      { name := "review", description := some "Review code",
        argumentHint := none, allowedTools := none,
        disableModelInvocation := false, body := "Do the review." } (by decide),
   (claim3_seeding.2 "/cx" []
      { name := "review", description := some "Review code",
        argumentHint := none, allowedTools := none,
        disableModelInvocation := false, body := "Do the review." }
      { name := "Review!", files := [("SKILL.md", "x")] }
      (by decide) (by decide)).2.1⟩

/-! ## C9: the single-command scenario -/

/-- C9 — installing one command `review` (description "Review code", body
"Do the review.") with no skills into empty destinations: installer A's
configuration gains `command.review = {description, template}`; installer B
writes `prompts/review.md`, whose parsed body opens with the line
referencing the skill `review`, and `skills/review/SKILL.md`, whose parsed
header carries `name: review`. -/
theorem claim9_single_command_scenario :
    getEntry (configCommandMap (installOpenCode "/oc" [] none
      [{ name := "review", description := some "Review code",
         argumentHint := none, allowedTools := none,
         disableModelInvocation := false, body := "Do the review." }] []).config)
      "review" = some (.obj [("description", .str "Review code"),
        ("template", .str "Do the review.")]) ∧
    fsGet (installCodex "/cx" []
      [{ name := "review", description := some "Review code",
         argumentHint := none, allowedTools := none,
         disableModelInvocation := false, body := "Do the review." }] []).fs
      "/cx/prompts/review.md"
      = some (codexPromptDoc "review"
          { name := "review", description := some "Review code",
            argumentHint := none, allowedTools := none,
            disableModelInvocation := false, body := "Do the review." }) ∧
    (splitLinesRN (parseFrontmatter (codexPromptDoc "review"
      { name := "review", description := some "Review code",
        argumentHint := none, allowedTools := none,
        disableModelInvocation := false, body := "Do the review." })).2.data).head?
      = some ("Use the $review skill for this command and follow its instructions.").data ∧
    fsGet (installCodex "/cx" []
      [{ name := "review", description := some "Review code",
         argumentHint := none, allowedTools := none,
         disableModelInvocation := false, body := "Do the review." }] []).fs
      "/cx/skills/review/SKILL.md"
      = some (codexSkillDoc "review"
          { name := "review", description := some "Review code",
            argumentHint := none, allowedTools := none,
            disableModelInvocation := false, body := "Do the review." }) ∧
    getEntry (parseFrontmatter (codexSkillDoc "review"
      { name := "review", description := some "Review code",
        argumentHint := none, allowedTools := none,
        disableModelInvocation := false, body := "Do the review." })).1 "name"
      = some (.scalar (.str "review")) := by
  refine ⟨rfl, by decide, by decide, by decide, by decide⟩

/-! ## C8: path traversal -/

theorem splitCharL_no_sep (sep : Char) :
    ∀ (l : List Char), ∀ s ∈ splitCharL sep l, sep ∉ s := by
  intro l
  induction l with
  | nil =>
    intro s hs
    simp only [splitCharL, List.mem_singleton] at hs
    subst hs
    simp
  | cons c t ih =>
    intro s hs
    by_cases hc : c = sep
    · rw [splitCharL, if_pos hc] at hs
      rcases List.mem_cons.mp hs with rfl | hs2
      · simp
      · exact ih s hs2
    · rw [splitCharL, if_neg hc] at hs
      cases hsplit : splitCharL sep t with
      | nil =>
        rw [hsplit] at hs
        simp only [List.mem_singleton] at hs
        subst hs
        simp only [List.mem_singleton]
        exact fun h => hc h.symm
      | cons l0 ls =>
        rw [hsplit] at hs
        rcases List.mem_cons.mp hs with rfl | hs2
        · intro hmem
          rcases List.mem_cons.mp hmem with h | h
          · exact hc h.symm
          · exact ih l0 (by rw [hsplit]; exact List.mem_cons_self l0 ls) h
        · exact ih s (by rw [hsplit]; exact List.mem_cons_of_mem l0 hs2)

theorem normalizeSegs_foldl_mem :
    ∀ (segs acc : List (List Char)),
      (∀ s ∈ acc, s ≠ [] ∧ '/' ∉ s) → (∀ s ∈ segs, '/' ∉ s) →
      ∀ s ∈ segs.foldl (fun acc seg =>
        if seg = [] || seg = ['.'] then acc
        else if seg = ['.', '.'] then acc.dropLast
        else acc ++ [seg]) acc, s ≠ [] ∧ '/' ∉ s := by
  intro segs
  induction segs with
  | nil => intro acc hacc _ s hs; exact hacc s hs
  | cons a t ih =>
    intro acc hacc hsegs s hs
    simp only [List.foldl_cons] at hs
    have htail : ∀ s ∈ t, '/' ∉ s := fun x hx => hsegs x (List.mem_cons_of_mem a hx)
    by_cases h1 : (a = [] || a = ['.']) = true
    · rw [if_pos h1] at hs
      exact ih acc hacc htail s hs
    · rw [if_neg (by simpa using (by simpa using h1))] at hs
      by_cases h2 : a = ['.', '.']
      · rw [if_pos h2] at hs
        exact ih acc.dropLast (fun x hx => hacc x (List.dropLast_subset acc hx)) htail s hs
      · rw [if_neg h2] at hs
        refine ih (acc ++ [a]) ?_ htail s hs
        intro x hx
        rcases List.mem_append.mp hx with hx2 | hx2
        · exact hacc x hx2
        · simp only [List.mem_singleton] at hx2
          subst hx2
          simp only [Bool.or_eq_true, decide_eq_true_eq] at h1
          push_neg at h1
          exact ⟨h1.1, hsegs x (List.mem_cons_self _ _)⟩

theorem mem_resolveSegs (l : List Char) :
    ∀ s ∈ normalizeSegs (splitCharL '/' l), s ≠ [] ∧ '/' ∉ s :=
  normalizeSegs_foldl_mem (splitCharL '/' l) [] (by simp) (splitCharL_no_sep '/' l)

theorem slash_append_prefix (a : List Char) :
    ∀ (b x y : List Char), '/' ∉ a → '/' ∉ b →
      (a ++ '/' :: x <+: b ++ '/' :: y) → a = b ∧ x <+: y := by
  induction a with
  | nil =>
    intro b x y _ hb h
    cases b with
    | nil =>
      simp only [List.nil_append] at h
      exact ⟨rfl, (List.cons_prefix_cons.mp h).2⟩
    | cons c b2 =>
      simp only [List.nil_append, List.cons_append] at h
      have := (List.cons_prefix_cons.mp h).1
      exact absurd (this ▸ List.mem_cons_self c b2) hb
  | cons c a2 ih =>
    intro b x y ha hb h
    cases b with
    | nil =>
      simp only [List.cons_append, List.nil_append] at h
      have := (List.cons_prefix_cons.mp h).1
      exact absurd (this ▸ List.mem_cons_self c a2) ha
    | cons d b2 =>
      simp only [List.cons_append] at h
      obtain ⟨hcd, hrest⟩ := List.cons_prefix_cons.mp h
      have ha2 : '/' ∉ a2 := fun hmem => ha (List.mem_cons_of_mem c hmem)
      have hb2 : '/' ∉ b2 := fun hmem => hb (List.mem_cons_of_mem d hmem)
      obtain ⟨heq, hxy⟩ := ih b2 x y ha2 hb2 hrest
      exact ⟨by rw [hcd, heq], hxy⟩

theorem slash_append_eq (a b x y : List Char) (ha : '/' ∉ a) (hb : '/' ∉ b)
    (h : a ++ '/' :: x = b ++ '/' :: y) : a = b ∧ x = y := by
  have hpre : a ++ '/' :: x <+: b ++ '/' :: y := h ▸ List.prefix_refl _
  obtain ⟨hab, _⟩ := slash_append_prefix a b x y ha hb hpre
  subst hab
  have := List.append_cancel_left h
  exact ⟨rfl, by injection this⟩

theorem interSlash_eq_nil_iff (A : List (List Char))
    (hA : ∀ s ∈ A, s ≠ [] ∧ '/' ∉ s) : interSlash A = [] ↔ A = [] := by
  cases A with
  | nil => simp [interSlash]
  | cons a A2 =>
    cases A2 with
    | nil =>
      simp only [interSlash]
      have := (hA a (List.mem_cons_self _ _)).1
      simp [this]
    | cons b A3 =>
      simp [interSlash]

theorem slash_mem_interSlash (a b : List Char) (t : List (List Char)) :
    '/' ∈ interSlash (a :: b :: t) := by
  simp [interSlash]

theorem interSlash_within_iff :
    ∀ (A B : List (List Char)),
      (∀ s ∈ A, s ≠ [] ∧ '/' ∉ s) → (∀ s ∈ B, s ≠ [] ∧ '/' ∉ s) → A ≠ [] →
      ((interSlash B = interSlash A ∨ interSlash A ++ ['/'] <+: interSlash B) ↔
        A <+: B) := by
  intro A
  induction A with
  | nil => intro B _ _ hAne; exact absurd rfl hAne
  | cons a A2 ih =>
    intro B hA hB _
    have haprops := hA a (List.mem_cons_self _ _)
    cases B with
    | nil =>
      constructor
      · intro h
        rcases h with h | h
        · have h2 : interSlash (a :: A2) = [] := h.symm
          rw [interSlash_eq_nil_iff _ hA] at h2
          cases h2
        · have h2 := List.prefix_nil.mp h
          simp at h2
      · intro h
        cases List.prefix_nil.mp h
    | cons b B2 =>
      have hbprops := hB b (List.mem_cons_self _ _)
      cases A2 with
      | nil =>
        cases B2 with
        | nil =>
          simp only [interSlash]
          constructor
          · intro h
            rcases h with h | h
            · rw [List.cons_prefix_cons]
              exact ⟨h.symm, List.nil_prefix⟩
            · have h2 : '/' ∈ b := h.subset (by simp)
              exact absurd h2 hbprops.2
          · intro h
            obtain ⟨hab, _⟩ := List.cons_prefix_cons.mp h
            exact Or.inl hab.symm
        | cons b2 B3 =>
          simp only [interSlash]
          constructor
          · intro h
            rcases h with h | h
            · have h2 : '/' ∈ a := by
                rw [← h]
                simp
              exact absurd h2 haprops.2
            · obtain ⟨hab, _⟩ := slash_append_prefix a b [] _
                haprops.2 hbprops.2 h
              rw [List.cons_prefix_cons]
              exact ⟨hab, List.nil_prefix⟩
          · intro h
            obtain ⟨hab, _⟩ := List.cons_prefix_cons.mp h
            subst hab
            right
            exact ⟨interSlash (b2 :: B3), by simp⟩
      | cons a2 A3 =>
        cases B2 with
        | nil =>
          simp only [interSlash]
          constructor
          · intro h
            rcases h with h | h
            · have h2 : '/' ∈ b := by
                rw [h]
                simp
              exact absurd h2 hbprops.2
            · have h2 : '/' ∈ b := h.subset (by simp)
              exact absurd h2 hbprops.2
          · intro h
            obtain ⟨_, hpre⟩ := List.cons_prefix_cons.mp h
            cases List.prefix_nil.mp hpre
        | cons b2 B3 =>
          simp only [interSlash]
          have hA2 : ∀ s ∈ a2 :: A3, s ≠ [] ∧ '/' ∉ s :=
            fun s hs => hA s (List.mem_cons_of_mem a hs)
          have hB2 : ∀ s ∈ b2 :: B3, s ≠ [] ∧ '/' ∉ s :=
            fun s hs => hB s (List.mem_cons_of_mem b hs)
          have ihh := ih (b2 :: B3) hA2 hB2 (by simp)
          constructor
          · intro h
            rcases h with h | h
            · obtain ⟨hab, hRS⟩ := slash_append_eq b a _ _ hbprops.2 haprops.2 h
              rw [List.cons_prefix_cons]
              refine ⟨hab.symm, ?_⟩
              rw [← ihh]
              exact Or.inl hRS
            · have h2 : a ++ '/' :: (interSlash (a2 :: A3) ++ ['/']) <+:
                  b ++ '/' :: interSlash (b2 :: B3) := by
                simpa [List.append_assoc] using h
              obtain ⟨hab, hpre⟩ := slash_append_prefix a b _ _
                haprops.2 hbprops.2 h2
              rw [List.cons_prefix_cons]
              refine ⟨hab, ?_⟩
              rw [← ihh]
              exact Or.inr hpre
          · intro h
            obtain ⟨hab, hpre⟩ := List.cons_prefix_cons.mp h
            subst hab
            rcases ihh.mpr hpre with h2 | h2
            · left
              rw [h2]
            · right
              obtain ⟨u, hu⟩ := h2
              refine ⟨u, ?_⟩
              rw [← hu]
              simp [List.append_assoc]

theorem resolvePosix_eq_combined (root entry : String) :
    resolvePosix root entry = resolveAbs
      (if entry.data.head? = some '/' then entry else root ++ "/" ++ entry) := by
  unfold resolvePosix
  by_cases h : entry.data.head? = some '/' <;> simp [h]

theorem check_iff_within (root entry : String)
    (hne : resolveAbs root ≠ "/") :
    ((resolvePosix root entry = resolveAbs root) ∨
      jsStartsWith (resolvePosix root entry) (resolveAbs root ++ "/") = true) ↔
    resolvesWithin root entry = true := by
  have hA := mem_resolveSegs root.data
  have hB := mem_resolveSegs
    (if entry.data.head? = some '/' then entry else root ++ "/" ++ entry).data
  have hAne : normalizeSegs (splitCharL '/' root.data) ≠ [] := by
    intro h
    apply hne
    show String.mk ('/' :: interSlash (normalizeSegs (splitCharL '/' root.data))) = "/"
    rw [h]
    rfl
  have hiff := interSlash_within_iff
    (normalizeSegs (splitCharL '/' root.data))
    (normalizeSegs (splitCharL '/'
      (if entry.data.head? = some '/' then entry else root ++ "/" ++ entry).data))
    hA hB hAne
  rw [resolvePosix_eq_combined]
  simp only [resolveAbs]
  have e_eq : (String.mk ('/' :: interSlash (normalizeSegs (splitCharL '/'
        (if entry.data.head? = some '/' then entry else root ++ "/" ++ entry).data)))
      = String.mk ('/' :: interSlash (normalizeSegs (splitCharL '/' root.data)))) ↔
      interSlash (normalizeSegs (splitCharL '/'
        (if entry.data.head? = some '/' then entry else root ++ "/" ++ entry).data))
      = interSlash (normalizeSegs (splitCharL '/' root.data)) := by
    rw [String.ext_iff]
    simp
  have e_sw : jsStartsWith
      (String.mk ('/' :: interSlash (normalizeSegs (splitCharL '/'
        (if entry.data.head? = some '/' then entry else root ++ "/" ++ entry).data))))
      (String.mk ('/' :: interSlash (normalizeSegs (splitCharL '/' root.data))) ++ "/")
      = true ↔
      interSlash (normalizeSegs (splitCharL '/' root.data)) ++ ['/'] <+:
        interSlash (normalizeSegs (splitCharL '/'
          (if entry.data.head? = some '/' then entry else root ++ "/" ++ entry).data)) := by
    simp only [jsStartsWith, String.data_append]
    rw [List.isPrefixOf_iff_prefix]
    constructor
    · intro h
      have h2 : '/' :: (interSlash (normalizeSegs (splitCharL '/' root.data)) ++ ['/']) <+:
          '/' :: interSlash (normalizeSegs (splitCharL '/'
            (if entry.data.head? = some '/' then entry else root ++ "/" ++ entry).data)) := by
        simpa using h
      exact (List.cons_prefix_cons.mp h2).2
    · intro h
      obtain ⟨u, hu⟩ := h
      refine ⟨u, ?_⟩
      rw [← hu]
      simp [List.append_assoc]
  rw [e_eq, e_sw]
  rw [show resolvesWithin root entry =
    (normalizeSegs (splitCharL '/' root.data)).isPrefixOf
      (normalizeSegs (splitCharL '/'
        (if entry.data.head? = some '/' then entry else root ++ "/" ++ entry).data))
    from rfl]
  rw [List.isPrefixOf_iff_prefix]
  exact hiff

theorem resolveWithinRoot_ok (root entry label : String)
    (hne : resolveAbs root ≠ "/") (h : resolvesWithin root entry = true) :
    resolveWithinRoot root entry label = .ok (resolvePosix root entry) := by
  rcases (check_iff_within root entry hne).mpr h with hc | hc
  · simp [resolveWithinRoot, hc]
  · unfold resolveWithinRoot
    by_cases heq : resolvePosix root entry = resolveAbs root
    · simp [heq]
    · simp [heq, hc]

theorem resolveWithinRoot_error (root entry label : String)
    (hne : resolveAbs root ≠ "/") (h : resolvesWithin root entry = false) :
    resolveWithinRoot root entry label =
      .error ("Invalid " ++ label ++ ": " ++ entry ++
        ". Paths must stay within the plugin root.") := by
  have hnot := (check_iff_within root entry hne)
  have h1 : ¬(resolvePosix root entry = resolveAbs root) := by
    intro hc
    rw [hnot.mp (Or.inl hc)] at h
    cases h
  have h2 : ¬(jsStartsWith (resolvePosix root entry) (resolveAbs root ++ "/") = true) := by
    intro hc
    rw [hnot.mp (Or.inr hc)] at h
    cases h
  unfold resolveWithinRoot
  simp [h1, h2]

theorem resolveComponentDirs_error_aux (root lab : String)
    (hne : resolveAbs root ≠ "/") :
    ∀ (ps : List String) (acc : List String),
      (∃ p ∈ ps, resolvesWithin root p = false) →
      ∃ msg, ps.foldlM (fun acc entry =>
        (resolveWithinRoot root entry lab).map (fun p => acc ++ [p])) acc
          = .error msg := by
  intro ps
  induction ps with
  | nil => intro acc h; simp at h
  | cons q qs ih =>
    intro acc h
    by_cases hq : resolvesWithin root q = false
    · refine ⟨"Invalid " ++ lab ++ ": " ++ q ++
        ". Paths must stay within the plugin root.", ?_⟩
      rw [List.foldlM_cons, resolveWithinRoot_error root q lab hne hq]
      rfl
    · have hq2 : resolvesWithin root q = true := by
        simpa using hq
      obtain ⟨p2, hp2, hfalse⟩ := h
      rcases List.mem_cons.mp hp2 with rfl | hmem
      · rw [hq2] at hfalse
        cases hfalse
      · obtain ⟨msg, hmsg⟩ := ih (acc ++ [resolvePosix root q]) ⟨p2, hmem, hfalse⟩
        refine ⟨msg, ?_⟩
        rw [List.foldlM_cons, resolveWithinRoot_ok root q lab hne hq2]
        simpa using hmsg

/-- C8 counterexample — with the plugin root resolving to the filesystem
root, the declared path `a` resolves strictly within the root, yet the
prefix check (which appends a separator to the resolved root) rejects it
with the path-traversal error. -/
theorem claim8_counterexample :
    resolvesWithin "/" "a" = true ∧
    resolveWithinRoot "/" "a" "commands path" =
      .error "Invalid commands path: a. Paths must stay within the plugin root." :=
  ⟨by decide, rfl⟩

/-- C8 amended — provided the resolved plugin root is not the filesystem
root `/`: a declared extra path that resolves outside the root is rejected
with the path-traversal error, a path resolving to the root itself or
strictly within it is accepted, and when any declared commands path
escapes, the whole conversion aborts with that error during resolution,
producing no installation output (so no destination write occurs).  When
the root resolves to `/`, even strictly-inside paths are rejected. -/
theorem claim8_path_traversal :
    (∀ root entry label : String, resolveAbs root ≠ "/" →
      resolvesWithin root entry = false →
      resolveWithinRoot root entry label =
        .error ("Invalid " ++ label ++ ": " ++ entry ++
          ". Paths must stay within the plugin root.")) ∧
    (∀ root entry label : String, resolveAbs root ≠ "/" →
      resolvesWithin root entry = true →
      resolveWithinRoot root entry label = .ok (resolvePosix root entry)) ∧
    (∀ (root : String) (manifest : Manifest) (src : Fs)
      (opencodeRoot codexRoot : String) (fsA fsB : Fs) (configIn : Option Json),
      resolveAbs root ≠ "/" →
      (∃ p ∈ toPathList manifest.commands, resolvesWithin root p = false) →
      ∃ msg, convertPlugin root manifest src opencodeRoot codexRoot fsA fsB configIn
        = .error msg) := by
  refine ⟨resolveWithinRoot_error, resolveWithinRoot_ok, ?_⟩
  intro root manifest src opencodeRoot codexRoot fsA fsB configIn hne h
  obtain ⟨msg, hmsg⟩ := resolveComponentDirs_error_aux root "commands path" hne
    (toPathList manifest.commands) [root ++ "/" ++ "commands"] h
  refine ⟨msg, ?_⟩
  have hdirs : resolveComponentDirs root "commands" manifest.commands = .error msg := hmsg
  simp only [convertPlugin, hdirs]
  rfl

/-- Witness for C8 at concrete inputs: a traversal path is rejected with
the error, an inside path is accepted, and a manifest declaring a traversal
commands path makes the whole conversion abort. -/
theorem claim8_witness :
    resolveWithinRoot "/root/plugin" "../evil" "commands path" =
      .error ("Invalid " ++ "commands path" ++ ": " ++ "../evil" ++
        ". Paths must stay within the plugin root.") ∧
    resolveWithinRoot "/root/plugin" "sub/dir" "commands path" =
      .ok (resolvePosix "/root/plugin" "sub/dir") ∧
    ∃ msg, convertPlugin "/root/plugin"
      { name := "p", version := "1", commands := .single "../evil", skills := .nil }
      [] "/oc" "/cx" [] [] none = .error msg := by
  refine ⟨?_, ?_, ?_⟩
  · exact claim8_path_traversal.1 "/root/plugin" "../evil" "commands path"
      (by decide) (by decide)
  · exact claim8_path_traversal.2.1 "/root/plugin" "sub/dir" "commands path"
      (by decide) (by decide)
  · exact claim8_path_traversal.2.2 "/root/plugin"
      { name := "p", version := "1", commands := .single "../evil", skills := .nil }
      [] "/oc" "/cx" [] [] none (by decide)
      ⟨"../evil", by decide, by decide⟩

/-! ## Round trip: scope predicates -/

/-- Characters that survive `JSON.stringify` unescaped and keep a YAML scalar
on one physical line: printable (code point at least 32), not the double
quote or backslash, and not the line or paragraph separator. -/
def strOkChar (c : Char) : Bool :=
  32 ≤ c.toNat && c ≠ '"' && c ≠ '\\' && c ≠ '\u2028' && c ≠ '\u2029'

/-- Strings whose JSON rendering is plain quoting without escapes. -/
def strOk (s : String) : Bool := s.data.all strOkChar

/-- Number representations the JS number pipeline reproduces exactly: a
canonical plain decimal (as `String(Number(x))` prints it) whose significand
fits in 15 digits and whose magnitude keeps the printed form in plain
positional notation. -/
def jsNumSafe (r : String) : Bool :=
  matchesNumRegexL r.data && decide (canonDecimalL r.data = r.data) &&
  (match parseDecimal r.data with
   | some (_, ip, fp) =>
     decide (((ip ++ fp).dropWhile (· = '0')).length ≤ 15) &&
       decide (ip.length ≤ 21) && decide (fp.length ≤ 6)
   | none => false)

/-- Scalars whose rendering the parser coerces back to the same value. -/
def scalarOk : YScalar → Bool
  | .str s => strOk s
  | .num r => jsNumSafe r
  | .bool _ => true

/-- Header values the serializer emits faithfully: a boolean, a safe number,
a nonempty safe string, or a nonempty list of safe scalars. -/
def valueOk : YVal → Bool
  | .scalar (.str s) => strOk s && !s.data.isEmpty
  | .scalar sc => scalarOk sc
  | .list items => !items.isEmpty && items.all scalarOk

/-- Header keys of the shape the parser's key regex accepts, excluding keys
that would place a closing delimiter at the start of their line. -/
def keyOkB (k : String) : Bool :=
  !k.data.isEmpty && k.data.all keyChar && !(['-', '-', '-'].isPrefixOf k.data)

/-- Header mappings in the serializer's faithful range: pairwise distinct
acceptable keys carrying faithful values. -/
def headerOk (h : Yobj) : Prop :=
  (h.map Prod.fst).Nodup ∧ ∀ e ∈ h, keyOkB e.1 = true ∧ valueOk e.2 = true

/-- C1, counterexample: serializing the header `{k: ""}` with body `"x"`
emits no delimiters at all (the empty-string entry is skipped and no entries
remain), and parsing the result yields an empty header and the body with a
trailing newline — not the original header and the trimmed body. -/
theorem claim1_counterexample :
    parseFrontmatter (formatFrontmatter [("k", .scalar (.str ""))] "x") = ([], "x\n") ∧
    (([], "x\n") : Yobj × String) ≠ ([("k", .scalar (.str ""))], "x") := by
  exact ⟨rfl, by decide⟩

/-! ## Round trip: basic list and character facts -/

theorem drop_length_takeWhile (p : Char → Bool) (l : List Char) :
    l.drop (l.takeWhile p).length = l.dropWhile p := by
  induction l with
  | nil => rfl
  | cons c t ih =>
    by_cases hc : p c
    · simp [List.takeWhile_cons, List.dropWhile_cons, hc, ih]
    · simp [List.takeWhile_cons, List.dropWhile_cons, hc]

theorem takeWhile_all_append (p : Char → Bool) (a b : List Char)
    (h : ∀ c ∈ a, p c = true) :
    (a ++ b).takeWhile p = a ++ b.takeWhile p := by
  induction a with
  | nil => simp
  | cons c t ih =>
    have hc : p c = true := h c (List.mem_cons_self c t)
    have ih2 := ih fun d hd => h d (List.mem_cons_of_mem c hd)
    simp [List.takeWhile_cons, hc, ih2]

theorem head?_of_prefix {l m : List Char} (h : l <+: m) (hl : l ≠ []) :
    m.head? = l.head? := by
  obtain ⟨t, rfl⟩ := h
  cases l with
  | nil => exact absurd rfl hl
  | cons c u => rfl

theorem ws_mem (c : Char) (h : jsWs c = true) :
    c ∈ ([' ', '\t', '\n', '\r', '\x0b', '\x0c', ' ', ' ',
      ' ', ' ', ' ', ' ', ' ', ' ', ' ',
      ' ', ' ', ' ', ' ', ' ', ' ', ' ',
      ' ', '　', '﻿'] : List Char) := by
  simp only [jsWs, Bool.or_eq_true, decide_eq_true_eq] at h
  simp only [List.mem_cons, List.not_mem_nil, or_false]
  tauto

theorem keyChar_not_ws (c : Char) (h : keyChar c = true) : jsWs c = false := by
  by_cases hw : jsWs c
  · have h2 := ws_mem c hw
    fin_cases h2 <;> revert h <;> decide
  · simpa using hw

theorem digit_not_ws (c : Char) (h : isDigitChar c = true) : jsWs c = false := by
  by_cases hw : jsWs c
  · have h2 := ws_mem c hw
    fin_cases h2 <;> revert h <;> decide
  · simpa using hw

theorem keyChar_not_excluded (c : Char) (h : keyChar c = true) :
    jsDotExcluded c = false := by
  by_cases he : jsDotExcluded c
  · simp only [jsDotExcluded, Bool.or_eq_true, decide_eq_true_eq] at he
    rcases he with ((rfl | rfl) | rfl) | rfl <;> revert h <;> decide
  · simpa using he

theorem digit_not_excluded (c : Char) (h : isDigitChar c = true) :
    jsDotExcluded c = false := by
  by_cases he : jsDotExcluded c
  · simp only [jsDotExcluded, Bool.or_eq_true, decide_eq_true_eq] at he
    rcases he with ((rfl | rfl) | rfl) | rfl <;> revert h <;> decide
  · simpa using he

theorem strOkChar_not_excluded (c : Char) (h : strOkChar c = true) :
    jsDotExcluded c = false := by
  by_cases he : jsDotExcluded c
  · simp only [jsDotExcluded, Bool.or_eq_true, decide_eq_true_eq] at he
    rcases he with ((rfl | rfl) | rfl) | rfl <;> revert h <;> decide
  · simpa using he

theorem strOkChar_facts (c : Char) (h : strOkChar c = true) :
    32 ≤ c.toNat ∧ c ≠ '"' ∧ c ≠ '\\' := by
  simp only [strOkChar, Bool.and_eq_true, decide_eq_true_eq] at h
  exact ⟨h.1.1.1.1, h.1.1.1.2, h.1.1.2⟩

theorem jsonEscapeChar_plain (c : Char) (h : strOkChar c = true) :
    jsonEscapeChar c = [c] := by
  obtain ⟨h32, hq, hb⟩ := strOkChar_facts c h
  have hval : 32 ≤ c.val.toNat := h32
  have hn : ¬(c = '\n') := by intro e; subst e; exact absurd hval (by decide)
  have hr : ¬(c = '\r') := by intro e; subst e; exact absurd hval (by decide)
  have ht : ¬(c = '\t') := by intro e; subst e; exact absurd hval (by decide)
  have h8 : ¬(c.val = 8) := by intro e; rw [e] at hval; exact absurd hval (by decide)
  have h12 : ¬(c.val = 12) := by intro e; rw [e] at hval; exact absurd hval (by decide)
  have hlt : ¬(c.val < 32) := by
    intro e
    rw [UInt32.lt_def, BitVec.lt_def] at e
    have e2 : c.val.toNat < 32 := e
    exact absurd hval (by omega)
  simp [jsonEscapeChar, hq, hb, hn, hr, ht, h8, h12, hlt]

theorem flatMap_escape_eq_self (l : List Char) (h : ∀ c ∈ l, jsonEscapeChar c = [c]) :
    l.flatMap jsonEscapeChar = l := by
  induction l with
  | nil => rfl
  | cons c t ih =>
    rw [List.flatMap_cons, h c (List.mem_cons_self c t),
      ih fun d hd => h d (List.mem_cons_of_mem c hd)]
    rfl

theorem jsonStringify_plain (s : String) (h : strOk s = true) :
    (jsonStringifyStr s).data = '"' :: s.data ++ ['"'] := by
  have h' : s.data.all strOkChar = true := h
  have hall : ∀ c ∈ s.data, jsonEscapeChar c = [c] := by
    intro c hc
    refine jsonEscapeChar_plain c ?_
    simpa using List.all_eq_true.mp h' c hc
  show '"' :: s.data.flatMap jsonEscapeChar ++ ['"'] = '"' :: s.data ++ ['"']
  rw [flatMap_escape_eq_self s.data hall]

/-! ## Round trip: trim shape facts -/

theorem jsTrimL_prefix_dropWhile (l : List Char) : jsTrimL l <+: l.dropWhile jsWs := by
  have hs : (l.dropWhile jsWs).reverse.dropWhile jsWs <:+ (l.dropWhile jsWs).reverse :=
    List.dropWhile_suffix jsWs
  have hp := List.reverse_prefix.mpr hs
  rw [List.reverse_reverse] at hp
  exact hp

theorem jsTrimL_head_not_ws (l : List Char) (c : Char)
    (h : (jsTrimL l).head? = some c) : jsWs c = false := by
  have hne : jsTrimL l ≠ [] := by intro e; rw [e] at h; cases h
  have he := head?_of_prefix (jsTrimL_prefix_dropWhile l) hne
  exact head_dropWhile_false jsWs l c (he.trans h)

theorem jsTrimL_of_head (l : List Char) (c : Char) (t : List Char)
    (h : l.dropWhile jsWs = c :: t) :
    jsTrimL l ≠ [] ∧ (jsTrimL l).head? = some c := by
  have hc : jsWs c = false := head_dropWhile_false jsWs l c (by rw [h]; rfl)
  have hne : jsTrimL l ≠ [] := by
    intro e
    have e2 : ((l.dropWhile jsWs).reverse.dropWhile jsWs).reverse = [] := e
    rw [h] at e2
    have e3 : (c :: t).reverse.dropWhile jsWs = [] := by
      simpa using congrArg List.reverse e2
    have hall := List.dropWhile_eq_nil_iff.mp e3
    have hcw := hall c (by simp)
    simp [hc] at hcw
  have hp : jsTrimL l <+: c :: t := by rw [← h]; exact jsTrimL_prefix_dropWhile l
  have hh := head?_of_prefix hp hne
  exact ⟨hne, hh.symm⟩

theorem jsTrimL_eq_self_of_ends (l : List Char)
    (h1 : ∀ c, l.head? = some c → jsWs c = false)
    (h2 : ∀ c, l.getLast? = some c → jsWs c = false) : jsTrimL l = l := by
  cases l with
  | nil => rfl
  | cons c t =>
    have hdw : (c :: t).dropWhile jsWs = c :: t := by
      rw [List.dropWhile_cons_of_neg]
      simp [h1 c rfl]
    have hrev : (c :: t).reverse.dropWhile jsWs = (c :: t).reverse := by
      rcases hr : (c :: t).reverse with _ | ⟨a, u⟩
      · exact absurd hr (by simp)
      · rw [List.dropWhile_cons_of_neg]
        have ha : (c :: t).getLast? = some a := by
          rw [← List.head?_reverse, hr]; rfl
        simp [h2 a ha]
    show (((c :: t).dropWhile jsWs).reverse.dropWhile jsWs).reverse = c :: t
    rw [hdw, hrev, List.reverse_reverse]

/-! ## Round trip: serialized document shape -/

/-- Char-list join with a separator list. -/
def interSep (sep : List Char) : List (List Char) → List Char
  | [] => []
  | [a] => a
  | a :: b :: t => a ++ sep ++ interSep sep (b :: t)

/-- The physical lines of one rendered header entry. -/
def entryLines : String × YVal → List (List Char)
  | (k, .scalar v) => [k.data ++ ':' :: ' ' :: (renderYamlScalar v).data]
  | (k, .list items) =>
    (k.data ++ [':']) ::
      items.map (fun v => ' ' :: ' ' :: '-' :: ' ' :: (renderYamlScalar v).data)

/-- The physical lines of a rendered header. -/
def headerLines (h : Yobj) : List (List Char) := (h.map entryLines).flatten

theorem entryLines_ne_nil (e : String × YVal) : entryLines e ≠ [] := by
  obtain ⟨k, v⟩ := e
  cases v <;> simp [entryLines]

theorem joinWith_data (sep : String) (L : List String) :
    (joinWith sep L).data = interSep sep.data (L.map String.data) := by
  induction L with
  | nil => rfl
  | cons a t ih =>
    cases t with
    | nil => rfl
    | cons b u =>
      show (a ++ sep ++ joinWith sep (b :: u)).data = _
      rw [String.data_append, String.data_append, ih]
      rfl

theorem renderYamlKeyValue_data (k : String) (v : YVal)
    (hv : ∀ its, v = YVal.list its → its ≠ []) :
    (renderYamlKeyValue k v).data = interSep ['\n'] (entryLines (k, v)) := by
  cases v with
  | scalar sc =>
    show (k ++ ": " ++ renderYamlScalar sc).data = _
    rw [String.data_append, String.data_append]
    show k.data ++ [':', ' '] ++ (renderYamlScalar sc).data = _
    simp [entryLines, interSep, List.append_assoc]
  | list items =>
    cases items with
    | nil => exact absurd rfl (hv [] rfl)
    | cons i rest =>
      have hmap : (i :: rest).map (String.data ∘ fun v => "  - " ++ renderYamlScalar v) =
          (i :: rest).map (fun v => ' ' :: ' ' :: '-' :: ' ' :: (renderYamlScalar v).data) := by
        refine List.map_congr_left fun x _ => ?_
        show ("  - " ++ renderYamlScalar x).data = _
        rw [String.data_append]
        rfl
      show (k ++ ":\n" ++ joinWith "\n" ((i :: rest).map
        (fun v => "  - " ++ renderYamlScalar v))).data = _
      rw [String.data_append, String.data_append, joinWith_data, List.map_map, hmap]
      simp [entryLines, interSep, List.append_assoc]

theorem interSep_append (sep : List Char) (A B : List (List Char))
    (hA : A ≠ []) (hB : B ≠ []) :
    interSep sep (A ++ B) = interSep sep A ++ sep ++ interSep sep B := by
  induction A with
  | nil => exact absurd rfl hA
  | cons a t ih =>
    cases t with
    | nil =>
      cases B with
      | nil => exact absurd rfl hB
      | cons b u => rfl
    | cons a2 t2 =>
      have ih2 := ih (by simp)
      show a ++ sep ++ interSep sep ((a2 :: t2) ++ B) = _
      rw [ih2]
      show _ = a ++ sep ++ interSep sep (a2 :: t2) ++ sep ++ interSep sep B
      simp [List.append_assoc]

theorem interSep_flatten (sep : List Char) (M : List (List (List Char)))
    (h : ∀ x ∈ M, x ≠ []) :
    interSep sep (M.map (interSep sep)) = interSep sep M.flatten := by
  induction M with
  | nil => rfl
  | cons x t ih =>
    cases t with
    | nil => simp [interSep]
    | cons y u =>
      have hy := h y (by simp)
      have hne : (y :: u).flatten ≠ [] := by
        cases y with
        | nil => exact absurd rfl hy
        | cons c cs => simp [List.flatten_cons]
      have ih2 := ih fun z hz => h z (List.mem_cons_of_mem x hz)
      show interSep sep x ++ sep ++ interSep sep ((y :: u).map (interSep sep)) = _
      rw [ih2]
      rw [show (x :: y :: u).flatten = x ++ (y :: u).flatten from rfl]
      rw [interSep_append sep x (y :: u).flatten (h x (by simp)) hne]

theorem formatFrontmatter_data (h : Yobj) (body : String)
    (hskip : ∀ e ∈ h, skipValue e.2 = false)
    (hlist : ∀ e ∈ h, ∀ its, e.2 = YVal.list its → its ≠ [])
    (hne : h ≠ []) :
    (formatFrontmatter h body).data =
      '-' :: '-' :: '-' :: '\n' ::
        (interSep ['\n'] (headerLines h) ++
          '\n' :: '-' :: '-' :: '-' :: '\n' :: '\n' ::
            ((jsTrim body).data ++ ['\n'])) := by
  have hfilter : h.filter (fun e => !skipValue e.2) = h :=
    List.filter_eq_self.mpr fun e he => by simp [hskip e he]
  have hmap : h.map (fun e => renderYamlKeyValue e.1 e.2) ≠ [] := by
    cases h with
    | nil => exact absurd rfl hne
    | cons e t => simp
  simp only [formatFrontmatter, hfilter]
  rw [if_neg hmap]
  simp only [String.data_append]
  rw [joinWith_data]
  have hcongr : (h.map fun e => renderYamlKeyValue e.1 e.2).map String.data =
      (h.map entryLines).map (interSep ['\n']) := by
    rw [List.map_map, List.map_map]
    refine List.map_congr_left fun e he => ?_
    show (renderYamlKeyValue e.1 e.2).data = interSep ['\n'] (entryLines e)
    rw [renderYamlKeyValue_data e.1 e.2 (hlist e he)]
  rw [hcongr, interSep_flatten ['\n'] (h.map entryLines)
    (fun x hx => by
      obtain ⟨e, he, rfl⟩ := List.mem_map.mp hx
      exact entryLines_ne_nil e)]
  show ['-', '-', '-', '\n'] ++ interSep ['\n'] (headerLines h) ++
      ['\n', '-', '-', '-', '\n', '\n'] ++ (jsTrim body).data ++ ['\n'] = _
  simp [List.append_assoc]

/-! ## Round trip: line splitting -/

theorem splitLinesRN_cons_other (c : Char) (t : List Char)
    (hc1 : c ≠ '\n') (hc2 : c ≠ '\r') :
    splitLinesRN (c :: t) =
      match splitLinesRN t with
      | [] => [[c]]
      | l :: ls => (c :: l) :: ls := by
  rw [splitLinesRN.eq_def]
  split
  · rename_i heq; exact absurd heq (by simp)
  · rename_i t' heq
    rw [List.cons.injEq] at heq
    exact absurd heq.1 hc2
  · rename_i t' heq
    rw [List.cons.injEq] at heq
    exact absurd heq.1 hc1
  · rename_i c' t' hne1 hne2 hne3 heq
    rw [List.cons.injEq] at heq
    obtain ⟨rfl, rfl⟩ := heq
    rfl

theorem splitLinesRN_no_nl (l : List Char) (h1 : '\n' ∉ l) (h2 : '\r' ∉ l) :
    splitLinesRN l = [l] := by
  induction l with
  | nil => rfl
  | cons c t ih =>
    simp only [List.mem_cons, not_or] at h1 h2
    rw [splitLinesRN_cons_other c t (fun e => h1.1 e.symm) (fun e => h2.1 e.symm)]
    rw [ih h1.2 h2.2]

theorem splitLinesRN_append (l : List Char) (h1 : '\n' ∉ l) (h2 : '\r' ∉ l)
    (X : List Char) :
    splitLinesRN (l ++ '\n' :: X) = l :: splitLinesRN X := by
  induction l with
  | nil =>
    show splitLinesRN ('\n' :: X) = [] :: splitLinesRN X
    rfl
  | cons c t ih =>
    simp only [List.mem_cons, not_or] at h1 h2
    show splitLinesRN (c :: (t ++ '\n' :: X)) = _
    rw [splitLinesRN_cons_other c _ (fun e => h1.1 e.symm) (fun e => h2.1 e.symm)]
    rw [ih h1.2 h2.2]

theorem splitLinesRN_interSep (lines : List (List Char))
    (hl : ∀ l ∈ lines, '\n' ∉ l ∧ '\r' ∉ l) (hne : lines ≠ []) :
    splitLinesRN (interSep ['\n'] lines) = lines := by
  induction lines with
  | nil => exact absurd rfl hne
  | cons l t ih =>
    obtain ⟨h1, h2⟩ := hl l (List.mem_cons_self l t)
    cases t with
    | nil => exact splitLinesRN_no_nl l h1 h2
    | cons l2 t2 =>
      have hstep : interSep ['\n'] (l :: l2 :: t2) =
          l ++ '\n' :: interSep ['\n'] (l2 :: t2) := by
        show l ++ ['\n'] ++ interSep ['\n'] (l2 :: t2) = _
        simp [List.append_assoc]
      rw [hstep, splitLinesRN_append l h1 h2]
      rw [ih (fun x hx => hl x (List.mem_cons_of_mem l hx)) (by simp)]

/-! ## Round trip: the closing-delimiter scan -/

theorem closeSplit_no_nl (l : List Char) (h1 : '\n' ∉ l) (h2 : '\r' ∉ l)
    (rest : List Char) :
    closeSplit (l ++ rest) = (closeSplit rest).map (fun g => (l ++ g.1, g.2)) := by
  induction l with
  | nil =>
    cases hr : closeSplit rest <;> simp [hr]
  | cons c t ih =>
    simp only [List.mem_cons, not_or] at h1 h2
    have hcn : ¬(c = '\n') := fun e => h1.1 e.symm
    have hcr : ¬(c = '\r') := fun e => h2.1 e.symm
    show closeSplit (c :: (t ++ rest)) = _
    rw [show closeSplit (c :: (t ++ rest)) =
        (closeSplit (t ++ rest)).map (fun g => (c :: g.1, g.2)) from by
      simp [closeSplit, hcn, hcr]]
    rw [ih h1.2 h2.2]
    cases closeSplit rest <;> simp

theorem take3_dashes_of_append_nl (l2 tl : List Char)
    (h : ¬(['-', '-', '-'] <+: l2)) :
    (l2 ++ '\n' :: tl).take 3 ≠ ['-', '-', '-'] := by
  intro he
  match l2, h, he with
  | [], _, he => simp [List.take_succ_cons] at he
  | [a], _, he => simp [List.take_succ_cons] at he
  | [a, b], _, he => simp [List.take_succ_cons] at he
  | a :: b :: c2 :: t, h, he =>
    rw [show ((a :: b :: c2 :: t) ++ '\n' :: tl).take 3 = [a, b, c2] from rfl] at he
    obtain ⟨rfl, rfl, rfl⟩ := by simpa using he
    exact h ⟨t, rfl⟩

theorem closeSplit_lines (lines : List (List Char)) (R : List Char)
    (hl : ∀ l ∈ lines, '\n' ∉ l ∧ '\r' ∉ l ∧ ¬(['-', '-', '-'] <+: l))
    (hne : lines ≠ []) :
    closeSplit (interSep ['\n'] lines ++ '\n' :: '-' :: '-' :: '-' :: R) =
      some (interSep ['\n'] lines, R) := by
  induction lines with
  | nil => exact absurd rfl hne
  | cons l t ih =>
    obtain ⟨hn, hr, hd⟩ := hl l (List.mem_cons_self l t)
    cases t with
    | nil =>
      rw [show interSep ['\n'] [l] = l from rfl]
      rw [closeSplit_no_nl l hn hr]
      rw [show closeSplit ('\n' :: '-' :: '-' :: '-' :: R) = some ([], R) from by
        simp [closeSplit]]
      simp
    | cons l2 t2 =>
      have ih2 := ih (fun x hx => hl x (List.mem_cons_of_mem l hx)) (by simp)
      have hstep : interSep ['\n'] (l :: l2 :: t2) ++ '\n' :: '-' :: '-' :: '-' :: R =
          l ++ '\n' :: (interSep ['\n'] (l2 :: t2) ++ '\n' :: '-' :: '-' :: '-' :: R) := by
        show (l ++ ['\n'] ++ interSep ['\n'] (l2 :: t2)) ++ _ = _
        simp [List.append_assoc]
      rw [hstep, closeSplit_no_nl l hn hr]
      have hY : ∃ ytl, interSep ['\n'] (l2 :: t2) ++ '\n' :: '-' :: '-' :: '-' :: R =
          l2 ++ '\n' :: ytl := by
        cases t2 with
        | nil => exact ⟨'-' :: '-' :: '-' :: R, rfl⟩
        | cons l3 t3 =>
          refine ⟨interSep ['\n'] (l3 :: t3) ++ '\n' :: '-' :: '-' :: '-' :: R, ?_⟩
          show (l2 ++ ['\n'] ++ interSep ['\n'] (l3 :: t3)) ++ _ = _
          simp [List.append_assoc]
      obtain ⟨ytl, hY⟩ := hY
      obtain ⟨-, -, hd2⟩ := hl l2 (by simp)
      have htake : (interSep ['\n'] (l2 :: t2) ++ '\n' :: '-' :: '-' :: '-' :: R).take 3 ≠
          ['-', '-', '-'] := by
        rw [hY]
        exact take3_dashes_of_append_nl l2 ytl hd2
      have hclose : closeSplit ('\n' ::
          (interSep ['\n'] (l2 :: t2) ++ '\n' :: '-' :: '-' :: '-' :: R)) =
          (closeSplit (interSep ['\n'] (l2 :: t2) ++ '\n' :: '-' :: '-' :: '-' :: R)).map
            (fun g => ('\n' :: g.1, g.2)) := by
        simp [closeSplit, htake]
      rw [hclose, ih2]
      simp [interSep, List.append_assoc]

/-! ## Round trip: number shape facts -/

theorem parseDecimal_core (nb : Bool) (l1 : List Char) (neg : Bool) (ip fp : List Char)
    (h : (if l1.takeWhile isDigitChar = [] then none
          else if l1.drop (l1.takeWhile isDigitChar).length = [] then
            some (nb, l1.takeWhile isDigitChar, ([] : List Char))
          else if (l1.drop (l1.takeWhile isDigitChar).length).head? = some '.' then
            if (l1.drop (l1.takeWhile isDigitChar).length).tail.takeWhile isDigitChar = []
              then none
            else if (l1.drop (l1.takeWhile isDigitChar).length).tail.drop
                ((l1.drop (l1.takeWhile isDigitChar).length).tail.takeWhile
                  isDigitChar).length = [] then
              some (nb, l1.takeWhile isDigitChar,
                (l1.drop (l1.takeWhile isDigitChar).length).tail.takeWhile isDigitChar)
            else none
          else none) = some (neg, ip, fp)) :
    neg = nb ∧ l1 = ip ++ (if fp = [] then [] else '.' :: fp) ∧ ip ≠ [] ∧
      (∀ c ∈ ip, isDigitChar c = true) ∧ (∀ c ∈ fp, isDigitChar c = true) := by
  rw [drop_length_takeWhile, drop_length_takeWhile] at h
  set tw := l1.takeWhile isDigitChar with htw
  set dw := l1.dropWhile isDigitChar with hdw
  have hsplit : tw ++ dw = l1 := List.takeWhile_append_dropWhile isDigitChar l1
  by_cases hip : tw = []
  · simp [hip] at h
  rw [if_neg hip] at h
  by_cases hrest : dw = []
  · rw [if_pos hrest, Option.some.injEq] at h
    obtain ⟨rfl, rfl, rfl⟩ := by simpa using h
    refine ⟨rfl, ?_, hip, fun c hc => ?_, by simp⟩
    · rw [if_pos rfl, List.append_nil, ← hsplit, hrest, List.append_nil]
    · exact List.mem_takeWhile_imp (htw ▸ hc)
  rw [if_neg hrest] at h
  by_cases hdot : dw.head? = some '.'
  case neg => rw [if_neg hdot] at h; simp at h
  rw [if_pos hdot] at h
  obtain ⟨dt, hdt⟩ : ∃ dt, dw = '.' :: dt := by
    rcases hdw2 : dw with _ | ⟨x, xs⟩
    · rw [hdw2] at hdot; simp at hdot
    · rw [hdw2] at hdot
      simp only [List.head?_cons, Option.some.injEq] at hdot
      exact ⟨xs, by rw [hdot]⟩
  set tw2 := dw.tail.takeWhile isDigitChar with htw2
  by_cases hfp : tw2 = []
  · simp [hfp] at h
  rw [if_neg hfp] at h
  by_cases hend : dw.tail.dropWhile isDigitChar = []
  case neg => rw [if_neg hend] at h; simp at h
  rw [if_pos hend, Option.some.injEq] at h
  obtain ⟨rfl, rfl, rfl⟩ := by simpa using h
  have htail : dw.tail = tw2 := by
    have h2 : tw2 ++ dw.tail.dropWhile isDigitChar = dw.tail :=
      List.takeWhile_append_dropWhile isDigitChar dw.tail
    rw [hend, List.append_nil] at h2
    exact h2.symm
  have hdt2 : dw.tail = dt := by rw [hdt]; rfl
  refine ⟨rfl, ?_, hip, fun c hc => ?_, fun c hc => ?_⟩
  · rw [if_neg hfp, ← hsplit, hdt, ← hdt2, htail]
  · exact List.mem_takeWhile_imp (htw ▸ hc)
  · exact List.mem_takeWhile_imp (htw2 ▸ hc)

theorem parseDecimal_shape (l : List Char) (neg : Bool) (ip fp : List Char)
    (h : parseDecimal l = some (neg, ip, fp)) :
    l = (if neg then ['-'] else []) ++ ip ++ (if fp = [] then [] else '.' :: fp) ∧
      ip ≠ [] ∧ (∀ c ∈ ip, isDigitChar c = true) ∧
      (∀ c ∈ fp, isDigitChar c = true) := by
  by_cases hh : l.head? = some '-'
  · obtain ⟨t, rfl⟩ : ∃ t, l = '-' :: t := by
      cases l with
      | nil => simp at hh
      | cons c u =>
        simp only [List.head?_cons, Option.some.injEq] at hh
        exact ⟨u, by rw [hh]⟩
    have hunfold : parseDecimal ('-' :: t) =
        (if t.takeWhile isDigitChar = [] then none
         else if t.drop (t.takeWhile isDigitChar).length = [] then
           some (true, t.takeWhile isDigitChar, ([] : List Char))
         else if (t.drop (t.takeWhile isDigitChar).length).head? = some '.' then
           if (t.drop (t.takeWhile isDigitChar).length).tail.takeWhile isDigitChar = []
             then none
           else if (t.drop (t.takeWhile isDigitChar).length).tail.drop
               ((t.drop (t.takeWhile isDigitChar).length).tail.takeWhile
                 isDigitChar).length = [] then
             some (true, t.takeWhile isDigitChar,
               (t.drop (t.takeWhile isDigitChar).length).tail.takeWhile isDigitChar)
           else none
         else none) := rfl
    rw [hunfold] at h
    obtain ⟨hu, hl1, hip, hdip, hdfp⟩ := parseDecimal_core true t neg ip fp h
    subst hu
    refine ⟨?_, hip, hdip, hdfp⟩
    rw [if_pos rfl, hl1]
    simp [List.append_assoc]
  · have hneg : decide (l.head? = some '-') = false := decide_eq_false hh
    have hunfold : parseDecimal l =
        (if l.takeWhile isDigitChar = [] then none
         else if l.drop (l.takeWhile isDigitChar).length = [] then
           some (false, l.takeWhile isDigitChar, ([] : List Char))
         else if (l.drop (l.takeWhile isDigitChar).length).head? = some '.' then
           if (l.drop (l.takeWhile isDigitChar).length).tail.takeWhile isDigitChar = []
             then none
           else if (l.drop (l.takeWhile isDigitChar).length).tail.drop
               ((l.drop (l.takeWhile isDigitChar).length).tail.takeWhile
                 isDigitChar).length = [] then
             some (false, l.takeWhile isDigitChar,
               (l.drop (l.takeWhile isDigitChar).length).tail.takeWhile isDigitChar)
           else none
         else none) := by
      simp only [parseDecimal, hneg]
      rfl
    rw [hunfold] at h
    obtain ⟨hu, hl1, hip, hdip, hdfp⟩ := parseDecimal_core false l neg ip fp h
    subst hu
    refine ⟨?_, hip, hdip, hdfp⟩
    rw [hl1]
    simp

theorem num_shape (r : String) (h : jsNumSafe r = true) :
    ∃ neg ip fp, parseDecimal r.data = some (neg, ip, fp) ∧
      r.data = (if neg then ['-'] else []) ++ ip ++ (if fp = [] then [] else '.' :: fp) ∧
      ip ≠ [] ∧ (∀ c ∈ ip, isDigitChar c = true) ∧
      (∀ c ∈ fp, isDigitChar c = true) := by
  have hm : matchesNumRegexL r.data = true := by
    simp only [jsNumSafe, Bool.and_eq_true] at h
    exact h.1.1
  rw [matchesNumRegexL] at hm
  obtain ⟨⟨neg, ip, fp⟩, hp⟩ := Option.isSome_iff_exists.mp hm
  obtain ⟨h1, h2, h3, h4⟩ := parseDecimal_shape r.data neg ip fp hp
  exact ⟨neg, ip, fp, hp, h1, h2, h3, h4⟩

theorem jsNumSafe_canon (r : String) (h : jsNumSafe r = true) :
    canonDecimalL r.data = r.data := by
  simp only [jsNumSafe, Bool.and_eq_true, decide_eq_true_eq] at h
  exact h.1.2

theorem num_chars (r : String) (h : jsNumSafe r = true) :
    ∀ c ∈ r.data, c = '-' ∨ c = '.' ∨ isDigitChar c = true := by
  obtain ⟨neg, ip, fp, -, hshape, -, hip, hfp⟩ := num_shape r h
  intro c hc
  rw [hshape] at hc
  simp only [List.append_assoc, List.mem_append] at hc
  rcases hc with hc | hc | hc
  · left
    split at hc
    · simpa using hc
    · simp at hc
  · right; right; exact hip c hc
  · split at hc
    · simp at hc
    · rcases List.mem_cons.mp hc with rfl | hc2
      · right; left; rfl
      · right; right; exact hfp c hc2

theorem num_ne_nil (r : String) (h : jsNumSafe r = true) : r.data ≠ [] := by
  obtain ⟨neg, ip, fp, -, hshape, hip, -, -⟩ := num_shape r h
  rw [hshape]
  intro he
  rcases List.append_eq_nil.mp he with ⟨h1, -⟩
  rcases List.append_eq_nil.mp h1 with ⟨-, h2⟩
  exact hip h2

theorem num_head (r : String) (h : jsNumSafe r = true) (c : Char)
    (hc : r.data.head? = some c) : c = '-' ∨ isDigitChar c = true := by
  obtain ⟨neg, ip, fp, -, hshape, hip, hdip, -⟩ := num_shape r h
  rw [hshape] at hc
  cases neg with
  | true =>
    have he : ((if (true : Bool) then ['-'] else []) ++ ip ++
        (if fp = [] then [] else '.' :: fp)).head? = some '-' := by
      rw [if_pos rfl]
      rfl
    rw [he, Option.some.injEq] at hc
    exact Or.inl hc.symm
  | false =>
    cases hip2 : ip with
    | nil => exact absurd hip2 hip
    | cons d it =>
      rw [hip2] at hc
      have he : ((if (false : Bool) then ['-'] else []) ++ (d :: it) ++
          (if fp = [] then [] else '.' :: fp)).head? = some d := by
        rw [if_neg (by simp)]
        rfl
      rw [he, Option.some.injEq] at hc
      subst hc
      exact Or.inr (hdip d (by rw [hip2]; exact List.mem_cons_self d it))

theorem mem_of_getLast? {l : List Char} {c : Char} (h : l.getLast? = some c) :
    c ∈ l := by
  rw [← List.head?_reverse] at h
  have h2 : c ∈ l.reverse := by
    cases hr : l.reverse with
    | nil => rw [hr] at h; cases h
    | cons x xs =>
      rw [hr] at h
      simp only [List.head?_cons, Option.some.injEq] at h
      subst h
      exact List.mem_cons_self x xs
  exact List.mem_reverse.mp h2

theorem num_last (r : String) (h : jsNumSafe r = true) (c : Char)
    (hc : r.data.getLast? = some c) : isDigitChar c = true := by
  obtain ⟨neg, ip, fp, -, hshape, hip, hdip, hdfp⟩ := num_shape r h
  rw [hshape] at hc
  by_cases hfp : fp = []
  · subst hfp
    rw [if_pos rfl, List.append_nil, List.getLast?_append_of_ne_nil _ hip] at hc
    exact hdip c (mem_of_getLast? hc)
  · rw [if_neg hfp, List.getLast?_append_of_ne_nil _ (by simp)] at hc
    have h2 : ('.' :: fp : List Char) = ['.'] ++ fp := rfl
    rw [h2, List.getLast?_append_of_ne_nil _ hfp] at hc
    exact hdfp c (mem_of_getLast? hc)

/-! ## Round trip: rendered scalar facts -/

theorem render_ne_nil (sc : YScalar) (h : scalarOk sc = true) :
    (renderYamlScalar sc).data ≠ [] := by
  cases sc with
  | str s =>
    rw [show renderYamlScalar (.str s) = jsonStringifyStr s from rfl,
      jsonStringify_plain s h]
    simp
  | num r => exact num_ne_nil r h
  | bool b => cases b <;> decide

theorem render_head_not_ws (sc : YScalar) (h : scalarOk sc = true) (c : Char)
    (hc : (renderYamlScalar sc).data.head? = some c) : jsWs c = false := by
  cases sc with
  | str s =>
    rw [show renderYamlScalar (.str s) = jsonStringifyStr s from rfl,
      jsonStringify_plain s h] at hc
    rw [show ('"' :: s.data ++ ['"'] : List Char).head? = some '"' from rfl,
      Option.some.injEq] at hc
    subst hc
    decide
  | num r =>
    rcases num_head r h c hc with rfl | hd
    · decide
    · exact digit_not_ws c hd
  | bool b =>
    cases b
    · rw [show (renderYamlScalar (.bool false)).data = ['f', 'a', 'l', 's', 'e'] from rfl] at hc
      rw [show (['f', 'a', 'l', 's', 'e'] : List Char).head? = some 'f' from rfl,
        Option.some.injEq] at hc
      subst hc
      decide
    · rw [show (renderYamlScalar (.bool true)).data = ['t', 'r', 'u', 'e'] from rfl] at hc
      rw [show (['t', 'r', 'u', 'e'] : List Char).head? = some 't' from rfl,
        Option.some.injEq] at hc
      subst hc
      decide

theorem render_last_not_ws (sc : YScalar) (h : scalarOk sc = true) (c : Char)
    (hc : (renderYamlScalar sc).data.getLast? = some c) : jsWs c = false := by
  cases sc with
  | str s =>
    rw [show renderYamlScalar (.str s) = jsonStringifyStr s from rfl,
      jsonStringify_plain s h] at hc
    rw [List.getLast?_concat, Option.some.injEq] at hc
    subst hc
    decide
  | num r => exact digit_not_ws c (num_last r h c hc)
  | bool b =>
    cases b
    · rw [show (renderYamlScalar (.bool false)).data = ['f', 'a', 'l', 's', 'e'] from rfl] at hc
      rw [show (['f', 'a', 'l', 's', 'e'] : List Char).getLast? = some 'e' from rfl,
        Option.some.injEq] at hc
      subst hc
      decide
    · rw [show (renderYamlScalar (.bool true)).data = ['t', 'r', 'u', 'e'] from rfl] at hc
      rw [show (['t', 'r', 'u', 'e'] : List Char).getLast? = some 'e' from rfl,
        Option.some.injEq] at hc
      subst hc
      decide

theorem render_not_excluded (sc : YScalar) (h : scalarOk sc = true) :
    ∀ c ∈ (renderYamlScalar sc).data, jsDotExcluded c = false := by
  intro c hcmem
  cases sc with
  | str s =>
    rw [show renderYamlScalar (.str s) = jsonStringifyStr s from rfl,
      jsonStringify_plain s h] at hcmem
    rcases List.mem_append.mp hcmem with hm | hm
    · rcases List.mem_cons.mp hm with rfl | hm2
      · decide
      · have h' : s.data.all strOkChar = true := h
        have hok : strOkChar c = true := by
          simpa using List.all_eq_true.mp h' c hm2
        exact strOkChar_not_excluded c hok
    · have he : c = '"' := by simpa using hm
      subst he
      decide
  | num r =>
    rcases num_chars r h c hcmem with rfl | rfl | hd
    · decide
    · decide
    · exact digit_not_excluded c hd
  | bool b =>
    cases b
    · have hm : c ∈ (['f', 'a', 'l', 's', 'e'] : List Char) := hcmem
      fin_cases hm <;> decide
    · have hm : c ∈ (['t', 'r', 'u', 'e'] : List Char) := hcmem
      fin_cases hm <;> decide

theorem render_all_not_excluded (sc : YScalar) (h : scalarOk sc = true) :
    ((renderYamlScalar sc).data.all fun c => !jsDotExcluded c) = true := by
  refine List.all_eq_true.mpr fun c hc => ?_
  simp [render_not_excluded sc h c hc]

theorem render_trim (sc : YScalar) (h : scalarOk sc = true) :
    jsTrimL (renderYamlScalar sc).data = (renderYamlScalar sc).data :=
  jsTrimL_eq_self_of_ends _ (render_head_not_ws sc h) (render_last_not_ws sc h)

theorem render_dropWhile (sc : YScalar) (h : scalarOk sc = true) :
    (renderYamlScalar sc).data.dropWhile jsWs = (renderYamlScalar sc).data := by
  cases hd : (renderYamlScalar sc).data with
  | nil => rfl
  | cons c t =>
    rw [List.dropWhile_cons_of_neg]
    have hw := render_head_not_ws sc h c (by rw [hd]; rfl)
    simp [hw]

/-! ## Round trip: coercion inverts rendering -/

theorem coerce_cons (q : Char) (rest : List Char) :
    coerceYamlScalarL (q :: rest) =
      (if (q = '"' || q = '\'') && rest ≠ [] && rest.getLast? = some q &&
          rest.dropLast.all (fun c => !jsDotExcluded c) then
        YScalar.str ⟨rest.dropLast⟩
      else if q :: rest = ['t', 'r', 'u', 'e'] then .bool true
      else if q :: rest = ['f', 'a', 'l', 's', 'e'] then .bool false
      else if matchesNumRegexL (q :: rest) then .num ⟨canonDecimalL (q :: rest)⟩
      else .str ⟨q :: rest⟩) := rfl

theorem coerce_render (sc : YScalar) (h : scalarOk sc = true) :
    coerceYamlScalarL (renderYamlScalar sc).data = sc := by
  cases sc with
  | bool b => cases b <;> decide
  | str s =>
    rw [show renderYamlScalar (.str s) = jsonStringifyStr s from rfl,
      jsonStringify_plain s h]
    rw [show ('"' :: s.data ++ ['"'] : List Char) = '"' :: (s.data ++ ['"']) from rfl]
    rw [coerce_cons]
    have h' : s.data.all strOkChar = true := h
    have hcond : ((('"' : Char) = '"' || ('"' : Char) = '\'') && (s.data ++ ['"']) ≠ [] &&
        (s.data ++ ['"']).getLast? = some '"' &&
        (s.data ++ ['"']).dropLast.all (fun c => !jsDotExcluded c)) = true := by
      simp only [Bool.and_eq_true, Bool.or_eq_true, decide_eq_true_eq]
      refine ⟨⟨⟨Or.inl trivial, by simp⟩, List.getLast?_concat _⟩, ?_⟩
      rw [List.dropLast_concat]
      refine List.all_eq_true.mpr fun c hc => ?_
      have hok : strOkChar c = true := by
        simpa using List.all_eq_true.mp h' c hc
      simp [strOkChar_not_excluded c hok]
    rw [if_pos hcond, List.dropLast_concat]
  | num r =>
    show coerceYamlScalarL r.data = .num r
    have hm0 : matchesNumRegexL r.data = true := by
      have h2 : jsNumSafe r = true := h
      simp only [jsNumSafe, Bool.and_eq_true] at h2
      exact h2.1.1
    obtain ⟨c0, t0, hv⟩ : ∃ c0 t0, r.data = c0 :: t0 := by
      cases hd : r.data with
      | nil => exact absurd hd (num_ne_nil r h)
      | cons x xs => exact ⟨x, xs, rfl⟩
    have hc0 : c0 = '-' ∨ isDigitChar c0 = true :=
      num_head r h c0 (by rw [hv]; rfl)
    rw [hv, coerce_cons]
    have hcondF : ¬(((c0 = '"' || c0 = '\'') && t0 ≠ [] && t0.getLast? = some c0 &&
        t0.dropLast.all (fun c => !jsDotExcluded c)) = true) := by
      simp only [Bool.and_eq_true, Bool.or_eq_true, decide_eq_true_eq]
      rintro ⟨⟨⟨hA, -⟩, -⟩, -⟩
      rcases hc0 with rfl | hd0
      · rcases hA with e | e <;> exact absurd e (by decide)
      · rcases hA with rfl | rfl <;> exact absurd hd0 (by decide)
    rw [if_neg hcondF]
    have hvt : ¬(c0 :: t0 = ['t', 'r', 'u', 'e']) := by
      intro e
      rw [hv, e] at hm0
      exact absurd hm0 (by decide)
    have hvf : ¬(c0 :: t0 = ['f', 'a', 'l', 's', 'e']) := by
      intro e
      rw [hv, e] at hm0
      exact absurd hm0 (by decide)
    rw [if_neg hvt, if_neg hvf]
    have hm : matchesNumRegexL (c0 :: t0) = true := by rw [← hv]; exact hm0
    rw [if_pos hm, ← hv, jsNumSafe_canon r h]

/-! ## Round trip: header line properties -/

theorem keyOkB_facts (k : String) (hk : keyOkB k = true) :
    k.data ≠ [] ∧ (∀ c ∈ k.data, keyChar c = true) ∧
      ¬(['-', '-', '-'] <+: k.data) := by
  simp only [keyOkB, Bool.and_eq_true] at hk
  obtain ⟨⟨h1, h2⟩, h3⟩ := hk
  simp only [Bool.not_eq_true'] at h1 h3
  refine ⟨?_, ?_, ?_⟩
  · intro e
    rw [e] at h1
    simp at h1
  · intro c hc
    simpa using List.all_eq_true.mp h2 c hc
  · intro hpre
    have := List.isPrefixOf_iff_prefix.mpr hpre
    rw [h3] at this
    cases this

theorem line_no_ctl (l : List Char)
    (hc : ∀ c ∈ l, keyChar c = true ∨ c = ':' ∨ c = ' ' ∨ c = '-' ∨
      jsDotExcluded c = false) :
    '\n' ∉ l ∧ '\r' ∉ l := by
  constructor <;> intro hmem
  · rcases hc '\n' hmem with h | h | h | h | h
    · exact absurd h (by decide)
    · exact absurd h (by decide)
    · exact absurd h (by decide)
    · exact absurd h (by decide)
    · exact absurd h (by decide)
  · rcases hc '\r' hmem with h | h | h | h | h
    · exact absurd h (by decide)
    · exact absurd h (by decide)
    · exact absurd h (by decide)
    · exact absurd h (by decide)
    · exact absurd h (by decide)

theorem keyline_not_dashes (k : String) (hk : keyOkB k = true) (rest : List Char) :
    ¬(['-', '-', '-'] <+: k.data ++ ':' :: rest) := by
  obtain ⟨hne, -, hd⟩ := keyOkB_facts k hk
  intro hpre
  rcases hk3 : k.data with _ | ⟨a, t⟩
  · exact hne hk3
  rcases t with _ | ⟨b, t2⟩
  · rw [hk3] at hpre
    obtain ⟨u, hu⟩ := hpre
    simp at hu
  rcases t2 with _ | ⟨c3, t3⟩
  · rw [hk3] at hpre
    obtain ⟨u, hu⟩ := hpre
    simp at hu
  · rw [hk3] at hpre
    obtain ⟨u, hu⟩ := hpre
    simp only [List.cons_append, List.cons.injEq] at hu
    obtain ⟨ha, hb, hc3, -⟩ := hu
    apply hd
    rw [hk3, ← ha, ← hb, ← hc3]
    exact ⟨t3, rfl⟩

theorem itemline_not_dashes (S : List Char) :
    ¬(['-', '-', '-'] <+: (' ' :: ' ' :: '-' :: ' ' :: S)) := by
  intro hpre
  obtain ⟨u, hu⟩ := hpre
  simp at hu

theorem scalarOk_of_valueOk (sc : YScalar) (hv : valueOk (.scalar sc) = true) :
    scalarOk sc = true := by
  cases sc with
  | str s =>
    simp only [valueOk, Bool.and_eq_true] at hv
    exact hv.1
  | num r => exact hv
  | bool b => rfl

theorem headerLines_ok (h : Yobj) (hh : headerOk h) :
    ∀ l ∈ headerLines h, '\n' ∉ l ∧ '\r' ∉ l ∧ ¬(['-', '-', '-'] <+: l) := by
  intro l hl
  rw [headerLines, List.mem_flatten] at hl
  obtain ⟨ls, hls, hlmem⟩ := hl
  obtain ⟨e, he, rfl⟩ := List.mem_map.mp hls
  obtain ⟨hk, hv⟩ := hh.2 e he
  obtain ⟨k, v⟩ := e
  cases v with
  | scalar sc =>
    have hsc : scalarOk sc = true := scalarOk_of_valueOk sc hv
    have hl2 : l = k.data ++ ':' :: ' ' :: (renderYamlScalar sc).data := by
      simpa [entryLines] using hlmem
    subst hl2
    have hchars : ∀ c ∈ k.data ++ ':' :: ' ' :: (renderYamlScalar sc).data,
        keyChar c = true ∨ c = ':' ∨ c = ' ' ∨ c = '-' ∨ jsDotExcluded c = false := by
      intro c hc
      rcases List.mem_append.mp hc with hm | hm
      · exact Or.inl ((keyOkB_facts k hk).2.1 c hm)
      · rcases List.mem_cons.mp hm with rfl | hm2
        · exact Or.inr (Or.inl rfl)
        · rcases List.mem_cons.mp hm2 with rfl | hm3
          · exact Or.inr (Or.inr (Or.inl rfl))
          · exact Or.inr (Or.inr (Or.inr (Or.inr (render_not_excluded sc hsc c hm3))))
    obtain ⟨hnl, hnr⟩ := line_no_ctl _ hchars
    exact ⟨hnl, hnr, keyline_not_dashes k hk _⟩
  | list items =>
    have hitems : ∀ sc ∈ items, scalarOk sc = true := by
      simp only [valueOk, Bool.and_eq_true] at hv
      intro sc hs
      simpa using List.all_eq_true.mp hv.2 sc hs
    simp only [entryLines] at hlmem
    rcases List.mem_cons.mp hlmem with rfl | hm
    · have hchars : ∀ c ∈ k.data ++ [':'],
          keyChar c = true ∨ c = ':' ∨ c = ' ' ∨ c = '-' ∨ jsDotExcluded c = false := by
        intro c hc
        rcases List.mem_append.mp hc with hm | hm
        · exact Or.inl ((keyOkB_facts k hk).2.1 c hm)
        · have he2 : c = ':' := by simpa using hm
          exact Or.inr (Or.inl he2)
      obtain ⟨hnl, hnr⟩ := line_no_ctl _ hchars
      exact ⟨hnl, hnr, keyline_not_dashes k hk []⟩
    · obtain ⟨sc, hsc0, rfl⟩ := List.mem_map.mp hm
      have hsc : scalarOk sc = true := hitems sc hsc0
      have hchars : ∀ c ∈ ' ' :: ' ' :: '-' :: ' ' :: (renderYamlScalar sc).data,
          keyChar c = true ∨ c = ':' ∨ c = ' ' ∨ c = '-' ∨ jsDotExcluded c = false := by
        intro c hc
        rcases List.mem_cons.mp hc with rfl | hc
        · exact Or.inr (Or.inr (Or.inl rfl))
        rcases List.mem_cons.mp hc with rfl | hc
        · exact Or.inr (Or.inr (Or.inl rfl))
        rcases List.mem_cons.mp hc with rfl | hc
        · exact Or.inr (Or.inr (Or.inr (Or.inl rfl)))
        rcases List.mem_cons.mp hc with rfl | hc
        · exact Or.inr (Or.inr (Or.inl rfl))
        exact Or.inr (Or.inr (Or.inr (Or.inr (render_not_excluded sc hsc c hc))))
      obtain ⟨hnl, hnr⟩ := line_no_ctl _ hchars
      exact ⟨hnl, hnr, itemline_not_dashes _⟩

theorem headerLines_ne_nil (h : Yobj) (hne : h ≠ []) : headerLines h ≠ [] := by
  cases h with
  | nil => exact absurd rfl hne
  | cons e t =>
    cases hel : entryLines e with
    | nil => exact absurd hel (entryLines_ne_nil e)
    | cons x xs => simp [headerLines, hel]

/-! ## Round trip: line matcher evaluation -/

theorem keyline_head (k : String) (hk : keyOkB k = true) (rest : List Char) :
    ∃ c t, k.data ++ rest = c :: t ∧ keyChar c = true := by
  obtain ⟨hne, hall, -⟩ := keyOkB_facts k hk
  cases hd : k.data with
  | nil => exact absurd hd hne
  | cons c t =>
    refine ⟨c, t ++ rest, rfl, hall c ?_⟩
    rw [hd]
    exact List.mem_cons_self c t

theorem keyline_checks (k : String) (hk : keyOkB k = true) (rest : List Char) :
    (k.data ++ rest) ≠ [] ∧ jsTrimL (k.data ++ rest) ≠ [] ∧
      (jsTrimL (k.data ++ rest)).head? ≠ some '#' := by
  obtain ⟨c, t, he, hc⟩ := keyline_head k hk rest
  have hcw : jsWs c = false := keyChar_not_ws c hc
  have hdw : (k.data ++ rest).dropWhile jsWs = c :: t := by
    rw [he, List.dropWhile_cons_of_neg (by simp [hcw])]
  obtain ⟨hne, hhd⟩ := jsTrimL_of_head (k.data ++ rest) c t hdw
  refine ⟨by rw [he]; simp, hne, ?_⟩
  rw [hhd]
  intro hcontra
  rw [Option.some.injEq] at hcontra
  subst hcontra
  exact absurd hc (by decide)

theorem matchKV_keyline (k : String) (hk : keyOkB k = true) (rest : List Char) :
    matchKV (k.data ++ ':' :: rest) =
      (if (rest.dropWhile jsWs).all (fun c => !jsDotExcluded c) then
        some (k, rest.dropWhile jsWs) else none) := by
  obtain ⟨hne, hall, -⟩ := keyOkB_facts k hk
  have hkc : keyChar ':' = false := by decide
  have hkey : (k.data ++ ':' :: rest).takeWhile keyChar = k.data := by
    rw [takeWhile_all_append keyChar k.data (':' :: rest) hall]
    simp [List.takeWhile_cons, hkc]
  simp only [matchKV, hkey]
  rw [if_neg hne, List.drop_left]
  rfl

theorem matchListItem_not_dash (line : List Char) (c : Char) (t : List Char)
    (hdw : line.dropWhile jsWs = c :: t) (hc : c ≠ '-') :
    matchListItem line = none := by
  rw [matchListItem.eq_def, hdw]
  split
  · rename_i t1 heq
    rw [List.cons.injEq] at heq
    exact absurd heq.1 hc
  · rfl

theorem matchListItem_dash_nonws (line : List Char) (t : List Char)
    (hdw : line.dropWhile jsWs = '-' :: t)
    (hnw : ∀ c t2, t = c :: t2 → jsWs c = false) :
    matchListItem line = none := by
  rw [matchListItem.eq_def, hdw]
  split
  · rename_i t1 heq
    rw [List.cons.injEq] at heq
    obtain ⟨-, rfl⟩ := heq
    cases t with
    | nil => rfl
    | cons c2 t2 =>
      have hw := hnw c2 t2 rfl
      simp [hw]
  · rfl

theorem matchListItem_keyline (k : String) (hk : keyOkB k = true) (rest : List Char) :
    matchListItem (k.data ++ ':' :: rest) = none := by
  obtain ⟨hne, hall, -⟩ := keyOkB_facts k hk
  cases hd : k.data with
  | nil => exact absurd hd hne
  | cons c t =>
    have hc : keyChar c = true := hall c (by rw [hd]; exact List.mem_cons_self c t)
    have hcw : jsWs c = false := keyChar_not_ws c hc
    have hdw : ((c :: t) ++ ':' :: rest).dropWhile jsWs = c :: (t ++ ':' :: rest) := by
      show (c :: (t ++ ':' :: rest)).dropWhile jsWs = _
      rw [List.dropWhile_cons_of_neg (by simp [hcw])]
    by_cases hcd : c = '-'
    · subst hcd
      refine matchListItem_dash_nonws _ _ hdw ?_
      intro c2 t2 he
      cases ht : t with
      | nil =>
        rw [ht] at he
        rw [show (([] : List Char) ++ ':' :: rest) = ':' :: rest from rfl,
          List.cons.injEq] at he
        obtain ⟨he1, -⟩ := he
        rw [← he1]
        decide
      | cons c3 t3 =>
        rw [ht, List.cons_append, List.cons.injEq] at he
        obtain ⟨he1, -⟩ := he
        rw [← he1]
        refine keyChar_not_ws c3 (hall c3 ?_)
        rw [hd, ht]
        simp
    · exact matchListItem_not_dash _ c _ hdw hcd

theorem matchListItem_itemline (sc : YScalar) (h : scalarOk sc = true) :
    matchListItem (' ' :: ' ' :: '-' :: ' ' :: (renderYamlScalar sc).data) =
      some (renderYamlScalar sc).data := by
  have hdw : (' ' :: ' ' :: '-' :: ' ' :: (renderYamlScalar sc).data).dropWhile jsWs =
      '-' :: (' ' :: (renderYamlScalar sc).data) := by
    rw [List.dropWhile_cons_of_pos (by decide), List.dropWhile_cons_of_pos (by decide),
      List.dropWhile_cons_of_neg (by decide)]
  have hcap : (' ' :: (renderYamlScalar sc).data).dropWhile jsWs =
      (renderYamlScalar sc).data := by
    rw [List.dropWhile_cons_of_pos (by decide)]
    exact render_dropWhile sc h
  rw [matchListItem.eq_def, hdw]
  split
  · rename_i t1 heq
    rw [List.cons.injEq] at heq
    obtain ⟨-, rfl⟩ := heq
    simp [show jsWs ' ' = true from by decide, hcap, render_all_not_excluded sc h]
  · rename_i hno
    exact absurd rfl (hno (' ' :: (renderYamlScalar sc).data))

/-! ## Round trip: one line of the parser -/

theorem parseYamlLine_scalar (d : Yobj) (clk : Option String) (k : String) (sc : YScalar)
    (hk : keyOkB k = true) (hsc : scalarOk sc = true) :
    parseYamlLine (d, clk) (k.data ++ ':' :: ' ' :: (renderYamlScalar sc).data) =
      (setEntry d k (.scalar sc), none) := by
  obtain ⟨hlne, htne, hthd⟩ := keyline_checks k hk (':' :: ' ' :: (renderYamlScalar sc).data)
  have hli : matchListItem (k.data ++ ':' :: ' ' :: (renderYamlScalar sc).data) = none :=
    matchListItem_keyline k hk (' ' :: (renderYamlScalar sc).data)
  have hcap : (' ' :: (renderYamlScalar sc).data).dropWhile jsWs =
      (renderYamlScalar sc).data := by
    rw [List.dropWhile_cons_of_pos (by decide)]
    exact render_dropWhile sc hsc
  have hkv : matchKV (k.data ++ ':' :: ' ' :: (renderYamlScalar sc).data) =
      some (k, (renderYamlScalar sc).data) := by
    rw [matchKV_keyline k hk (' ' :: (renderYamlScalar sc).data), hcap,
      if_pos (render_all_not_excluded sc hsc)]
  have hblank : ¬((k.data ++ ':' :: ' ' :: (renderYamlScalar sc).data = [] ||
      jsTrimL (k.data ++ ':' :: ' ' :: (renderYamlScalar sc).data) = [] ||
      (jsTrimL (k.data ++ ':' :: ' ' :: (renderYamlScalar sc).data)).head? = some '#') =
      true) := by
    simp only [Bool.or_eq_true, decide_eq_true_eq, not_or]
    exact ⟨⟨hlne, htne⟩, hthd⟩
  simp only [parseYamlLine]
  rw [if_neg hblank, hli, hkv]
  show (if (renderYamlScalar sc).data = [] then
      (if (getEntry d k).isSome then d else setEntry d k (.scalar (.str "")), some k)
    else (setEntry d k (.scalar (coerceYamlScalarL (jsTrimL (renderYamlScalar sc).data))),
      none)) = (setEntry d k (.scalar sc), none)
  rw [if_neg (render_ne_nil sc hsc), render_trim sc hsc, coerce_render sc hsc]

theorem parseYamlLine_listkey (d : Yobj) (clk : Option String) (k : String)
    (hk : keyOkB k = true) (hfresh : getEntry d k = none) :
    parseYamlLine (d, clk) (k.data ++ [':']) =
      (setEntry d k (.scalar (.str "")), some k) := by
  obtain ⟨hlne, htne, hthd⟩ := keyline_checks k hk [':']
  have hli : matchListItem (k.data ++ [':']) = none := matchListItem_keyline k hk []
  have hkv : matchKV (k.data ++ [':']) = some (k, []) := by
    have h0 := matchKV_keyline k hk []
    simpa using h0
  have hblank : ¬((k.data ++ [':'] = [] || jsTrimL (k.data ++ [':']) = [] ||
      (jsTrimL (k.data ++ [':'])).head? = some '#') = true) := by
    simp only [Bool.or_eq_true, decide_eq_true_eq, not_or]
    exact ⟨⟨hlne, htne⟩, hthd⟩
  simp only [parseYamlLine]
  rw [if_neg hblank, hli, hkv]
  show (if ([] : List Char) = [] then
      (if (getEntry d k).isSome then d else setEntry d k (.scalar (.str "")), some k)
    else (setEntry d k (.scalar (coerceYamlScalarL (jsTrimL []))), none)) =
    (setEntry d k (.scalar (.str "")), some k)
  rw [if_pos rfl, hfresh]
  rfl

theorem parseYamlLine_item (d : Yobj) (k : String) (sc : YScalar)
    (hsc : scalarOk sc = true) :
    parseYamlLine (d, some k) (' ' :: ' ' :: '-' :: ' ' :: (renderYamlScalar sc).data) =
      (pushListItem d k sc, some k) := by
  have hdw : (' ' :: ' ' :: '-' :: ' ' :: (renderYamlScalar sc).data).dropWhile jsWs =
      '-' :: (' ' :: (renderYamlScalar sc).data) := by
    rw [List.dropWhile_cons_of_pos (by decide), List.dropWhile_cons_of_pos (by decide),
      List.dropWhile_cons_of_neg (by decide)]
  obtain ⟨htne, hthd⟩ := jsTrimL_of_head _ '-' (' ' :: (renderYamlScalar sc).data) hdw
  have hblank : ¬((' ' :: ' ' :: '-' :: ' ' :: (renderYamlScalar sc).data = [] ||
      jsTrimL (' ' :: ' ' :: '-' :: ' ' :: (renderYamlScalar sc).data) = [] ||
      (jsTrimL (' ' :: ' ' :: '-' :: ' ' :: (renderYamlScalar sc).data)).head? =
        some '#') = true) := by
    simp only [Bool.or_eq_true, decide_eq_true_eq, not_or]
    refine ⟨⟨by simp, htne⟩, ?_⟩
    rw [hthd]
    simp
  simp only [parseYamlLine]
  rw [if_neg hblank, matchListItem_itemline sc hsc]
  show (pushListItem d k (coerceYamlScalarL (jsTrimL (renderYamlScalar sc).data)), some k) =
    (pushListItem d k sc, some k)
  rw [render_trim sc hsc, coerce_render sc hsc]

/-! ## Round trip: folding the rendered lines -/

theorem setEntry_setEntry {α : Type} (l : List (String × α)) (k : String) (v w : α) :
    setEntry (setEntry l k v) k w = setEntry l k w := by
  induction l with
  | nil => simp [setEntry]
  | cons e t ih =>
    obtain ⟨a, b⟩ := e
    by_cases ha : a = k
    · simp [setEntry, ha]
    · simp [setEntry, ha, ih]

theorem setEntry_eq_self {α : Type} (l : List (String × α)) (k : String) (v : α)
    (h : getEntry l k = some v) : setEntry l k v = l := by
  induction l with
  | nil => simp [getEntry] at h
  | cons e t ih =>
    obtain ⟨a, b⟩ := e
    by_cases ha : a = k
    · simp only [getEntry, if_pos ha, Option.some.injEq] at h
      simp [setEntry, ha, h]
    · simp only [getEntry, if_neg ha] at h
      simp [setEntry, ha, ih h]

theorem foldl_items (k : String) (items : List YScalar) :
    ∀ (d : Yobj) (acc : List YScalar),
      (∀ sc ∈ items, scalarOk sc = true) →
      getEntry d k = some (.list acc) →
      ((items.map fun v => ' ' :: ' ' :: '-' :: ' ' :: (renderYamlScalar v).data).foldl
        parseYamlLine (d, some k)) = (setEntry d k (.list (acc ++ items)), some k) := by
  induction items with
  | nil =>
    intro d acc hok hacc
    simp only [List.map_nil, List.foldl_nil]
    rw [List.append_nil, setEntry_eq_self d k _ hacc]
  | cons sc rest ih =>
    intro d acc hok hacc
    simp only [List.map_cons, List.foldl_cons]
    rw [parseYamlLine_item d k sc (hok sc (List.mem_cons_self sc rest))]
    have hpush : pushListItem d k sc = setEntry d k (.list (acc ++ [sc])) := by
      simp only [pushListItem, hacc]
    rw [hpush]
    have hget : getEntry (setEntry d k (.list (acc ++ [sc]))) k =
        some (.list (acc ++ [sc])) := getEntry_setEntry_self d k _
    rw [ih _ _ (fun s hs => hok s (List.mem_cons_of_mem sc hs)) hget]
    rw [setEntry_setEntry]
    simp [List.append_assoc]

theorem foldl_entry (d : Yobj) (clk : Option String) (k : String) (v : YVal)
    (hk : keyOkB k = true) (hv : valueOk v = true) (hfresh : getEntry d k = none) :
    ∃ clk', (entryLines (k, v)).foldl parseYamlLine (d, clk) = (d ++ [(k, v)], clk') := by
  cases v with
  | scalar sc =>
    refine ⟨none, ?_⟩
    show parseYamlLine (d, clk) (k.data ++ ':' :: ' ' :: (renderYamlScalar sc).data) = _
    rw [parseYamlLine_scalar d clk k sc hk (scalarOk_of_valueOk sc hv)]
    rw [setEntry_of_getEntry_none d k _ hfresh]
  | list items =>
    have hne : items ≠ [] := by
      simp only [valueOk, Bool.and_eq_true] at hv
      intro e
      rw [e] at hv
      simp at hv
    have hall : ∀ sc ∈ items, scalarOk sc = true := by
      simp only [valueOk, Bool.and_eq_true] at hv
      intro sc hs
      simpa using List.all_eq_true.mp hv.2 sc hs
    refine ⟨some k, ?_⟩
    show ((k.data ++ [':']) :: items.map fun v => ' ' :: ' ' :: '-' :: ' ' ::
        (renderYamlScalar v).data).foldl parseYamlLine (d, clk) = _
    rw [List.foldl_cons, parseYamlLine_listkey d clk k hk hfresh]
    cases items with
    | nil => exact absurd rfl hne
    | cons sc0 rest =>
      simp only [List.map_cons, List.foldl_cons]
      rw [parseYamlLine_item _ k sc0 (hall sc0 (List.mem_cons_self sc0 rest))]
      have hget0 : getEntry (setEntry d k (.scalar (.str ""))) k =
          some (.scalar (.str "")) := getEntry_setEntry_self d k _
      have hpush : pushListItem (setEntry d k (.scalar (.str ""))) k sc0 =
          setEntry d k (.list [sc0]) := by
        simp only [pushListItem, hget0]
        rw [setEntry_setEntry]
      rw [hpush]
      have hget1 : getEntry (setEntry d k (.list [sc0])) k = some (.list [sc0]) :=
        getEntry_setEntry_self d k _
      rw [foldl_items k rest _ _ (fun s hs => hall s (List.mem_cons_of_mem sc0 hs)) hget1]
      rw [setEntry_setEntry, setEntry_of_getEntry_none d k _ hfresh]
      rfl

theorem foldl_entries (entries : Yobj) :
    ∀ (d : Yobj) (clk : Option String),
      (∀ e ∈ entries, keyOkB e.1 = true ∧ valueOk e.2 = true) →
      (∀ e ∈ entries, getEntry d e.1 = none) →
      (entries.map Prod.fst).Nodup →
      ∃ clk', (headerLines entries).foldl parseYamlLine (d, clk) =
        (d ++ entries, clk') := by
  induction entries with
  | nil =>
    intro d clk _ _ _
    exact ⟨clk, by simp [headerLines]⟩
  | cons e rest ih =>
    intro d clk hok hfresh hnd
    obtain ⟨k, v⟩ := e
    have hhl : headerLines ((k, v) :: rest) = entryLines (k, v) ++ headerLines rest := by
      simp [headerLines]
    rw [hhl, List.foldl_append]
    obtain ⟨hk, hv⟩ := hok (k, v) (List.mem_cons_self _ _)
    obtain ⟨clk1, he1⟩ := foldl_entry d clk k v hk hv (hfresh (k, v) (List.mem_cons_self _ _))
    rw [he1]
    have hfresh2 : ∀ e2 ∈ rest, getEntry (d ++ [(k, v)]) e2.1 = none := by
      intro e2 he2
      rw [getEntry_append_right d [(k, v)] e2.1 (hfresh e2 (List.mem_cons_of_mem _ he2))]
      have hkne : k ≠ e2.1 := by
        simp only [List.map_cons, List.nodup_cons] at hnd
        intro e
        apply hnd.1
        rw [e]
        exact List.mem_map_of_mem Prod.fst he2
      simp [getEntry, hkne]
    have hnd2 : (rest.map Prod.fst).Nodup := by
      simp only [List.map_cons, List.nodup_cons] at hnd
      exact hnd.2
    obtain ⟨clk2, he2⟩ := ih (d ++ [(k, v)]) clk1
      (fun e2 h2 => hok e2 (List.mem_cons_of_mem _ h2)) hfresh2 hnd2
    rw [he2]
    exact ⟨clk2, by simp [List.append_assoc]⟩

/-! ## Round trip: assembling the document -/

theorem parseSimpleYaml_header (h : Yobj) (hh : headerOk h) (hne : h ≠ []) :
    parseSimpleYamlL (interSep ['\n'] (headerLines h)) = h := by
  have hok := headerLines_ok h hh
  simp only [parseSimpleYamlL]
  rw [splitLinesRN_interSep (headerLines h)
    (fun l hl => ⟨(hok l hl).1, (hok l hl).2.1⟩) (headerLines_ne_nil h hne)]
  obtain ⟨clk', hfold⟩ := foldl_entries h [] none hh.2 (fun e he => rfl) hh.1
  rw [hfold]
  simp

theorem interSep_head_cons (sep : List Char) (a : List Char) (L : List (List Char))
    (c : Char) (t : List Char) (ha : a = c :: t) (tail : List Char) :
    ∃ t2, interSep sep (a :: L) ++ tail = c :: t2 := by
  cases L with
  | nil =>
    rw [show interSep sep [a] = a from rfl, ha]
    exact ⟨t ++ tail, rfl⟩
  | cons b L2 =>
    rw [show interSep sep (a :: b :: L2) = a ++ sep ++ interSep sep (b :: L2) from rfl, ha]
    exact ⟨(t ++ (sep ++ interSep sep (b :: L2))) ++ tail, by simp [List.append_assoc]⟩

theorem headerLines_first (k : String) (v : YVal) (t : Yobj) :
    ∃ X L, headerLines ((k, v) :: t) = (k.data ++ X) :: L := by
  cases v with
  | scalar sc =>
    exact ⟨':' :: ' ' :: (renderYamlScalar sc).data, headerLines t, by
      simp [headerLines, entryLines]⟩
  | list items =>
    exact ⟨[':'], items.map (fun v => ' ' :: ' ' :: '-' :: ' ' ::
      (renderYamlScalar v).data) ++ headerLines t, by simp [headerLines, entryLines]⟩

theorem headerText_head (h : Yobj) (hh : headerOk h) (hne : h ≠ []) (tail : List Char) :
    ∃ c0 t0, interSep ['\n'] (headerLines h) ++ tail = c0 :: t0 ∧ jsWs c0 = false := by
  cases h with
  | nil => exact absurd rfl hne
  | cons e hrest =>
    obtain ⟨k, v⟩ := e
    obtain ⟨hk, -⟩ := hh.2 (k, v) (List.mem_cons_self _ _)
    obtain ⟨X, L, hfirst⟩ := headerLines_first k v hrest
    obtain ⟨hkne, hkall, -⟩ := keyOkB_facts k hk
    obtain ⟨c0, kt, hkd⟩ : ∃ c0 kt, k.data = c0 :: kt := by
      cases hc : k.data with
      | nil => exact absurd hc hkne
      | cons a b => exact ⟨a, b, rfl⟩
    have hc0 : keyChar c0 = true := hkall c0 (by rw [hkd]; exact List.mem_cons_self _ _)
    rw [hfirst]
    obtain ⟨t2, ht2⟩ := interSep_head_cons ['\n'] (k.data ++ X) L c0 (kt ++ X)
      (by rw [hkd]; rfl) tail
    exact ⟨c0, t2, ht2, keyChar_not_ws c0 hc0⟩

theorem body_part (T : String) (hT : ∀ c, T.data.head? = some c → jsWs c = false) :
    (⟨('\n' :: '\n' :: (T.data ++ ['\n'])).dropWhile jsWs⟩ : String) =
      (if T = "" then "" else T ++ "\n") := by
  obtain ⟨Tl⟩ := T
  rw [show ('\n' :: '\n' :: ((String.mk Tl).data ++ ['\n'])).dropWhile jsWs =
      (Tl ++ ['\n']).dropWhile jsWs from by
    rw [List.dropWhile_cons_of_pos (by decide), List.dropWhile_cons_of_pos (by decide)]]
  cases Tl with
  | nil =>
    rw [if_pos rfl]
    rfl
  | cons c1 t1 =>
    have hc1 : jsWs c1 = false := hT c1 rfl
    have hne2 : (⟨c1 :: t1⟩ : String) ≠ "" := by
      intro e
      have h2 := congrArg String.data e
      simp at h2
    rw [if_neg hne2]
    rw [show ((c1 :: t1) ++ ['\n']).dropWhile jsWs = c1 :: (t1 ++ ['\n']) from by
      show (c1 :: (t1 ++ ['\n'])).dropWhile jsWs = _
      rw [List.dropWhile_cons_of_neg (by simp [hc1])]]
    rfl

/-- C1, amended: for every nonempty header mapping in the codec's faithful
range — pairwise-distinct keys matching `[A-Za-z0-9_-]+` not starting with
three dashes, values that are booleans, exactly-representable plain decimals,
nonempty escape-free single-line strings, or nonempty lists of such scalars —
and every body string, parsing the serialized document returns exactly the
header mapping together with the trimmed body plus a trailing newline (or the
empty body when the trimmed body is empty) — not the trimmed body itself, as
the original claim stated; headers with empty-string values are dropped
entirely (`claim1_counterexample`). -/
theorem claim1_roundTrip (h : Yobj) (body : String)
    (hh : headerOk h) (hne : h ≠ []) :
    parseFrontmatter (formatFrontmatter h body) =
      (h, if jsTrim body = "" then "" else jsTrim body ++ "\n") := by
  have hskip : ∀ e ∈ h, skipValue e.2 = false := by
    intro e he
    obtain ⟨-, hv⟩ := hh.2 e he
    cases hv2 : e.2 with
    | scalar sc =>
      cases sc with
      | str s =>
        rw [hv2] at hv
        simp only [valueOk, Bool.and_eq_true, Bool.not_eq_true'] at hv
        have hs : s ≠ "" := by
          intro e2
          subst e2
          simp at hv
        simp [skipValue, hs]
      | num r => rfl
      | bool b => rfl
    | list items => rfl
  have hlist : ∀ e ∈ h, ∀ its, e.2 = YVal.list its → its ≠ [] := by
    intro e he its hits
    obtain ⟨-, hv⟩ := hh.2 e he
    rw [hits] at hv
    simp only [valueOk, Bool.and_eq_true, Bool.not_eq_true'] at hv
    intro e2
    subst e2
    simp at hv
  have hdata := formatFrontmatter_data h body hskip hlist hne
  obtain ⟨c0, t0, hHX, hc0w⟩ := headerText_head h hh hne
    ('\n' :: '-' :: '-' :: '-' :: '\n' :: '\n' :: ((jsTrim body).data ++ ['\n']))
  have hdoc : (formatFrontmatter h body).data =
      '-' :: '-' :: '-' :: '\n' :: (c0 :: t0) := by
    rw [hdata, hHX]
  have hclose : closeSplit (c0 :: t0) = some (interSep ['\n'] (headerLines h),
      '\n' :: '\n' :: ((jsTrim body).data ++ ['\n'])) := by
    rw [← hHX]
    exact closeSplit_lines (headerLines h) _ (headerLines_ok h hh)
      (headerLines_ne_nil h hne)
  have hltr1 : openCandidates.openCandidatesLtr (c0 :: t0) = [] := by
    rw [show openCandidates.openCandidatesLtr (c0 :: t0) =
        (if jsWs c0 then (if c0 = '\n' then [t0] else []) ++
          openCandidates.openCandidatesLtr t0 else []) from rfl]
    rw [if_neg (by simp [hc0w])]
  have hopen : openCandidates ('\n' :: (c0 :: t0)) = [c0 :: t0] := by
    rw [show openCandidates ('\n' :: (c0 :: t0)) =
        (openCandidates.openCandidatesLtr ('\n' :: (c0 :: t0))).reverse from rfl]
    rw [show openCandidates.openCandidatesLtr ('\n' :: (c0 :: t0)) =
        (if jsWs '\n' then (if ('\n' : Char) = '\n' then [c0 :: t0] else []) ++
          openCandidates.openCandidatesLtr (c0 :: t0) else []) from rfl]
    rw [if_pos (by decide), if_pos rfl, hltr1]
    rfl
  simp only [parseFrontmatter]
  rw [hdoc]
  show tryOpens ('-' :: '-' :: '-' :: '\n' :: (c0 :: t0))
    (openCandidates ('\n' :: (c0 :: t0))) = _
  rw [hopen]
  show (match closeSplit (c0 :: t0) with
    | some (g, r) => (parseSimpleYamlL g, (⟨r.dropWhile jsWs⟩ : String))
    | none => tryOpens ('-' :: '-' :: '-' :: '\n' :: (c0 :: t0)) []) = _
  rw [hclose]
  show (parseSimpleYamlL (interSep ['\n'] (headerLines h)),
    (⟨('\n' :: '\n' :: ((jsTrim body).data ++ ['\n'])).dropWhile jsWs⟩ : String)) = _
  rw [parseSimpleYaml_header h hh hne,
    body_part (jsTrim body) (fun c hc => jsTrimL_head_not_ws body.data c hc)]

/-- Witness for C1 at a concrete faithful header (string, number, boolean and
list values) and a body with surrounding whitespace. -/
theorem claim1_witness :
    headerOk [("name", YVal.scalar (.str "review")), ("count", .scalar (.num "3")),
      ("flag", .scalar (.bool true)),
      ("tags", .list [.str "a b", .num "-1.5", .bool false])] ∧
    parseFrontmatter (formatFrontmatter
      [("name", YVal.scalar (.str "review")), ("count", .scalar (.num "3")),
        ("flag", .scalar (.bool true)),
        ("tags", .list [.str "a b", .num "-1.5", .bool false])] "  hello\nworld  ") =
      ([("name", YVal.scalar (.str "review")), ("count", .scalar (.num "3")),
        ("flag", .scalar (.bool true)),
        ("tags", .list [.str "a b", .num "-1.5", .bool false])], "hello\nworld\n") := by
  constructor
  · exact ⟨by decide, by decide⟩
  · have hmain := claim1_roundTrip
      [("name", YVal.scalar (.str "review")), ("count", .scalar (.num "3")),
        ("flag", .scalar (.bool true)),
        ("tags", .list [.str "a b", .num "-1.5", .bool false])] "  hello\nworld  "
      ⟨by decide, by decide⟩ (by decide)
    exact hmain.trans (by decide)
